import Mathlib

/-!
# The molecule container of `molecule.c`

A shallow embedding of `src/C-molecule-library/molecule.c`.

* `double` is an ordered field `R` (the theorems that need `sqrt`, `cos`, `sin` take `R = ℝ`);
  the functions of `math.h` and the constant `PI` of the absent header are parameters.
  Division is the field's division, so a quotient by zero is `0` here (the C code yields
  NaN or an infinity); no theorem below relies on a quotient by zero unless it says so.
  The rounding of `double` arithmetic is not modelled: a theorem about the exact value of a
  computed coordinate says which functions it takes exactly, and `PI_binary64` and
  `sqrt_binary64` are the values that the constant and the square root have in binary64.
* `unsigned short` is a natural number, reduced modulo `USHRT` where the code does arithmetic.
* Dynamic storage is explicit: the atom arrays and the bond arrays live in a `Heap`, a bond
  keeps the *address* of an atom array (`bond.atoms`), and `realloc` may or may not move a
  block.  A function returns `none` when the C call would not return a container: a read or
  write outside a live block, a read of an uninitialised slot, or `exit`.
* `malloc` and `realloc` are assumed not to run out of memory, and handles passed to the
  functions are assumed non-NULL (the NULL branches of the source only call `exit`).
-/

namespace Molecule

/-! ## Integers -/

/-- The number of values of an `unsigned short` (16 bits), the type of the capacities in the
signature of `molmalloc`, of the atom indices in `bondset` and of `deg` in the rotations. -/
def USHRT : Nat := 65536

/-! ## Memory -/

/-- An array in dynamic storage: a slot is `none` until it has been written. -/
abbrev Block (α : Type) := List (Option α)

/-- A region of dynamic storage holding arrays of `α`; the address of an array is its
position in the list, and a released array is `none`. -/
abbrev Mem (α : Type) := List (Option (Block α))

/-- The live array at address `p`, if any. -/
def Mem.block {α : Type} (m : Mem α) (p : Nat) : Option (Block α) :=
  match m[p]? with
  | some (some b) => some b
  | _ => none

/-- Read of element `i` of the array at `p`, as in `p[i]`; `none` when the block is not live,
the index is outside it, or the slot was never written. -/
def Mem.read {α : Type} (m : Mem α) (p i : Nat) : Option α :=
  match m.block p with
  | some b =>
    match b[i]? with
    | some (some v) => some v
    | _ => none
  | none => none

/-- Write of element `i` of the array at `p`, as in `p[i] = v`; `none` when the block is not
live or the index is outside it. -/
def Mem.write {α : Type} (m : Mem α) (p i : Nat) (v : α) : Option (Mem α) :=
  match m.block p with
  | some b => if i < b.length then some (m.set p (some (b.set i (some v)))) else none
  | none => none

/-- The contents of an array after its size is changed to `n` slots: the old slots up to the
smaller of the two sizes, then unwritten slots. -/
def resize {α : Type} (n : Nat) (b : Block α) : Block α :=
  b.take n ++ List.replicate (n - b.length) none

/-- Allocation of a fresh array of `n` unwritten slots, as in `malloc(sizeof(α) * n)`:
the new memory and the address. -/
def Mem.malloc {α : Type} (m : Mem α) (n : Nat) : Mem α × Nat :=
  (m ++ [some (List.replicate n none)], m.length)

/-- The call `realloc(p, sizeof(α) * n)`: when `moved`, the contents go to a fresh address and
the old block is released; otherwise the block is resized where it is. -/
def Mem.realloc {α : Type} (m : Mem α) (p n : Nat) (moved : Bool) : Option (Mem α × Nat) :=
  match m.block p with
  | some b =>
    if moved then some (m.set p none ++ [some (resize n b)], m.length)
    else some (m.set p (some (resize n b)), p)
  | none => none

/-- The loop `for (int i = 0; i < n; i++) body`, on a state `σ`; it stops with `none` as soon
as an iteration does. -/
def forLoop {σ : Type} (body : Nat → σ → Option σ) : Nat → σ → Option σ
  | 0, s => some s
  | n + 1, s =>
    match forLoop body n s with
    | some s1 => body n s1
    | none => none

/-! ## Records -/

/-- Modelled from the spec: the record `atom` is declared in the header `molecule.h`, which is
absent.  An atom is an element label of at most two characters (`char element[3]` in the
signature of `atomset`) and a position `x`, `y`, `z`. -/
structure atom (R : Type) where
  element : List Char
  x : R
  y : R
  z : R
deriving DecidableEq

/-- Modelled from the spec: the record `bond` is declared in the absent header `molecule.h`.
A bond has the index of its first and of its second atom, the electron-pair count, the
derived endpoint coordinates, planar length, unit direction and depth, and `atoms`, the address
of the atom array that `bondset` stores and `compute_coords` indexes. -/
structure bond (R : Type) where
  a1 : Nat
  a2 : Nat
  epairs : Nat
  atoms : Nat
  x1 : R
  x2 : R
  y1 : R
  y2 : R
  len : R
  dx : R
  dy : R
  z : R
deriving DecidableEq

/-- The address of one element of an array: `&p[i]`. -/
structure Ptr where
  blk : Nat
  idx : Nat
deriving DecidableEq

/-- Dynamic storage: the atom arrays, the bond arrays, and the answers the allocator will give
to the coming calls of `realloc` on them (`true`: the block moves; none left: it stays). -/
structure Heap (R : Type) where
  atomMem : Mem (atom R)
  bondMem : Mem (bond R)
  moves : List Bool

/-- Modelled from the spec: the record `molecule` is declared in the absent header
`molecule.h`.  The container has an atom sequence and a bond sequence, each with a count and a
capacity (`unsigned short`, as the parameters of `molmalloc` that initialise them), and one
array of pointers per sequence.  `atoms` and `bonds` are addresses in the heap; the two arrays
of pointers are referred to by the container only and are kept by value, one slot per entry. -/
structure molecule where
  atom_max : Nat
  atom_no : Nat
  atoms : Nat
  atom_ptrs : Block Ptr
  bond_max : Nat
  bond_no : Nat
  bonds : Nat
  bond_ptrs : Block Ptr
deriving DecidableEq

/-- Modelled from the spec: the type `xform_matrix` is declared in the absent header
`molecule.h`; it is a 3x3 matrix of `double`, indexed `[i][k]` with `i, k < 3`. -/
abbrev xform_matrix (R : Type) := Fin 3 → Fin 3 → R

section Code

variable {R : Type} [LinearOrderedField R]

/-! ## Atoms and bonds -/

/-- The function `atomset` on the atom `a`: `strcpy` of the label into `char element[3]`, which
has room for two characters and the terminator, then the three coordinates. -/
def atomset (a : atom R) (element : List Char) (x y z : R) : Option (atom R) :=
  if element.length ≤ 2 then
    some { a with element := element, x := x, y := y, z := z }
  else none

/-- The function `atomget`: the label and the coordinates of the atom. -/
def atomget (a : atom R) : List Char × R × R × R :=
  (a.element, a.x, a.y, a.z)

/-- The call `atomset(&atoms[i], element, x, y, z)` on element `i` of the atom array at
address `atoms`: the record `atomset` leaves is written to that slot. -/
def atomset_at (h : Heap R) (atoms i : Nat) (element : List Char) (x y z : R) :
    Option (Heap R) :=
  match atomset ((h.atomMem.read atoms i).getD ⟨[], 0, 0, 0⟩) element x y z with
  | some a =>
    match h.atomMem.write atoms i a with
    | some m => some { h with atomMem := m }
    | none => none
  | none => none

/-- The function `compute_coords`: the two atoms are read through the address kept in the bond. -/
def compute_coords (sqrt : R → R) (h : Heap R) (b : bond R) : Option (bond R) :=
  match h.atomMem.read b.atoms b.a1, h.atomMem.read b.atoms b.a2 with
  | some a1, some a2 =>
    let b1 := { b with x1 := a1.x, y1 := a1.y }
    let b2 := { b1 with x2 := a2.x, y2 := a2.y }
    let b3 := { b2 with len := sqrt ((b2.x2 - b2.x1) ^ 2 + (b2.y2 - b2.y1) ^ 2) }
    let b4 := { b3 with dx := (b3.x2 - b3.x1) / b3.len }
    let b5 := { b4 with dy := (b4.y2 - b4.y1) / b4.len }
    some { b5 with z := (a1.z + a2.z) / 2 }
  | _, _ => none

/-- The function `bondset` on the bond `b`. -/
def bondset (sqrt : R → R) (h : Heap R) (b : bond R) (a1 a2 : Nat) (atoms : Nat)
    (epairs : Nat) : Option (bond R) :=
  compute_coords sqrt h { b with a1 := a1, a2 := a2, atoms := atoms, epairs := epairs }

/-- The function `bondget`: the indices, the atom array and the electron pairs of the bond. -/
def bondget (b : bond R) : Nat × Nat × Nat × Nat :=
  (b.a1, b.a2, b.atoms, b.epairs)

/-! ## The container -/

/-- The function `molmalloc`. -/
def molmalloc (h : Heap R) (atom_max bond_max : Nat) : Heap R × molecule :=
  let ma := h.atomMem.malloc atom_max
  let mb := h.bondMem.malloc bond_max
  ({ h with atomMem := ma.1, bondMem := mb.1 },
   { atom_max := atom_max, atom_no := 0, atoms := ma.2,
     atom_ptrs := List.replicate atom_max none,
     bond_max := bond_max, bond_no := 0, bonds := mb.2,
     bond_ptrs := List.replicate bond_max none })

/-- The next answer of the allocator and the answers left. -/
def nextMove (l : List Bool) : Bool × List Bool :=
  match l with
  | [] => (false, [])
  | b :: bs => (b, bs)

/-- The assignment `ptrs[i] = &p[i]`, in bounds of the pointer array. -/
def setPtr (p i : Nat) (ptrs : Block Ptr) : Option (Block Ptr) :=
  if i < ptrs.length then some (ptrs.set i (some ⟨p, i⟩)) else none

/-- The function `molappend_atom`; the atom is passed by value. -/
def molappend_atom (h : Heap R) (mol : molecule) (a : atom R) : Option (Heap R × molecule) :=
  let grown : Option (Heap R × molecule) :=
    if mol.atom_max = mol.atom_no then
      let atom_max := if mol.atom_max = 0 then 1 else (mol.atom_max * 2) % USHRT
      let mv := nextMove h.moves
      match h.atomMem.realloc mol.atoms atom_max mv.1 with
      | some (m, p) =>
        match forLoop (setPtr p) mol.atom_no (resize atom_max mol.atom_ptrs) with
        | some ptrs =>
          some ({ h with atomMem := m, moves := mv.2 },
                { mol with atom_max := atom_max, atoms := p, atom_ptrs := ptrs })
        | none => none
      | none => none
    else some (h, mol)
  match grown with
  | some (h1, mol1) =>
    match h1.atomMem.write mol1.atoms mol1.atom_no a, setPtr mol1.atoms mol1.atom_no mol1.atom_ptrs with
    | some m, some ptrs =>
      some ({ h1 with atomMem := m },
            { mol1 with atom_ptrs := ptrs, atom_no := (mol1.atom_no + 1) % USHRT })
    | _, _ => none
  | none => none

/-- The function `molappend_bond`; the bond is passed by value and stored as it is. -/
def molappend_bond (h : Heap R) (mol : molecule) (b : bond R) : Option (Heap R × molecule) :=
  let grown : Option (Heap R × molecule) :=
    if mol.bond_max = mol.bond_no then
      let bond_max := if mol.bond_max = 0 then 1 else (mol.bond_max * 2) % USHRT
      let mv := nextMove h.moves
      match h.bondMem.realloc mol.bonds bond_max mv.1 with
      | some (m, p) =>
        match forLoop (setPtr p) mol.bond_no (resize bond_max mol.bond_ptrs) with
        | some ptrs =>
          some ({ h with bondMem := m, moves := mv.2 },
                { mol with bond_max := bond_max, bonds := p, bond_ptrs := ptrs })
        | none => none
      | none => none
    else some (h, mol)
  match grown with
  | some (h1, mol1) =>
    match h1.bondMem.write mol1.bonds mol1.bond_no b, setPtr mol1.bonds mol1.bond_no mol1.bond_ptrs with
    | some m, some ptrs =>
      some ({ h1 with bondMem := m },
            { mol1 with bond_ptrs := ptrs, bond_no := (mol1.bond_no + 1) % USHRT })
    | _, _ => none
  | none => none

/-- One turn of the first loop of `molcopy`: `molappend_atom(dst, &src->atoms[i])`. -/
def molcopy_atom (src : molecule) (i : Nat) (s : Heap R × molecule) : Option (Heap R × molecule) :=
  match s.1.atomMem.read src.atoms i with
  | some a => molappend_atom s.1 s.2 a
  | none => none

/-- One turn of the second loop of `molcopy`: `molappend_bond(dst, &src->bonds[i])`. -/
def molcopy_bond (src : molecule) (i : Nat) (s : Heap R × molecule) : Option (Heap R × molecule) :=
  match s.1.bondMem.read src.bonds i with
  | some b => molappend_bond s.1 s.2 b
  | none => none

/-- The function `molcopy`: a container of the capacities of `src`, then every atom and every
bond of `src` appended in order (each read from the storage of `src`), then the two counts. -/
def molcopy (h : Heap R) (src : molecule) : Option (Heap R × molecule) :=
  let dst := molmalloc h src.atom_max src.bond_max
  match forLoop (molcopy_atom src) src.atom_no dst with
  | some s1 =>
    match forLoop (molcopy_bond src) src.bond_no s1 with
    | some s2 => some (s2.1, { s2.2 with atom_no := src.atom_no, bond_no := src.bond_no })
    | none => none
  | none => none

/-! ## Depth ordering -/

/-- The function `atom_compare` on two entries of `atom_ptrs`; an entry that was never written,
or that does not point to a written atom, cannot be read. -/
def atom_compare (h : Heap R) (a b : Option Ptr) : Option Int :=
  match a, b with
  | some a_ptr, some b_ptr =>
    match h.atomMem.read a_ptr.blk a_ptr.idx, h.atomMem.read b_ptr.blk b_ptr.idx with
    | some x, some y =>
      if x.z < y.z then some (-1)
      else if x.z > y.z then some 1
      else some 0
    | _, _ => none
  | _, _ => none

/-- The function `bond_compare` on two entries of `bond_ptrs`. -/
def bond_compare (h : Heap R) (a b : Option Ptr) : Option Int :=
  match a, b with
  | some a_ptr, some b_ptr =>
    match h.bondMem.read a_ptr.blk a_ptr.idx, h.bondMem.read b_ptr.blk b_ptr.idx with
    | some x, some y =>
      if x.z < y.z then some (-1)
      else if x.z > y.z then some 1
      else some 0
    | _, _ => none
  | _, _ => none

/-- Insertion of `x` before the first element that `compar` does not put before it. -/
def qsortInsert {α : Type} (compar : α → α → Option Int) (x : α) : List α → Option (List α)
  | [] => some [x]
  | y :: ys =>
    match compar x y with
    | some c =>
      if c ≤ 0 then some (x :: y :: ys)
      else
        match qsortInsert compar x ys with
        | some r => some (y :: r)
        | none => none
    | none => none

/-- The library routine `qsort` of `stdlib.h`, whose algorithm the C standard leaves open, taken
to be an insertion sort driven by the comparison function. -/
def qsort {α : Type} (compar : α → α → Option Int) : List α → Option (List α)
  | [] => some []
  | x :: xs =>
    match qsort compar xs with
    | some s => qsortInsert compar x s
    | none => none

/-- The function `molsort`: the first `atom_no` entries of `atom_ptrs` and the first `bond_no`
entries of `bond_ptrs` are sorted; nothing is written to the heap. -/
def molsort (h : Heap R) (mol : molecule) : Option (Heap R × molecule) :=
  if mol.atom_no ≤ mol.atom_ptrs.length ∧ mol.bond_no ≤ mol.bond_ptrs.length then
    match qsort (atom_compare h) (mol.atom_ptrs.take mol.atom_no),
          qsort (bond_compare h) (mol.bond_ptrs.take mol.bond_no) with
    | some sa, some sb =>
      some (h, { mol with atom_ptrs := sa ++ mol.atom_ptrs.drop mol.atom_no,
                          bond_ptrs := sb ++ mol.bond_ptrs.drop mol.bond_no })
    | _, _ => none
  else none

/-! ## Rotation -/

/-- The function `xrotation`; every entry of the matrix is assigned. -/
def xrotation (cos sin : R → R) (PI : R) (deg : Nat) : xform_matrix R :=
  let rad : R := (deg : R) * (PI / 180)
  ![![1, 0, 0],
    ![0, cos rad, -sin rad],
    ![0, sin rad, cos rad]]

/-- The function `yrotation`. -/
def yrotation (cos sin : R → R) (PI : R) (deg : Nat) : xform_matrix R :=
  let rad : R := (deg : R) * (PI / 180)
  ![![cos rad, 0, sin rad],
    ![0, 1, 0],
    ![-sin rad, 0, cos rad]]

/-- The function `zrotation`. -/
def zrotation (cos sin : R → R) (PI : R) (deg : Nat) : xform_matrix R :=
  let rad : R := (deg : R) * (PI / 180)
  ![![cos rad, -sin rad, 0],
    ![sin rad, cos rad, 0],
    ![0, 0, 1]]

/-- The body of the atom loop of `mol_xform` on one atom: `xformed[i][0]` starts at `0` and
accumulates `matrix[i][k] * vector[k][0]` for `k = 0, 1, 2`. -/
def xform_atom (matrix : xform_matrix R) (a : atom R) : atom R :=
  let vector : Fin 3 → R := ![a.x, a.y, a.z]
  let xformed : Fin 3 → R := fun i =>
    ([0, 1, 2] : List (Fin 3)).foldl (fun acc k => acc + matrix i k * vector k) 0
  { a with x := xformed 0, y := xformed 1, z := xformed 2 }

/-- One turn of the atom loop of `mol_xform`: atom `a` of `molecule->atoms` is read,
transformed and written back. -/
def mol_xform_atom (mol : molecule) (matrix : xform_matrix R) (a : Nat) (s : Heap R) :
    Option (Heap R) :=
  match s.atomMem.read mol.atoms a with
  | some atm =>
    match s.atomMem.write mol.atoms a (xform_atom matrix atm) with
    | some m => some { s with atomMem := m }
    | none => none
  | none => none

/-- One turn of the bond loop of `mol_xform`: `compute_coords(&molecule->bonds[b])`. -/
def mol_xform_bond (sqrt : R → R) (mol : molecule) (b : Nat) (s : Heap R) : Option (Heap R) :=
  match s.bondMem.read mol.bonds b with
  | some bd =>
    match compute_coords sqrt s bd with
    | some bd1 =>
      match s.bondMem.write mol.bonds b bd1 with
      | some m => some { s with bondMem := m }
      | none => none
    | none => none
  | none => none

/-- The function `mol_xform`: the atom loop over `molecule->atoms`, then `compute_coords` on
every bond of `molecule->bonds`; the record itself is not assigned to. -/
def mol_xform (sqrt : R → R) (h : Heap R) (mol : molecule) (matrix : xform_matrix R) :
    Option (Heap R × molecule) :=
  match forLoop (mol_xform_atom mol matrix) mol.atom_no h with
  | some h1 =>
    match forLoop (mol_xform_bond sqrt mol) mol.bond_no h1 with
    | some h2 => some (h2, mol)
    | none => none
  | none => none

/-! ## Well-formed containers -/

/-- The predicate of the data model: each count is at most the capacity. -/
def countsOk (mol : molecule) : Prop :=
  mol.atom_no ≤ mol.atom_max ∧ mol.bond_no ≤ mol.bond_max

instance (mol : molecule) : Decidable (countsOk mol) :=
  inferInstanceAs (Decidable (_ ∧ _))

/-- The atom storage is what `molmalloc` and `molappend_atom` leave: `atoms` is a live array of
`atom_max` slots, `atom_ptrs` has `atom_max` entries, and `atom_max` is an `unsigned short`. -/
def atomStoreOk (h : Heap R) (mol : molecule) : Prop :=
  (h.atomMem.block mol.atoms).map List.length = some mol.atom_max ∧
  mol.atom_ptrs.length = mol.atom_max ∧ mol.atom_max < USHRT

instance (h : Heap R) (mol : molecule) : Decidable (atomStoreOk h mol) :=
  inferInstanceAs (Decidable (_ ∧ _))

/-- The bond storage is what `molmalloc` and `molappend_bond` leave. -/
def bondStoreOk (h : Heap R) (mol : molecule) : Prop :=
  (h.bondMem.block mol.bonds).map List.length = some mol.bond_max ∧
  mol.bond_ptrs.length = mol.bond_max ∧ mol.bond_max < USHRT

instance (h : Heap R) (mol : molecule) : Decidable (bondStoreOk h mol) :=
  inferInstanceAs (Decidable (_ ∧ _))

/-- Every atom below `atom_no` has been written. -/
def atomsWritten (h : Heap R) (mol : molecule) : Prop :=
  ∀ i, i < mol.atom_no → (h.atomMem.read mol.atoms i).isSome = true

instance (h : Heap R) (mol : molecule) : Decidable (atomsWritten h mol) :=
  inferInstanceAs (Decidable (∀ i, i < mol.atom_no → _))

/-- Every bond below `bond_no` has been written. -/
def bondsWritten (h : Heap R) (mol : molecule) : Prop :=
  ∀ j, j < mol.bond_no → (h.bondMem.read mol.bonds j).isSome = true

instance (h : Heap R) (mol : molecule) : Decidable (bondsWritten h mol) :=
  inferInstanceAs (Decidable (∀ j, j < mol.bond_no → _))

/-- The two atoms of the bond can be read through the address the bond keeps. -/
def bondResolves (h : Heap R) (b : bond R) : Prop :=
  (h.atomMem.read b.atoms b.a1).isSome = true ∧ (h.atomMem.read b.atoms b.a2).isSome = true

instance (h : Heap R) (b : bond R) : Decidable (bondResolves h b) :=
  inferInstanceAs (Decidable (_ ∧ _))

/-- The slot of a bond array holds a bond that resolves its two atoms. -/
def slotResolves (h : Heap R) (s : Option (bond R)) : Prop :=
  match s with
  | some b => bondResolves h b
  | none => False

instance (h : Heap R) (s : Option (bond R)) : Decidable (slotResolves h s) :=
  match s with
  | some b => inferInstanceAs (Decidable (bondResolves h b))
  | none => isFalse (fun f => f)

/-- Every bond below `bond_no` has been written and resolves its two atoms. -/
def bondsResolve (h : Heap R) (mol : molecule) : Prop :=
  ∀ j, j < mol.bond_no → slotResolves h (h.bondMem.read mol.bonds j)

instance (h : Heap R) (mol : molecule) : Decidable (bondsResolve h mol) :=
  inferInstanceAs (Decidable (∀ j, j < mol.bond_no → _))

/-- The container can be traversed: its live atoms are written, and its live bonds are written
and resolve their atoms.  This is what a call of `mol_xform` needs to stay inside live
storage. -/
def traversable (h : Heap R) (mol : molecule) : Prop :=
  atomsWritten h mol ∧ bondsResolve h mol

instance (h : Heap R) (mol : molecule) : Decidable (traversable h mol) :=
  inferInstanceAs (Decidable (_ ∧ _))

/-- The atom an entry of `atom_ptrs` points to. -/
def atomAt (h : Heap R) (e : Option Ptr) : Option (atom R) :=
  match e with
  | some p => h.atomMem.read p.blk p.idx
  | none => none

/-- The bond an entry of `bond_ptrs` points to. -/
def bondAt (h : Heap R) (e : Option Ptr) : Option (bond R) :=
  match e with
  | some p => h.bondMem.read p.blk p.idx
  | none => none

/-- The first `atom_no` entries of `atom_ptrs` and the first `bond_no` entries of `bond_ptrs`
exist and point to written atoms and bonds. -/
def ptrsOk (h : Heap R) (mol : molecule) : Prop :=
  mol.atom_no ≤ mol.atom_ptrs.length ∧ mol.bond_no ≤ mol.bond_ptrs.length ∧
  (∀ e ∈ mol.atom_ptrs.take mol.atom_no, (atomAt h e).isSome = true) ∧
  (∀ e ∈ mol.bond_ptrs.take mol.bond_no, (bondAt h e).isSome = true)

instance (h : Heap R) (mol : molecule) : Decidable (ptrsOk h mol) :=
  inferInstanceAs (Decidable (_ ∧ _))

/-- The calls `molappend_atom(mol, &a)` for each `a` of the list, in order. -/
def molappend_atoms (h : Heap R) (mol : molecule) : List (atom R) → Option (Heap R × molecule)
  | [] => some (h, mol)
  | a :: rest =>
    match molappend_atom h mol a with
    | some s => molappend_atoms s.1 s.2 rest
    | none => none

end Code

/-! ## Auxiliary definitions for the statements -/

/-- The capacity `c` is the one reached by doubling from `0` when `n` atoms were appended:
`0` for none, otherwise a power of two with `c / 2 < n ≤ c`. -/
def capInv (n c : Nat) : Prop :=
  (n = 0 ∧ c = 0) ∨ ∃ k, c = 2 ^ k ∧ n ≤ 2 ^ k ∧ 2 ^ k < 2 * n

/-- The depth of the atom an entry of `atom_ptrs` points to (`0` when there is none). -/
def atomDepth {R : Type} [LinearOrderedField R] (h : Heap R) (e : Option Ptr) : R :=
  match atomAt h e with
  | some a => a.z
  | none => 0

/-- The depth of the bond an entry of `bond_ptrs` points to (`0` when there is none). -/
def bondDepth {R : Type} [LinearOrderedField R] (h : Heap R) (e : Option Ptr) : R :=
  match bondAt h e with
  | some b => b.z
  | none => 0

/-- The order of the entries of `atom_ptrs` by depth is total. -/
instance atomDepth_total {R : Type} [LinearOrderedField R] (h : Heap R) :
    IsTotal (Option Ptr) (fun a b => atomDepth h a ≤ atomDepth h b) :=
  ⟨fun a b => le_total (atomDepth h a) (atomDepth h b)⟩

/-- The order of the entries of `atom_ptrs` by depth is transitive. -/
instance atomDepth_trans {R : Type} [LinearOrderedField R] (h : Heap R) :
    IsTrans (Option Ptr) (fun a b => atomDepth h a ≤ atomDepth h b) :=
  ⟨fun _ _ _ hab hbc => le_trans hab hbc⟩

/-- The order of the entries of `bond_ptrs` by depth is total. -/
instance bondDepth_total {R : Type} [LinearOrderedField R] (h : Heap R) :
    IsTotal (Option Ptr) (fun a b => bondDepth h a ≤ bondDepth h b) :=
  ⟨fun a b => le_total (bondDepth h a) (bondDepth h b)⟩

/-- The order of the entries of `bond_ptrs` by depth is transitive. -/
instance bondDepth_trans {R : Type} [LinearOrderedField R] (h : Heap R) :
    IsTrans (Option Ptr) (fun a b => bondDepth h a ≤ bondDepth h b) :=
  ⟨fun _ _ _ hab hbc => le_trans hab hbc⟩

/-- The slot of a bond array is unwritten or holds a bond whose two indices are below `n`. -/
def slotIndexed {R : Type} (n : Nat) (s : Option (bond R)) : Prop :=
  match s with
  | some b => b.a1 < n ∧ b.a2 < n
  | none => True

instance {R : Type} (n : Nat) (s : Option (bond R)) : Decidable (slotIndexed n s) :=
  match s with
  | some b => inferInstanceAs (Decidable (b.a1 < n ∧ b.a2 < n))
  | none => isTrue trivial

/-- The invariant of the data model on indices: every stored bond below `bond_no` has both
atom indices below `atom_no`. -/
def bondIndicesOk {R : Type} (h : Heap R) (mol : molecule) : Prop :=
  ∀ j, j < mol.bond_no → slotIndexed mol.atom_no (h.bondMem.read mol.bonds j)

instance {R : Type} (h : Heap R) (mol : molecule) : Decidable (bondIndicesOk h mol) :=
  inferInstanceAs (Decidable (∀ j, j < mol.bond_no → _))

/-- The square of the distance between two atoms. -/
def distSq {R : Type} [LinearOrderedField R] (p q : atom R) : R :=
  (p.x - q.x) ^ 2 + (p.y - q.y) ^ 2 + (p.z - q.z) ^ 2

/-! ## Sequences of operations -/

/-- One operation on a container: an append of an atom or of a bond, a sort, or a transform. -/
inductive Op (R : Type) where
  | appendAtom (a : atom R)
  | appendBond (b : bond R)
  | sort
  | xform (matrix : xform_matrix R)

/-- The operation is a call of `molsort`. -/
def Op.isSort {R : Type} : Op R → Bool
  | Op.sort => true
  | _ => false

/-- The call of one operation on the container. -/
def stepOp {R : Type} [LinearOrderedField R] (sqrt : R → R) (s : Heap R × molecule) :
    Op R → Option (Heap R × molecule)
  | Op.appendAtom a => molappend_atom s.1 s.2 a
  | Op.appendBond b => molappend_bond s.1 s.2 b
  | Op.sort => molsort s.1 s.2
  | Op.xform matrix => mol_xform sqrt s.1 s.2 matrix

/-- The calls of the operations of the list, in order, on the container. -/
def runOps {R : Type} [LinearOrderedField R] (sqrt : R → R) (s : Heap R × molecule) :
    List (Op R) → Option (Heap R × molecule)
  | [] => some s
  | o :: rest =>
    match stepOp sqrt s o with
    | some s1 => runOps sqrt s1 rest
    | none => none

/-- The entries the pointer array of a sequence of `n` elements at address `p` has in identity
order: `&p[0]`, ..., `&p[n-1]`. -/
def identityPtrs (p n : Nat) : Block Ptr :=
  (List.range n).map (fun i => some ⟨p, i⟩)

/-- The invariant of the pointer arrays: both stores are in place, the counts are within the
capacities, the live entries of `atom_ptrs` (resp. `bond_ptrs`) are a permutation of the
addresses of the live elements of the current atom (resp. bond) array, and they are in identity
order as long as nothing was sorted. -/
def ptrInv {R : Type} (sorted : Bool) (s : Heap R × molecule) : Prop :=
  atomStoreOk s.1 s.2 ∧ bondStoreOk s.1 s.2 ∧ countsOk s.2 ∧
  (s.2.atom_ptrs.take s.2.atom_no).Perm (identityPtrs s.2.atoms s.2.atom_no) ∧
  (s.2.bond_ptrs.take s.2.bond_no).Perm (identityPtrs s.2.bonds s.2.bond_no) ∧
  (sorted = false →
    s.2.atom_ptrs.take s.2.atom_no = identityPtrs s.2.atoms s.2.atom_no ∧
    s.2.bond_ptrs.take s.2.bond_no = identityPtrs s.2.bonds s.2.bond_no)

/-! ## Example data -/

/-- Example storage: one array of two atoms, one bond array with one free slot. -/
def exHeap {R : Type} [LinearOrderedField R] : Heap R :=
  ⟨[some [some ⟨['C'], 0, 0, 5⟩, some ⟨['O'], 3, 4, 2⟩]], [some [none]], []⟩

/-- Example container over `exHeap`: two atoms, capacity for one bond. -/
def exMol : molecule :=
  ⟨2, 2, 0, [some ⟨0, 0⟩, some ⟨0, 1⟩], 1, 0, 0, [none]⟩

/-- Example bond record before `bondset`. -/
def exBond {R : Type} [LinearOrderedField R] : bond R :=
  ⟨0, 0, 0, 0, 0, 0, 0, 0, 0, 0, 0, 0⟩

/-- Example atoms. -/
def exAtoms {R : Type} [LinearOrderedField R] : List (atom R) :=
  [⟨['C'], 0, 0, 0⟩, ⟨['O'], 1, 0, 0⟩, ⟨['H'], 0, 1, 0⟩]

/-- Example storage with a stored bond: the atoms of `exHeap` and one array holding the bond
between them, with its geometry derived. -/
def exHeapB {R : Type} [LinearOrderedField R] : Heap R :=
  ⟨[some [some ⟨['C'], 0, 0, 5⟩, some ⟨['O'], 3, 4, 2⟩]],
   [some [some ⟨0, 1, 1, 0, 0, 3, 0, 4, 5, 3 / 5, 4 / 5, 7 / 2⟩]], []⟩

/-- Example container over `exHeapB`: two atoms and one bond. -/
def exMolB : molecule :=
  ⟨2, 2, 0, [some ⟨0, 0⟩, some ⟨0, 1⟩], 1, 1, 0, [some ⟨0, 0⟩]⟩

/-- Example matrix: a quarter turn about the z axis, with exact entries. -/
def exMatrix {R : Type} [LinearOrderedField R] : xform_matrix R :=
  ![![0, -1, 0], ![1, 0, 0], ![0, 0, 1]]

/-- Example storage of a full container: one array of 32768 atoms, one empty bond array. -/
def fullHeap {R : Type} [LinearOrderedField R] : Heap R :=
  ⟨[some (List.replicate 32768 (some ⟨['C'], 0, 0, 0⟩))], [some []], []⟩

/-- Example container over `fullHeap`: 32768 atoms in a capacity of 32768. -/
def fullMol : molecule :=
  ⟨32768, 32768, 0, (List.range 32768).map (fun i => some ⟨0, i⟩), 0, 0, 0, []⟩

/-- The scenario of a bond set before the atom storage grows: a container for two atoms and one
bond, two atoms appended, the bond between them set on the container's atom array and appended,
then a third atom appended, which makes `molappend_atom` call `realloc`. -/
def growthScenario {R : Type} [LinearOrderedField R] (sqrt : R → R) (h : Heap R) :
    Option (Heap R × molecule) :=
  let s0 := molmalloc h 2 1
  (molappend_atom s0.1 s0.2 ⟨['C'], 0, 0, 0⟩).bind fun s1 =>
  (molappend_atom s1.1 s1.2 ⟨['O'], 1, 0, 0⟩).bind fun s2 =>
  (bondset sqrt s2.1 exBond 0 1 s2.2.atoms 1).bind fun b =>
  (molappend_bond s2.1 s2.2 b).bind fun s3 =>
  molappend_atom s3.1 s3.2 ⟨['H'], 0, 1, 0⟩

/-- The scenario of a bonded pair: a container for two atoms and one bond, the atoms
C (0, 0, 0) and O (1, 0, 0) appended, then the bond between them with one electron pair set on
the container's atom array and appended. -/
def bondedPair {R : Type} [LinearOrderedField R] (sqrt : R → R) (h : Heap R) :
    Option (Heap R × molecule) :=
  let s0 := molmalloc h 2 1
  (molappend_atom s0.1 s0.2 ⟨['C'], 0, 0, 0⟩).bind fun s1 =>
  (molappend_atom s1.1 s1.2 ⟨['O'], 1, 0, 0⟩).bind fun s2 =>
  (bondset sqrt s2.1 exBond 0 1 s2.2.atoms 1).bind fun b =>
  molappend_bond s2.1 s2.2 b

/-- The scenario of an atom moved after its bond was set: the bonded pair of `bondedPair`, then
`atomset` on the second atom of the container, which puts it at depth 4. -/
def movedAtom {R : Type} [LinearOrderedField R] (sqrt : R → R) (h : Heap R) :
    Option (Heap R × molecule) :=
  (bondedPair sqrt h).bind fun s =>
  (atomset_at s.1 s.2.atoms 1 ['O'] 1 0 4).bind fun h1 =>
  some (h1, s.2)

/-- Example operations: two atoms, the bond between them as `bondset` leaves it on the atom
array at address 2, a sort, a third atom, and a quarter turn. -/
def exOps : List (Op ℚ) :=
  [Op.appendAtom ⟨['C'], 0, 0, 5⟩, Op.appendAtom ⟨['O'], 3, 4, 2⟩,
   Op.appendBond ⟨0, 1, 1, 2, 0, 3, 0, 4, 5, 3 / 5, 4 / 5, 7 / 2⟩, Op.sort,
   Op.appendAtom ⟨['H'], 1, 1, 1⟩, Op.xform exMatrix]

/-! ## Values of binary64 arithmetic -/

section MemLemmas
variable {α : Type}

theorem Mem.block_eq_some {m : Mem α} {p : Nat} {b : Block α} :
    m.block p = some b ↔ m[p]? = some (some b) := by
  unfold Mem.block
  split
  · next b1 hb => simp [hb]
  · next hn =>
    constructor
    · intro h; cases h
    · intro h; exact absurd h (hn b)

theorem Mem.block_lt {m : Mem α} {p : Nat} {b : Block α} (h : m.block p = some b) :
    p < m.length := by
  rw [Mem.block_eq_some] at h
  exact (List.getElem?_eq_some.mp h).1

theorem Mem.block_set (m : Mem α) (p q : Nat) (v : Option (Block α)) :
    Mem.block (m.set p v) q = if p = q ∧ p < m.length then v else m.block q := by
  unfold Mem.block
  rw [List.getElem?_set]
  by_cases hpq : p = q
  · by_cases hl : p < m.length
    · simp [hpq, hl]
      subst hpq
      simp [hl]
      cases v <;> rfl
    · subst hpq
      have : m[p]? = none := List.getElem?_eq_none (by omega)
      simp [hl, this]
  · simp [hpq]

theorem Mem.block_append_one (m : Mem α) (q : Nat) (v : Option (Block α)) :
    Mem.block (m ++ [v]) q = if q = m.length then v else m.block q := by
  unfold Mem.block
  by_cases hq : q < m.length
  · rw [List.getElem?_append_left hq]
    simp [Nat.ne_of_lt hq]
  · by_cases he : q = m.length
    · subst he
      simp
      cases v <;> rfl
    · have hgt : m.length < q := by omega
      have h1 : (m ++ [v])[q]? = none := by
        apply List.getElem?_eq_none
        simp; omega
      have h2 : m[q]? = none := List.getElem?_eq_none (by omega)
      simp [h1, h2, he]

theorem Mem.read_eq_some {m : Mem α} {p i : Nat} {v : α} :
    m.read p i = some v ↔ ∃ b, m.block p = some b ∧ b[i]? = some (some v) := by
  unfold Mem.read
  cases hb : m.block p with
  | none => simp
  | some b =>
    simp only [Option.some.injEq, exists_eq_left']
    split
    · next v1 hv => simp [hv]
    · next hn =>
      constructor
      · intro h; cases h
      · intro h; exact absurd h (hn v)

theorem Mem.read_of_block {m : Mem α} {p : Nat} {b : Block α} (h : m.block p = some b)
    (i : Nat) : m.read p i = (b[i]?).join := by
  unfold Mem.read
  rw [h]
  simp only
  rcases hb : b[i]? with _ | (_ | v) <;> simp [Option.join]

theorem Mem.read_congr {m1 m2 : Mem α} {p q : Nat} (h : m1.block p = m2.block q) (i : Nat) :
    m1.read p i = m2.read q i := by
  unfold Mem.read
  rw [h]

theorem Mem.write_eq_some {m m1 : Mem α} {p i : Nat} {v : α} :
    m.write p i v = some m1 ↔
      ∃ b, m.block p = some b ∧ i < b.length ∧ m1 = m.set p (some (b.set i (some v))) := by
  unfold Mem.write
  cases hb : m.block p with
  | none => simp
  | some b =>
    by_cases hi : i < b.length
    · simp [hi, eq_comm]
    · simp [hi]

theorem Mem.write_block {m m1 : Mem α} {p i : Nat} {v : α} (h : m.write p i v = some m1)
    (q : Nat) :
    m1.block q = if q = p then (m.block p).map (fun b => b.set i (some v)) else m.block q := by
  obtain ⟨b, hb, _, rfl⟩ := Mem.write_eq_some.mp h
  rw [Mem.block_set]
  by_cases hq : q = p
  · subst hq
    simp [Mem.block_lt hb, hb]
  · have : ¬ p = q := fun e => hq e.symm
    simp [hq, this]

theorem Mem.write_read {m m1 : Mem α} {p i : Nat} {v : α} (h : m.write p i v = some m1)
    (q j : Nat) :
    m1.read q j = if q = p ∧ j = i then some v else m.read q j := by
  obtain ⟨b, hb, hi, _⟩ := Mem.write_eq_some.mp h
  have hblk := Mem.write_block h q
  by_cases hq : q = p
  · subst hq
    rw [if_pos rfl, hb] at hblk
    rw [Mem.read_of_block hblk, Mem.read_of_block hb, List.getElem?_set]
    by_cases hj : j = i
    · subst hj
      simp [hi, Option.join]
    · have : ¬ i = j := fun e => hj e.symm
      simp [hj, this]
  · rw [if_neg hq] at hblk
    rw [Mem.read_congr hblk]
    simp [hq]

theorem Mem.write_length {m m1 : Mem α} {p i : Nat} {v : α} (h : m.write p i v = some m1) :
    m1.length = m.length := by
  obtain ⟨b, _, _, rfl⟩ := Mem.write_eq_some.mp h
  simp

theorem Mem.write_ok {m : Mem α} {p i : Nat} {b : Block α} (v : α) (hb : m.block p = some b)
    (hi : i < b.length) : m.write p i v = some (m.set p (some (b.set i (some v)))) := by
  unfold Mem.write
  simp [hb, hi]

theorem length_resize (n : Nat) (b : Block α) : (resize n b).length = n := by
  unfold resize
  simp
  omega

theorem getElem?_resize (n : Nat) (b : Block α) (i : Nat) :
    ((resize n b)[i]?).join = if i < n then (b[i]?).join else none := by
  unfold resize
  by_cases hi : i < n
  · by_cases hb : i < b.length
    · rw [List.getElem?_append_left (by simp; omega), List.getElem?_take]
      simp [hi]
    · rw [List.getElem?_append_right (by simp; omega), List.getElem?_replicate]
      have : b[i]? = none := List.getElem?_eq_none (by omega)
      simp [hi, this, Option.join]
  · have : (List.take n b ++ List.replicate (n - b.length) none)[i]? = none := by
      apply List.getElem?_eq_none
      simp; omega
    simp [hi, this, Option.join]

theorem forLoop_inv {σ : Type} (body : Nat → σ → Option σ) (I : Nat → σ → Prop) (n : Nat)
    (s : σ) (h0 : I 0 s)
    (step : ∀ i t, i < n → I i t → ∃ t1, body i t = some t1 ∧ I (i + 1) t1) :
    ∃ t, forLoop body n s = some t ∧ I n t := by
  induction n with
  | zero => exact ⟨s, rfl, h0⟩
  | succ k ih =>
    obtain ⟨t, ht, hI⟩ := ih (fun i t hi => step i t (Nat.lt_succ_of_lt hi))
    obtain ⟨t1, ht1, hI1⟩ := step k t (Nat.lt_succ_self k) hI
    exact ⟨t1, by simp [forLoop, ht, ht1], hI1⟩

end MemLemmas

section
variable {R : Type}

theorem forLoop_setPtr (p n : Nat) (ptrs : Block Ptr) (hn : n ≤ ptrs.length) :
    ∃ ps, forLoop (setPtr p) n ptrs = some ps ∧ ps.length = ptrs.length ∧
      (∀ i, i < n → ps[i]? = some (some ⟨p, i⟩)) ∧ (∀ i, n ≤ i → ps[i]? = ptrs[i]?) := by
  apply forLoop_inv (setPtr p)
    (fun k ps => ps.length = ptrs.length ∧
      (∀ i, i < k → ps[i]? = some (some ⟨p, i⟩)) ∧ (∀ i, k ≤ i → ps[i]? = ptrs[i]?))
  · exact ⟨rfl, fun i hi => absurd hi (Nat.not_lt_zero i), fun i _ => rfl⟩
  · intro i t hi ⟨hl, hlo, hhi⟩
    have hit : i < t.length := by omega
    refine ⟨t.set i (some ⟨p, i⟩), by simp [setPtr, hit], by simp [hl], ?_, ?_⟩
    · intro j hj
      rw [List.getElem?_set]
      by_cases hji : i = j
      · subst hji; simp [hit]
      · simp [hji]; exact hlo j (by omega)
    · intro j hj
      rw [List.getElem?_set]
      have : ¬ i = j := by omega
      simp [this]; exact hhi j (by omega)

theorem forLoop_none {σ : Type} (body : Nat → σ → Option σ) (s : σ) (k n : Nat) (hk : k ≤ n)
    (h : forLoop body k s = none) : forLoop body n s = none := by
  induction n with
  | zero =>
    have : k = 0 := by omega
    subst this; exact h
  | succ m ih =>
    by_cases hkm : k = m + 1
    · subst hkm; exact h
    · have := ih (by omega)
      simp [forLoop, this]

theorem setPtr_spec (p i : Nat) (ptrs : Block Ptr) (hi : i < ptrs.length) :
    setPtr p i ptrs = some (ptrs.set i (some ⟨p, i⟩)) := by
  simp [setPtr, hi]


theorem atomStoreOk_block {h : Heap R} {mol : molecule} (hs : atomStoreOk h mol) :
    ∃ b, h.atomMem.block mol.atoms = some b ∧ b.length = mol.atom_max := by
  obtain ⟨h1, -, -⟩ := hs
  cases hb : h.atomMem.block mol.atoms with
  | none => simp [hb] at h1
  | some b => exact ⟨b, rfl, by simpa [hb] using h1⟩

/-- The effect of `molappend_atom` on a container whose atom storage is in place and that has
room or can double its capacity. -/
theorem molappend_atom_spec (h : Heap R) (mol : molecule) (a : atom R)
    (hs : atomStoreOk h mol) (hc : mol.atom_no ≤ mol.atom_max)
    (hroom : mol.atom_no < mol.atom_max ∨ mol.atom_max < 32768) :
    ∃ h1 mol1, molappend_atom h mol a = some (h1, mol1) ∧
      mol1.atom_no = mol.atom_no + 1 ∧
      mol1.atom_max = (if mol.atom_max = mol.atom_no then
          (if mol.atom_max = 0 then 1 else 2 * mol.atom_max) else mol.atom_max) ∧
      atomStoreOk h1 mol1 ∧
      (∀ i, h1.atomMem.read mol1.atoms i =
          if i = mol.atom_no then some a else h.atomMem.read mol.atoms i) ∧
      (∀ q, q ≠ mol.atoms → q ≠ mol1.atoms → h1.atomMem.block q = h.atomMem.block q) ∧
      (mol1.atoms = mol.atoms ∨
        (mol1.atoms = h.atomMem.length ∧ h1.atomMem.block mol.atoms = none)) ∧
      h.atomMem.length ≤ h1.atomMem.length ∧
      h1.bondMem = h.bondMem ∧ mol1.bond_max = mol.bond_max ∧ mol1.bond_no = mol.bond_no ∧
      mol1.bonds = mol.bonds ∧ mol1.bond_ptrs = mol.bond_ptrs ∧
      (∀ i, i < mol.atom_no → mol1.atom_ptrs[i]? =
          if mol.atom_max = mol.atom_no then some (some ⟨mol1.atoms, i⟩) else mol.atom_ptrs[i]?) ∧
      mol1.atom_ptrs[mol.atom_no]? = some (some ⟨mol1.atoms, mol.atom_no⟩) ∧
      (mol.atom_no < mol.atom_max → mol1.atoms = mol.atoms ∧ h1.moves = h.moves) := by
  obtain ⟨b, hb, hbl⟩ := atomStoreOk_block hs
  obtain ⟨-, hpl, hmax⟩ := hs
  have hU : USHRT = 65536 := rfl
  by_cases hg : mol.atom_max = mol.atom_no
  · -- the storage grows
    have hlt : mol.atom_max < 32768 := by omega
    obtain ⟨nm, hnm⟩ : ∃ nm, nm = (if mol.atom_max = 0 then 1 else 2 * mol.atom_max) := ⟨_, rfl⟩
    have hnm1 : (if mol.atom_max = 0 then 1 else (mol.atom_max * 2) % USHRT) = nm := by
      rw [hnm, hU]
      split
      · rfl
      · omega
    have hnmgt : mol.atom_no < nm := by
      rw [hnm]; split <;> omega
    have hnmU : nm < USHRT := by
      rw [hnm, hU]; split <;> omega
    obtain ⟨m1, p1, hre, hp1, hfr, halt, hlen1⟩ :
        ∃ m1 p1, h.atomMem.realloc mol.atoms nm (nextMove h.moves).1 = some (m1, p1) ∧
          Mem.block m1 p1 = some (resize nm b) ∧
          (∀ q, q ≠ mol.atoms → q ≠ p1 → Mem.block m1 q = h.atomMem.block q) ∧
          (p1 = mol.atoms ∨ (p1 = h.atomMem.length ∧ Mem.block m1 mol.atoms = none)) ∧
          h.atomMem.length ≤ m1.length := by
      unfold Mem.realloc
      rw [hb]
      cases (nextMove h.moves).1 with
      | true =>
        refine ⟨_, _, rfl, ?_, ?_, ?_, ?_⟩
        · simp [Mem.block_append_one]
        · intro q hq1 hq2
          rw [Mem.block_append_one]
          simp at hq2
          simp [hq2, Mem.block_set]
          intro e; exact absurd e.symm hq1
        · right
          refine ⟨rfl, ?_⟩
          rw [Mem.block_append_one]
          have := Mem.block_lt hb
          simp [Nat.ne_of_lt this, Mem.block_set, this]
        · simp
      | false =>
        refine ⟨_, _, rfl, ?_, ?_, ?_, ?_⟩
        · simp [Mem.block_set, Mem.block_lt hb]
        · intro q hq1 _
          simp [Mem.block_set]
          intro e; exact absurd e.symm hq1
        · left; rfl
        · simp
    obtain ⟨ps, hps, hpsl, hpslo, hpshi⟩ :=
      forLoop_setPtr p1 mol.atom_no (resize nm mol.atom_ptrs) (by rw [length_resize]; omega)
    rw [length_resize] at hpsl
    have hw := Mem.write_ok a hp1 (i := mol.atom_no) (by rw [length_resize]; exact hnmgt)
    have hsp := setPtr_spec p1 mol.atom_no ps (by omega)
    refine ⟨{ h with atomMem := m1.set p1 (some ((resize nm b).set mol.atom_no (some a))),
                     moves := (nextMove h.moves).2 },
            { mol with atom_max := nm, atoms := p1,
                       atom_ptrs := ps.set mol.atom_no (some ⟨p1, mol.atom_no⟩),
                       atom_no := (mol.atom_no + 1) % USHRT }, ?_, ?_⟩
    · unfold molappend_atom
      simp only [hg, if_true]
      rw [← hg, hnm1, hre]
      simp only
      rw [hg, hps]
      simp only [hw, hsp]
    · have hblk1 : Mem.block (m1.set p1 (some ((resize nm b).set mol.atom_no (some a)))) p1 =
          some ((resize nm b).set mol.atom_no (some a)) := by
        simp [Mem.block_set, Mem.block_lt hp1]
      refine ⟨?_, ?_, ?_, ?_, ?_, ?_, ?_, rfl, rfl, rfl, rfl, rfl, ?_, ?_, ?_⟩
      · simp only; rw [hU]; omega
      · simp [hg, hnm]
      · refine ⟨?_, ?_, hnmU⟩
        · simp only; rw [hblk1]; simp [length_resize]
        · simp [hpsl]
      · intro i
        simp only
        rw [Mem.read_of_block hblk1, Mem.read_of_block hb, List.getElem?_set]
        by_cases hi : i = mol.atom_no
        · subst hi; simp [length_resize, hnmgt, Option.join]
        · have h2 : ¬ mol.atom_no = i := fun e => hi e.symm
          simp only [h2, hi, if_false]
          rw [getElem?_resize]
          by_cases hin : i < nm
          · simp [hin]
          · have : b[i]? = none := List.getElem?_eq_none (by omega)
            simp [hin, this, Option.join]
      · intro q hq1 hq2
        simp only at hq2 ⊢
        rw [Mem.block_set]
        have : ¬ (p1 = q ∧ p1 < m1.length) := fun e => hq2 e.1.symm
        simp only [this, if_false]
        exact hfr q hq1 hq2
      · simp only
        rcases halt with e | ⟨e1, e2⟩
        · left; exact e
        · right
          refine ⟨e1, ?_⟩
          rw [Mem.block_set]
          have hne : ¬ p1 = mol.atoms := by
            have := Mem.block_lt hb; omega
          simp [hne, e2]
      · simp; exact hlen1
      · intro i hi
        simp only [hg, if_true]
        rw [List.getElem?_set]
        have : ¬ mol.atom_no = i := by omega
        simp only [this, if_false]
        exact hpslo i hi
      · simp only
        rw [List.getElem?_set]
        simp [hpsl, hnmgt]
      · intro hlt2
        omega
  · -- there is room
    have hlt : mol.atom_no < mol.atom_max := by omega
    have hw := Mem.write_ok a hb (i := mol.atom_no) (by omega)
    have hsp := setPtr_spec mol.atoms mol.atom_no mol.atom_ptrs (by omega)
    refine ⟨{ h with atomMem := h.atomMem.set mol.atoms (some (b.set mol.atom_no (some a))) },
            { mol with atom_ptrs := mol.atom_ptrs.set mol.atom_no (some ⟨mol.atoms, mol.atom_no⟩),
                       atom_no := (mol.atom_no + 1) % USHRT }, ?_, ?_⟩
    · unfold molappend_atom
      simp only [hg, if_false, hw, hsp]
    · have hblk1 : Mem.block (h.atomMem.set mol.atoms (some (b.set mol.atom_no (some a))))
          mol.atoms = some (b.set mol.atom_no (some a)) := by
        simp [Mem.block_set, Mem.block_lt hb]
      refine ⟨?_, ?_, ?_, ?_, ?_, ?_, ?_, rfl, rfl, rfl, rfl, rfl, ?_, ?_, ?_⟩
      · simp only; rw [hU]; omega
      · simp [hg]
      · refine ⟨?_, ?_, hmax⟩
        · simp only; rw [hblk1]; simp [hbl]
        · simp [hpl]
      · intro i
        simp only
        rw [Mem.read_of_block hblk1, Mem.read_of_block hb, List.getElem?_set]
        by_cases hi : i = mol.atom_no
        · subst hi; simp [hbl, hlt, Option.join]
        · have h2 : ¬ mol.atom_no = i := fun e => hi e.symm
          simp [h2, hi]
      · intro q hq1 _
        simp only
        rw [Mem.block_set]
        have : ¬ (mol.atoms = q ∧ mol.atoms < h.atomMem.length) := fun e => hq1 e.1.symm
        simp [this]
      · left; rfl
      · simp
      · intro i hi
        simp only [hg, if_false]
        rw [List.getElem?_set]
        have : ¬ mol.atom_no = i := by omega
        simp [this]
      · simp only
        rw [List.getElem?_set]
        simp [hpl, hlt]
      · intro _
        exact ⟨rfl, rfl⟩

theorem bondStoreOk_block {h : Heap R} {mol : molecule} (hs : bondStoreOk h mol) :
    ∃ b, h.bondMem.block mol.bonds = some b ∧ b.length = mol.bond_max := by
  obtain ⟨h1, -, -⟩ := hs
  cases hb : h.bondMem.block mol.bonds with
  | none => simp [hb] at h1
  | some b => exact ⟨b, rfl, by simpa [hb] using h1⟩

/-- The effect of `molappend_bond` on a container whose bond storage is in place and that has
room or can double its capacity. -/
theorem molappend_bond_spec (h : Heap R) (mol : molecule) (a : bond R)
    (hs : bondStoreOk h mol) (hc : mol.bond_no ≤ mol.bond_max)
    (hroom : mol.bond_no < mol.bond_max ∨ mol.bond_max < 32768) :
    ∃ h1 mol1, molappend_bond h mol a = some (h1, mol1) ∧
      mol1.bond_no = mol.bond_no + 1 ∧
      mol1.bond_max = (if mol.bond_max = mol.bond_no then
          (if mol.bond_max = 0 then 1 else 2 * mol.bond_max) else mol.bond_max) ∧
      bondStoreOk h1 mol1 ∧
      (∀ i, h1.bondMem.read mol1.bonds i =
          if i = mol.bond_no then some a else h.bondMem.read mol.bonds i) ∧
      (∀ q, q ≠ mol.bonds → q ≠ mol1.bonds → h1.bondMem.block q = h.bondMem.block q) ∧
      (mol1.bonds = mol.bonds ∨
        (mol1.bonds = h.bondMem.length ∧ h1.bondMem.block mol.bonds = none)) ∧
      h.bondMem.length ≤ h1.bondMem.length ∧
      h1.atomMem = h.atomMem ∧ mol1.atom_max = mol.atom_max ∧ mol1.atom_no = mol.atom_no ∧
      mol1.atoms = mol.atoms ∧ mol1.atom_ptrs = mol.atom_ptrs ∧
      (∀ i, i < mol.bond_no → mol1.bond_ptrs[i]? =
          if mol.bond_max = mol.bond_no then some (some ⟨mol1.bonds, i⟩) else mol.bond_ptrs[i]?) ∧
      mol1.bond_ptrs[mol.bond_no]? = some (some ⟨mol1.bonds, mol.bond_no⟩) ∧
      (mol.bond_no < mol.bond_max → mol1.bonds = mol.bonds ∧ h1.moves = h.moves) := by
  obtain ⟨b, hb, hbl⟩ := bondStoreOk_block hs
  obtain ⟨-, hpl, hmax⟩ := hs
  have hU : USHRT = 65536 := rfl
  by_cases hg : mol.bond_max = mol.bond_no
  · -- the storage grows
    have hlt : mol.bond_max < 32768 := by omega
    obtain ⟨nm, hnm⟩ : ∃ nm, nm = (if mol.bond_max = 0 then 1 else 2 * mol.bond_max) := ⟨_, rfl⟩
    have hnm1 : (if mol.bond_max = 0 then 1 else (mol.bond_max * 2) % USHRT) = nm := by
      rw [hnm, hU]
      split
      · rfl
      · omega
    have hnmgt : mol.bond_no < nm := by
      rw [hnm]; split <;> omega
    have hnmU : nm < USHRT := by
      rw [hnm, hU]; split <;> omega
    obtain ⟨m1, p1, hre, hp1, hfr, halt, hlen1⟩ :
        ∃ m1 p1, h.bondMem.realloc mol.bonds nm (nextMove h.moves).1 = some (m1, p1) ∧
          Mem.block m1 p1 = some (resize nm b) ∧
          (∀ q, q ≠ mol.bonds → q ≠ p1 → Mem.block m1 q = h.bondMem.block q) ∧
          (p1 = mol.bonds ∨ (p1 = h.bondMem.length ∧ Mem.block m1 mol.bonds = none)) ∧
          h.bondMem.length ≤ m1.length := by
      unfold Mem.realloc
      rw [hb]
      cases (nextMove h.moves).1 with
      | true =>
        refine ⟨_, _, rfl, ?_, ?_, ?_, ?_⟩
        · simp [Mem.block_append_one]
        · intro q hq1 hq2
          rw [Mem.block_append_one]
          simp at hq2
          simp [hq2, Mem.block_set]
          intro e; exact absurd e.symm hq1
        · right
          refine ⟨rfl, ?_⟩
          rw [Mem.block_append_one]
          have := Mem.block_lt hb
          simp [Nat.ne_of_lt this, Mem.block_set, this]
        · simp
      | false =>
        refine ⟨_, _, rfl, ?_, ?_, ?_, ?_⟩
        · simp [Mem.block_set, Mem.block_lt hb]
        · intro q hq1 _
          simp [Mem.block_set]
          intro e; exact absurd e.symm hq1
        · left; rfl
        · simp
    obtain ⟨ps, hps, hpsl, hpslo, hpshi⟩ :=
      forLoop_setPtr p1 mol.bond_no (resize nm mol.bond_ptrs) (by rw [length_resize]; omega)
    rw [length_resize] at hpsl
    have hw := Mem.write_ok a hp1 (i := mol.bond_no) (by rw [length_resize]; exact hnmgt)
    have hsp := setPtr_spec p1 mol.bond_no ps (by omega)
    refine ⟨{ h with bondMem := m1.set p1 (some ((resize nm b).set mol.bond_no (some a))),
                     moves := (nextMove h.moves).2 },
            { mol with bond_max := nm, bonds := p1,
                       bond_ptrs := ps.set mol.bond_no (some ⟨p1, mol.bond_no⟩),
                       bond_no := (mol.bond_no + 1) % USHRT }, ?_, ?_⟩
    · unfold molappend_bond
      simp only [hg, if_true]
      rw [← hg, hnm1, hre]
      simp only
      rw [hg, hps]
      simp only [hw, hsp]
    · have hblk1 : Mem.block (m1.set p1 (some ((resize nm b).set mol.bond_no (some a)))) p1 =
          some ((resize nm b).set mol.bond_no (some a)) := by
        simp [Mem.block_set, Mem.block_lt hp1]
      refine ⟨?_, ?_, ?_, ?_, ?_, ?_, ?_, rfl, rfl, rfl, rfl, rfl, ?_, ?_, ?_⟩
      · simp only; rw [hU]; omega
      · simp [hg, hnm]
      · refine ⟨?_, ?_, hnmU⟩
        · simp only; rw [hblk1]; simp [length_resize]
        · simp [hpsl]
      · intro i
        simp only
        rw [Mem.read_of_block hblk1, Mem.read_of_block hb, List.getElem?_set]
        by_cases hi : i = mol.bond_no
        · subst hi; simp [length_resize, hnmgt, Option.join]
        · have h2 : ¬ mol.bond_no = i := fun e => hi e.symm
          simp only [h2, hi, if_false]
          rw [getElem?_resize]
          by_cases hin : i < nm
          · simp [hin]
          · have : b[i]? = none := List.getElem?_eq_none (by omega)
            simp [hin, this, Option.join]
      · intro q hq1 hq2
        simp only at hq2 ⊢
        rw [Mem.block_set]
        have : ¬ (p1 = q ∧ p1 < m1.length) := fun e => hq2 e.1.symm
        simp only [this, if_false]
        exact hfr q hq1 hq2
      · simp only
        rcases halt with e | ⟨e1, e2⟩
        · left; exact e
        · right
          refine ⟨e1, ?_⟩
          rw [Mem.block_set]
          have hne : ¬ p1 = mol.bonds := by
            have := Mem.block_lt hb; omega
          simp [hne, e2]
      · simp; exact hlen1
      · intro i hi
        simp only [hg, if_true]
        rw [List.getElem?_set]
        have : ¬ mol.bond_no = i := by omega
        simp only [this, if_false]
        exact hpslo i hi
      · simp only
        rw [List.getElem?_set]
        simp [hpsl, hnmgt]
      · intro hlt2
        omega
  · -- there is room
    have hlt : mol.bond_no < mol.bond_max := by omega
    have hw := Mem.write_ok a hb (i := mol.bond_no) (by omega)
    have hsp := setPtr_spec mol.bonds mol.bond_no mol.bond_ptrs (by omega)
    refine ⟨{ h with bondMem := h.bondMem.set mol.bonds (some (b.set mol.bond_no (some a))) },
            { mol with bond_ptrs := mol.bond_ptrs.set mol.bond_no (some ⟨mol.bonds, mol.bond_no⟩),
                       bond_no := (mol.bond_no + 1) % USHRT }, ?_, ?_⟩
    · unfold molappend_bond
      simp only [hg, if_false, hw, hsp]
    · have hblk1 : Mem.block (h.bondMem.set mol.bonds (some (b.set mol.bond_no (some a))))
          mol.bonds = some (b.set mol.bond_no (some a)) := by
        simp [Mem.block_set, Mem.block_lt hb]
      refine ⟨?_, ?_, ?_, ?_, ?_, ?_, ?_, rfl, rfl, rfl, rfl, rfl, ?_, ?_, ?_⟩
      · simp only; rw [hU]; omega
      · simp [hg]
      · refine ⟨?_, ?_, hmax⟩
        · simp only; rw [hblk1]; simp [hbl]
        · simp [hpl]
      · intro i
        simp only
        rw [Mem.read_of_block hblk1, Mem.read_of_block hb, List.getElem?_set]
        by_cases hi : i = mol.bond_no
        · subst hi; simp [hbl, hlt, Option.join]
        · have h2 : ¬ mol.bond_no = i := fun e => hi e.symm
          simp [h2, hi]
      · intro q hq1 _
        simp only
        rw [Mem.block_set]
        have : ¬ (mol.bonds = q ∧ mol.bonds < h.bondMem.length) := fun e => hq1 e.1.symm
        simp [this]
      · left; rfl
      · simp
      · intro i hi
        simp only [hg, if_false]
        rw [List.getElem?_set]
        have : ¬ mol.bond_no = i := by omega
        simp [this]
      · simp only
        rw [List.getElem?_set]
        simp [hpl, hlt]
      · intro _
        exact ⟨rfl, rfl⟩

end

section
variable {R : Type}

theorem molappend_atoms_append (h : Heap R) (mol : molecule) (l1 l2 : List (atom R)) :
    molappend_atoms h mol (l1 ++ l2) =
      match molappend_atoms h mol l1 with
      | some s => molappend_atoms s.1 s.2 l2
      | none => none := by
  induction l1 generalizing h mol with
  | nil => rfl
  | cons a rest ih =>
    simp only [List.cons_append, molappend_atoms]
    cases molappend_atom h mol a with
    | none => rfl
    | some s => exact ih s.1 s.2

theorem capInv_step {n c : Nat} (hI : capInv n c) :
    capInv (n + 1) (if c = n then (if c = 0 then 1 else 2 * c) else c) ∧ n ≤ c := by
  rcases hI with ⟨rfl, rfl⟩ | ⟨k, rfl, h1, h2⟩
  · refine ⟨Or.inr ⟨0, ?_⟩, le_refl _⟩
    simp
  · have hpos : 0 < 2 ^ k := Nat.pow_pos (by norm_num)
    refine ⟨Or.inr ?_, h1⟩
    by_cases he : 2 ^ k = n
    · refine ⟨k + 1, ?_, ?_, ?_⟩
      · have hne : ¬ 2 ^ k = 0 := by omega
        simp only [he, if_true]
        rw [← he, if_neg hne, pow_succ]; omega
      · rw [pow_succ]; omega
      · rw [pow_succ]; omega
    · refine ⟨k, ?_, ?_, ?_⟩
      · simp [he]
      · omega
      · omega

theorem capInv_min {n c : Nat} (hI : capInv n c) (hn : 0 < n) :
    ∃ k, c = 2 ^ k ∧ n ≤ 2 ^ k ∧ ∀ j, n ≤ 2 ^ j → 2 ^ k ≤ 2 ^ j := by
  rcases hI with ⟨rfl, -⟩ | ⟨k, rfl, h1, h2⟩
  · omega
  · refine ⟨k, rfl, h1, ?_⟩
    intro j hj
    by_contra hlt
    have hjk : j < k := by
      by_contra hge
      exact hlt (Nat.pow_le_pow_right (by norm_num) (by omega))
    have : 2 ^ (j + 1) ≤ 2 ^ k := Nat.pow_le_pow_right (by norm_num) hjk
    rw [pow_succ] at this
    omega

theorem molappend_atoms_inv (l : List (atom R)) :
    ∀ (h : Heap R) (mol : molecule), atomStoreOk h mol → capInv mol.atom_no mol.atom_max →
      mol.atom_no + l.length ≤ 32768 →
      ∃ h1 mol1, molappend_atoms h mol l = some (h1, mol1) ∧ atomStoreOk h1 mol1 ∧
        capInv mol1.atom_no mol1.atom_max ∧ mol1.atom_no = mol.atom_no + l.length ∧
        mol.atom_max ≤ mol1.atom_max := by
  induction l with
  | nil =>
    intro h mol hs hI _
    exact ⟨h, mol, rfl, hs, hI, rfl, le_refl _⟩
  | cons a rest ih =>
    intro h mol hs hI hN
    simp only [List.length_cons] at hN
    obtain ⟨hI1, hle⟩ := capInv_step hI
    obtain ⟨h1, mol1, he, hno, hmax, hs1, -⟩ :=
      molappend_atom_spec h mol a hs hle (by
        by_cases hlt : mol.atom_no < mol.atom_max
        · exact Or.inl hlt
        · right; omega)
    rw [← hmax, ← hno] at hI1
    obtain ⟨h2, mol2, he2, hs2, hI2, hno2, hmax2⟩ := ih h1 mol1 hs1 hI1 (by omega)
    refine ⟨h2, mol2, ?_, hs2, hI2, ?_, ?_⟩
    · simp [molappend_atoms, he, he2]
    · rw [hno2, hno, List.length_cons]; omega
    · refine le_trans ?_ hmax2
      rw [hmax]
      split
      · split <;> omega
      · exact le_refl _

theorem molmalloc_atomStoreOk (h : Heap R) (a b : Nat) (ha : a < USHRT) :
    atomStoreOk (molmalloc h a b).1 (molmalloc h a b).2 := by
  refine ⟨?_, ?_, ha⟩
  · simp [molmalloc, Mem.malloc, Mem.block_append_one]
  · simp [molmalloc]

theorem molmalloc_bondStoreOk (h : Heap R) (a b : Nat) (hb : b < USHRT) :
    bondStoreOk (molmalloc h a b).1 (molmalloc h a b).2 := by
  refine ⟨?_, ?_, hb⟩
  · simp [molmalloc, Mem.malloc, Mem.block_append_one]
  · simp [molmalloc]

theorem molappend_atom_overflow (h : Heap R) (mol : molecule) (a : atom R)
    (hs : atomStoreOk h mol) (he : mol.atom_no = mol.atom_max) (hbig : 32768 ≤ mol.atom_max) :
    molappend_atom h mol a = none := by
  obtain ⟨b, hb, hbl⟩ := atomStoreOk_block hs
  obtain ⟨-, hpl, hmax⟩ := hs
  have hU : USHRT = 65536 := rfl
  rw [hU] at hmax
  obtain ⟨nm, hnm⟩ : ∃ nm, nm = mol.atom_max * 2 - 65536 := ⟨_, rfl⟩
  have hnm1 : (if mol.atom_max = 0 then 1 else (mol.atom_max * 2) % USHRT) = nm := by
    rw [hnm, hU]
    split
    · omega
    · omega
  have hlt : nm < mol.atom_no := by omega
  obtain ⟨m1, p1, hre⟩ :
      ∃ m1 p1, h.atomMem.realloc mol.atoms nm (nextMove h.moves).1 = some (m1, p1) := by
    unfold Mem.realloc
    rw [hb]
    cases (nextMove h.moves).1 with
    | true => exact ⟨_, _, rfl⟩
    | false => exact ⟨_, _, rfl⟩
  obtain ⟨ps, hps, hpsl, -, -⟩ :=
    forLoop_setPtr p1 nm (resize nm mol.atom_ptrs) (by rw [length_resize])
  rw [length_resize] at hpsl
  have hfail : forLoop (setPtr p1) (nm + 1) (resize nm mol.atom_ptrs) = none := by
    simp [forLoop, hps, setPtr, hpsl]
  have hfail2 := forLoop_none (setPtr p1) (resize nm mol.atom_ptrs) (nm + 1) mol.atom_no
    (by omega) hfail
  unfold molappend_atom
  simp only [he, if_true]
  rw [hnm1, hre]
  simp only
  rw [← he, hfail2]

end

/-- C1: `bondset` on indices of written atoms stores `a1`, `a2`, `epairs`, takes the endpoints
from the two atoms, sets `len` to the square root of the sum of the squared differences and `z`
to the mean of the two depths; `molappend_bond` then stores exactly that bond at index
`bond_no`, the atoms being untouched. -/
theorem bondset_then_append_geometry (h : Heap ℝ) (b : bond ℝ) (a1 a2 atoms epairs : Nat)
    (A1 A2 : atom ℝ) (mol : molecule)
    (h1 : h.atomMem.read atoms a1 = some A1) (h2 : h.atomMem.read atoms a2 = some A2)
    (hs : bondStoreOk h mol) (hc : mol.bond_no ≤ mol.bond_max)
    (hroom : mol.bond_no < mol.bond_max ∨ mol.bond_max < 32768) :
    ∃ b1, bondset Real.sqrt h b a1 a2 atoms epairs = some b1 ∧
      b1.a1 = a1 ∧ b1.a2 = a2 ∧ b1.epairs = epairs ∧
      b1.x1 = A1.x ∧ b1.y1 = A1.y ∧ b1.x2 = A2.x ∧ b1.y2 = A2.y ∧
      b1.len = Real.sqrt ((b1.x2 - b1.x1) ^ 2 + (b1.y2 - b1.y1) ^ 2) ∧
      b1.z = (A1.z + A2.z) / 2 ∧
      ∃ h3 mol3, molappend_bond h mol b1 = some (h3, mol3) ∧
        h3.bondMem.read mol3.bonds mol.bond_no = some b1 ∧
        h3.atomMem.read atoms a1 = some A1 ∧ h3.atomMem.read atoms a2 = some A2 := by
  have hb : bondset Real.sqrt h b a1 a2 atoms epairs = some
      { a1 := a1, a2 := a2, epairs := epairs, atoms := atoms,
        x1 := A1.x, x2 := A2.x, y1 := A1.y, y2 := A2.y,
        len := Real.sqrt ((A2.x - A1.x) ^ 2 + (A2.y - A1.y) ^ 2),
        dx := (A2.x - A1.x) / Real.sqrt ((A2.x - A1.x) ^ 2 + (A2.y - A1.y) ^ 2),
        dy := (A2.y - A1.y) / Real.sqrt ((A2.x - A1.x) ^ 2 + (A2.y - A1.y) ^ 2),
        z := (A1.z + A2.z) / 2 } := by
    simp only [bondset, compute_coords, h1, h2]
  refine ⟨_, hb, rfl, rfl, rfl, rfl, rfl, rfl, rfl, rfl, rfl, ?_⟩
  obtain ⟨h3, mol3, he, -, -, -, hrd, -, -, -, hmem, -⟩ := molappend_bond_spec h mol _ hs hc hroom
  refine ⟨h3, mol3, he, ?_, ?_, ?_⟩
  · rw [hrd]; simp
  · rw [hmem]; exact h1
  · rw [hmem]; exact h2

/-- Instance of C1: the bond between the two atoms of `exHeap`, appended to `exMol`. -/
theorem bondset_then_append_geometry_witness :
    exHeap.atomMem.read 0 0 = some (⟨['C'], 0, 0, 5⟩ : atom ℝ) ∧
    exHeap.atomMem.read 0 1 = some (⟨['O'], 3, 4, 2⟩ : atom ℝ) ∧
    bondStoreOk (exHeap : Heap ℝ) exMol ∧ exMol.bond_no ≤ exMol.bond_max ∧
    (exMol.bond_no < exMol.bond_max ∨ exMol.bond_max < 32768) ∧
    ∃ b1, bondset Real.sqrt (exHeap : Heap ℝ) exBond 0 1 0 1 = some b1 ∧
      b1.a1 = 0 ∧ b1.a2 = 1 ∧ b1.epairs = 1 ∧
      b1.x1 = 0 ∧ b1.y1 = 0 ∧ b1.x2 = 3 ∧ b1.y2 = 4 ∧
      b1.len = Real.sqrt ((b1.x2 - b1.x1) ^ 2 + (b1.y2 - b1.y1) ^ 2) ∧
      b1.z = ((5 : ℝ) + 2) / 2 ∧
      ∃ h3 mol3, molappend_bond exHeap exMol b1 = some (h3, mol3) ∧
        h3.bondMem.read mol3.bonds 0 = some b1 ∧
        h3.atomMem.read 0 0 = some ⟨['C'], 0, 0, 5⟩ ∧
        h3.atomMem.read 0 1 = some ⟨['O'], 3, 4, 2⟩ :=
  have hs : bondStoreOk (exHeap : Heap ℝ) exMol := by
    simp [bondStoreOk, exHeap, exMol, Mem.block, USHRT]
  ⟨rfl, rfl, hs, by simp [exMol], by simp [exMol],
    bondset_then_append_geometry exHeap exBond 0 1 0 1 ⟨['C'], 0, 0, 5⟩ ⟨['O'], 3, 4, 2⟩ exMol
      rfl rfl hs (by simp [exMol]) (by simp [exMol])⟩

section
variable {R : Type}

/-- C2 (amended): up to 32768 appends to an empty container, the count is the number of
appends, the capacity is `0` for none and otherwise the least power of two that is at least
the count, and no append lowers the capacity. -/
theorem molappend_atoms_capacity (h : Heap R) (l : List (atom R)) (hN : l.length ≤ 32768) :
    ∃ h1 mol1,
      molappend_atoms (molmalloc h 0 0).1 (molmalloc h 0 0).2 l = some (h1, mol1) ∧
      mol1.atom_no = l.length ∧ l.length ≤ mol1.atom_max ∧
      (l.length = 0 → mol1.atom_max = 0) ∧
      (0 < l.length → ∃ k, mol1.atom_max = 2 ^ k ∧ ∀ j, l.length ≤ 2 ^ j → 2 ^ k ≤ 2 ^ j) ∧
      ∀ k, k < l.length → ∃ s1 s2,
        molappend_atoms (molmalloc h 0 0).1 (molmalloc h 0 0).2 (l.take k) = some s1 ∧
        molappend_atoms (molmalloc h 0 0).1 (molmalloc h 0 0).2 (l.take (k + 1)) = some s2 ∧
        s1.2.atom_max ≤ s2.2.atom_max := by
  have hs0 := molmalloc_atomStoreOk h 0 0 (by decide)
  have hI0 : capInv (molmalloc h 0 0).2.atom_no (molmalloc h 0 0).2.atom_max :=
    Or.inl ⟨rfl, rfl⟩
  have hno0 : (molmalloc h 0 0).2.atom_no = 0 := rfl
  obtain ⟨h1, mol1, he, hs1, hI1, hno1, -⟩ := molappend_atoms_inv l _ _ hs0 hI0
    (by rw [hno0]; omega)
  rw [hno0, Nat.zero_add] at hno1
  rw [hno1] at hI1
  refine ⟨h1, mol1, he, hno1, ?_, ?_, ?_, ?_⟩
  · rcases hI1 with ⟨e1, e2⟩ | ⟨k, e, hle, -⟩
    · omega
    · rw [e]; exact hle
  · intro e0
    rcases hI1 with ⟨-, e2⟩ | ⟨k, -, hle, hlt⟩
    · exact e2
    · omega
  · intro hpos
    obtain ⟨k, e, -, hmin⟩ := capInv_min hI1 hpos
    exact ⟨k, e, hmin⟩
  · intro k hk
    obtain ⟨h2, mol2, he2, hs2, hI2, hno2, -⟩ := molappend_atoms_inv (l.take k) _ _ hs0 hI0
      (by rw [hno0, List.length_take]; omega)
    have hsplit : l.take (k + 1) = l.take k ++ [l[k]] := by
      rw [List.take_succ, List.getElem?_eq_getElem hk]; rfl
    obtain ⟨h3, mol3, he3, -, -, -, hmax3⟩ := molappend_atoms_inv [l[k]] h2 mol2 hs2 hI2
      (by rw [hno2, hno0, List.length_take]; simp; omega)
    refine ⟨(h2, mol2), (h3, mol3), he2, ?_, hmax3⟩
    rw [hsplit, molappend_atoms_append, he2]
    exact he3

end

/-- Instance of C2 (amended): the three atoms of `exAtoms` appended to an empty container. -/
theorem molappend_atoms_capacity_witness :
    (exAtoms : List (atom ℚ)).length ≤ 32768 ∧
    ∃ h1 mol1,
      molappend_atoms (molmalloc (⟨[], [], []⟩ : Heap ℚ) 0 0).1
        (molmalloc (⟨[], [], []⟩ : Heap ℚ) 0 0).2 (exAtoms : List (atom ℚ)) = some (h1, mol1) ∧
      mol1.atom_no = (exAtoms : List (atom ℚ)).length ∧ (exAtoms : List (atom ℚ)).length ≤ mol1.atom_max ∧
      ((exAtoms : List (atom ℚ)).length = 0 → mol1.atom_max = 0) ∧
      (0 < (exAtoms : List (atom ℚ)).length →
        ∃ k, mol1.atom_max = 2 ^ k ∧ ∀ j, (exAtoms : List (atom ℚ)).length ≤ 2 ^ j → 2 ^ k ≤ 2 ^ j) ∧
      ∀ k, k < (exAtoms : List (atom ℚ)).length → ∃ s1 s2,
        molappend_atoms (molmalloc (⟨[], [], []⟩ : Heap ℚ) 0 0).1
          (molmalloc (⟨[], [], []⟩ : Heap ℚ) 0 0).2 ((exAtoms : List (atom ℚ)).take k) = some s1 ∧
        molappend_atoms (molmalloc (⟨[], [], []⟩ : Heap ℚ) 0 0).1
          (molmalloc (⟨[], [], []⟩ : Heap ℚ) 0 0).2 ((exAtoms : List (atom ℚ)).take (k + 1)) = some s2 ∧
        s1.2.atom_max ≤ s2.2.atom_max :=
  ⟨by decide, molappend_atoms_capacity ⟨[], [], []⟩ exAtoms (by decide)⟩

theorem molappend_atoms_wrap {R : Type} (h : Heap R) (a : atom R) (n : Nat) (hn : n = 32768) :
    molappend_atoms (molmalloc h 0 0).1 (molmalloc h 0 0).2 (List.replicate (n + 1) a) = none := by
  have hs0 := molmalloc_atomStoreOk h 0 0 (by decide)
  have hI0 : capInv (molmalloc h 0 0).2.atom_no (molmalloc h 0 0).2.atom_max :=
    Or.inl ⟨rfl, rfl⟩
  have hno0 : (molmalloc h 0 0).2.atom_no = 0 := rfl
  obtain ⟨h1, mol1, he, hs1, hI1, hno1, -⟩ :=
    molappend_atoms_inv (List.replicate n a) _ _ hs0 hI0
      (by rw [hno0, List.length_replicate]; omega)
  rw [hno0, List.length_replicate, Nat.zero_add] at hno1
  have hmax : mol1.atom_max = 32768 := by
    rw [hno1, hn] at hI1
    rcases hI1 with ⟨e, -⟩ | ⟨k, e, hle, hlt⟩
    · omega
    · have hk : k < 16 := by
        by_contra hge
        have : 2 ^ 16 ≤ 2 ^ k := Nat.pow_le_pow_right (by norm_num) (by omega)
        omega
      have hk2 : 2 ^ k ≤ 2 ^ 15 := Nat.pow_le_pow_right (by norm_num) (by omega)
      omega
  rw [List.replicate_succ', molappend_atoms_append, he]
  simp only [molappend_atoms]
  rw [molappend_atom_overflow h1 mol1 _ hs1 (by omega) (by omega)]

/-- C2 (counterexample): the 32769th append to an empty container finds `atom_no` and
`atom_max` both 32768, doubles `atom_max` in 16 bits to 0, and returns no container. -/
theorem molappend_atoms_overflow :
    molappend_atoms (molmalloc (⟨[], [], []⟩ : Heap ℚ) 0 0).1
      (molmalloc (⟨[], [], []⟩ : Heap ℚ) 0 0).2
      (List.replicate 32769 (⟨['C'], 0, 0, 0⟩ : atom ℚ)) = none :=
  molappend_atoms_wrap ⟨[], [], []⟩ ⟨['C'], 0, 0, 0⟩ 32768 rfl

section
variable {R : Type} [LinearOrderedField R] {α : Type}

/-- The three-way comparison of the two comparison functions, as an integer. -/
theorem threeWay_le_zero (x y : R) :
    ((if x < y then (-1 : Int) else if x > y then 1 else 0) ≤ 0) ↔ x ≤ y := by
  by_cases h1 : x < y
  · simp [h1, le_of_lt h1]
  · by_cases h2 : x > y
    · simp [h1, h2]
    · simp only [h1, h2, if_false]
      have : x ≤ y := le_of_not_lt h2
      simp [this]

theorem qsortInsert_eq (compar : α → α → Option Int) (key : α → R) (ok : α → Prop)
    (hcmp : ∀ a b, ok a → ok b →
      compar a b = some (if key a < key b then -1 else if key a > key b then 1 else 0))
    (x : α) (l : List α) (hx : ok x) (hl : ∀ y ∈ l, ok y) :
    qsortInsert compar x l = some (List.orderedInsert (fun a b => key a ≤ key b) x l) := by
  induction l with
  | nil => rfl
  | cons y ys ih =>
    have hy : ok y := hl y (List.mem_cons_self _ _)
    have hys : ∀ z ∈ ys, ok z := fun z hz => hl z (List.mem_cons_of_mem _ hz)
    simp only [qsortInsert, hcmp x y hx hy, List.orderedInsert, threeWay_le_zero]
    by_cases hle : key x ≤ key y
    · simp [hle]
    · simp [hle, ih hys]

theorem qsort_eq (compar : α → α → Option Int) (key : α → R) (ok : α → Prop)
    (hcmp : ∀ a b, ok a → ok b →
      compar a b = some (if key a < key b then -1 else if key a > key b then 1 else 0))
    (l : List α) (hl : ∀ y ∈ l, ok y) :
    qsort compar l = some (List.insertionSort (fun a b => key a ≤ key b) l) := by
  induction l with
  | nil => rfl
  | cons x xs ih =>
    have hx : ok x := hl x (List.mem_cons_self _ _)
    have hxs : ∀ z ∈ xs, ok z := fun z hz => hl z (List.mem_cons_of_mem _ hz)
    simp only [qsort, ih hxs, List.insertionSort]
    apply qsortInsert_eq compar key ok hcmp x _ hx
    intro y hy
    exact hxs y ((List.perm_insertionSort _ xs).mem_iff.mp hy)

theorem atom_compare_eq (h : Heap R) (a b : Option Ptr) (ha : (atomAt h a).isSome = true)
    (hb : (atomAt h b).isSome = true) :
    atom_compare h a b = some (if atomDepth h a < atomDepth h b then -1
      else if atomDepth h a > atomDepth h b then 1 else 0) := by
  cases a with
  | none => simp [atomAt] at ha
  | some p =>
    cases b with
    | none => simp [atomAt] at hb
    | some q =>
      simp only [atomAt] at ha hb
      obtain ⟨x, hx⟩ := Option.isSome_iff_exists.mp ha
      obtain ⟨y, hy⟩ := Option.isSome_iff_exists.mp hb
      simp only [atom_compare, atomDepth, atomAt, hx, hy]
      split_ifs <;> rfl

theorem bond_compare_eq (h : Heap R) (a b : Option Ptr) (ha : (bondAt h a).isSome = true)
    (hb : (bondAt h b).isSome = true) :
    bond_compare h a b = some (if bondDepth h a < bondDepth h b then -1
      else if bondDepth h a > bondDepth h b then 1 else 0) := by
  cases a with
  | none => simp [bondAt] at ha
  | some p =>
    cases b with
    | none => simp [bondAt] at hb
    | some q =>
      simp only [bondAt] at ha hb
      obtain ⟨x, hx⟩ := Option.isSome_iff_exists.mp ha
      obtain ⟨y, hy⟩ := Option.isSome_iff_exists.mp hb
      simp only [bond_compare, bondDepth, bondAt, hx, hy]
      split_ifs <;> rfl

/-- On a container whose live pointer entries can be followed, `molsort` is the insertion sort of
the two live ranges by depth. -/
theorem molsort_eq (h : Heap R) (mol : molecule) (hp : ptrsOk h mol) :
    molsort h mol = some (h, { mol with
      atom_ptrs := List.insertionSort (fun a b => atomDepth h a ≤ atomDepth h b)
          (mol.atom_ptrs.take mol.atom_no) ++ mol.atom_ptrs.drop mol.atom_no,
      bond_ptrs := List.insertionSort (fun a b => bondDepth h a ≤ bondDepth h b)
          (mol.bond_ptrs.take mol.bond_no) ++ mol.bond_ptrs.drop mol.bond_no }) := by
  obtain ⟨h1, h2, h3, h4⟩ := hp
  have ea := qsort_eq (atom_compare h) (atomDepth h) (fun e => (atomAt h e).isSome = true)
    (atom_compare_eq h) _ h3
  have eb := qsort_eq (bond_compare h) (bondDepth h) (fun e => (bondAt h e).isSome = true)
    (bond_compare_eq h) _ h4
  simp only [molsort, h1, h2, and_self, if_true, ea, eb]

end

section
variable {R : Type} [LinearOrderedField R] {α : Type}

theorem sortedRange (key : α → R) (l rest : List α) (n : Nat) (hn : l.length = n) (i j : Nat)
    (hij : i ≤ j) (hj : j < n) :
    ∃ ei ej, (List.insertionSort (fun a b => key a ≤ key b) l ++ rest)[i]? = some ei ∧
      (List.insertionSort (fun a b => key a ≤ key b) l ++ rest)[j]? = some ej ∧
      ei ∈ l ∧ ej ∈ l ∧ key ei ≤ key ej := by
  haveI : IsTotal α (fun a b => key a ≤ key b) := ⟨fun a b => le_total (key a) (key b)⟩
  haveI : IsTrans α (fun a b => key a ≤ key b) := ⟨fun _ _ _ hab hbc => le_trans hab hbc⟩
  haveI : IsRefl α (fun a b => key a ≤ key b) := ⟨fun a => le_refl (key a)⟩
  have hs := List.sorted_insertionSort (fun a b => key a ≤ key b) l
  have hlen := List.length_insertionSort (fun a b => key a ≤ key b) l
  have hperm := List.perm_insertionSort (fun a b => key a ≤ key b) l
  generalize List.insertionSort (fun a b => key a ≤ key b) l = s at hs hlen hperm
  have hi1 : i < s.length := by omega
  have hj1 : j < s.length := by omega
  refine ⟨s[i], s[j], ?_, ?_, ?_, ?_, ?_⟩
  · rw [List.getElem?_append_left hi1, List.getElem?_eq_getElem hi1]
  · rw [List.getElem?_append_left hj1, List.getElem?_eq_getElem hj1]
  · exact hperm.mem_iff.mp (List.getElem_mem _)
  · exact hperm.mem_iff.mp (List.getElem_mem _)
  · exact hs.rel_get_of_le (a := ⟨i, hi1⟩) (b := ⟨j, hj1⟩) hij

theorem ptrsOk_molsort (h : Heap R) (mol : molecule) (hp : ptrsOk h mol) :
    ptrsOk h { mol with
      atom_ptrs := List.insertionSort (fun a b => atomDepth h a ≤ atomDepth h b)
          (mol.atom_ptrs.take mol.atom_no) ++ mol.atom_ptrs.drop mol.atom_no,
      bond_ptrs := List.insertionSort (fun a b => bondDepth h a ≤ bondDepth h b)
          (mol.bond_ptrs.take mol.bond_no) ++ mol.bond_ptrs.drop mol.bond_no } := by
  obtain ⟨h1, h2, h3, h4⟩ := hp
  have la : (List.insertionSort (fun a b => atomDepth h a ≤ atomDepth h b)
      (mol.atom_ptrs.take mol.atom_no)).length = mol.atom_no := by
    rw [List.length_insertionSort, List.length_take]; omega
  have lb : (List.insertionSort (fun a b => bondDepth h a ≤ bondDepth h b)
      (mol.bond_ptrs.take mol.bond_no)).length = mol.bond_no := by
    rw [List.length_insertionSort, List.length_take]; omega
  refine ⟨?_, ?_, ?_, ?_⟩
  · simp only [List.length_append, la]; omega
  · simp only [List.length_append, lb]; omega
  · intro e he
    simp only at he
    rw [List.take_left' la] at he
    exact h3 e ((List.perm_insertionSort _ _).mem_iff.mp he)
  · intro e he
    simp only at he
    rw [List.take_left' lb] at he
    exact h4 e ((List.perm_insertionSort _ _).mem_iff.mp he)

/-- C5: after `molsort` the atoms reached through the first `atom_no` entries of `atom_ptrs`
have non-decreasing `z`, the bonds reached through the first `bond_no` entries of `bond_ptrs`
have non-decreasing `z`, and a second `molsort` leaves both sequences of depths as they are. -/
theorem molsort_depths_ascending (h : Heap R) (mol : molecule) (hp : ptrsOk h mol) :
    ∃ mol1, molsort h mol = some (h, mol1) ∧
      (∀ i j, i ≤ j → j < mol1.atom_no → ∃ ei ej x y,
        mol1.atom_ptrs[i]? = some ei ∧ mol1.atom_ptrs[j]? = some ej ∧
        atomAt h ei = some x ∧ atomAt h ej = some y ∧ x.z ≤ y.z) ∧
      (∀ i j, i ≤ j → j < mol1.bond_no → ∃ ei ej x y,
        mol1.bond_ptrs[i]? = some ei ∧ mol1.bond_ptrs[j]? = some ej ∧
        bondAt h ei = some x ∧ bondAt h ej = some y ∧ x.z ≤ y.z) ∧
      ∃ mol2, molsort h mol1 = some (h, mol2) ∧
        (mol2.atom_ptrs.take mol2.atom_no).map (atomDepth h) =
          (mol1.atom_ptrs.take mol1.atom_no).map (atomDepth h) ∧
        (mol2.bond_ptrs.take mol2.bond_no).map (bondDepth h) =
          (mol1.bond_ptrs.take mol1.bond_no).map (bondDepth h) := by
  have hp1 := ptrsOk_molsort h mol hp
  refine ⟨_, molsort_eq h mol hp, ?_, ?_, ?_⟩
  · intro i j hij hj
    obtain ⟨h1, -, h3, -⟩ := hp
    obtain ⟨ei, ej, e1, e2, m1, m2, hle⟩ := sortedRange (atomDepth h)
      (mol.atom_ptrs.take mol.atom_no) (mol.atom_ptrs.drop mol.atom_no) mol.atom_no
      (by rw [List.length_take]; omega) i j hij hj
    obtain ⟨x, hx⟩ := Option.isSome_iff_exists.mp (h3 ei m1)
    obtain ⟨y, hy⟩ := Option.isSome_iff_exists.mp (h3 ej m2)
    refine ⟨ei, ej, x, y, e1, e2, hx, hy, ?_⟩
    simpa [atomDepth, hx, hy] using hle
  · intro i j hij hj
    obtain ⟨-, h2, -, h4⟩ := hp
    obtain ⟨ei, ej, e1, e2, m1, m2, hle⟩ := sortedRange (bondDepth h)
      (mol.bond_ptrs.take mol.bond_no) (mol.bond_ptrs.drop mol.bond_no) mol.bond_no
      (by rw [List.length_take]; omega) i j hij hj
    obtain ⟨x, hx⟩ := Option.isSome_iff_exists.mp (h4 ei m1)
    obtain ⟨y, hy⟩ := Option.isSome_iff_exists.mp (h4 ej m2)
    refine ⟨ei, ej, x, y, e1, e2, hx, hy, ?_⟩
    simpa [bondDepth, hx, hy] using hle
  · refine ⟨_, molsort_eq h _ hp1, ?_, ?_⟩
    · obtain ⟨h1, -, -, -⟩ := hp
      have la : (List.insertionSort (fun a b => atomDepth h a ≤ atomDepth h b)
          (mol.atom_ptrs.take mol.atom_no)).length = mol.atom_no := by
        rw [List.length_insertionSort, List.length_take]; omega
      simp only
      rw [List.take_left' la, (List.sorted_insertionSort _ _).insertionSort_eq,
        List.take_left' la]
    · obtain ⟨-, h2, -, -⟩ := hp
      have lb : (List.insertionSort (fun a b => bondDepth h a ≤ bondDepth h b)
          (mol.bond_ptrs.take mol.bond_no)).length = mol.bond_no := by
        rw [List.length_insertionSort, List.length_take]; omega
      simp only
      rw [List.take_left' lb, (List.sorted_insertionSort _ _).insertionSort_eq,
        List.take_left' lb]

/-- C6: `molsort` returns the heap it was given, so the atom array and the bond array are as
before; it keeps `atoms`, `bonds`, the two counts and the two capacities, permutes the first
`atom_no` entries of `atom_ptrs` and the first `bond_no` entries of `bond_ptrs`, and leaves the
entries after them alone. -/
theorem molsort_frame (h : Heap R) (mol : molecule) (hp : ptrsOk h mol) :
    ∃ h1 mol1, molsort h mol = some (h1, mol1) ∧ h1 = h ∧
      mol1.atoms = mol.atoms ∧ mol1.bonds = mol.bonds ∧
      mol1.atom_no = mol.atom_no ∧ mol1.bond_no = mol.bond_no ∧
      mol1.atom_max = mol.atom_max ∧ mol1.bond_max = mol.bond_max ∧
      (mol1.atom_ptrs.take mol.atom_no).Perm (mol.atom_ptrs.take mol.atom_no) ∧
      (mol1.bond_ptrs.take mol.bond_no).Perm (mol.bond_ptrs.take mol.bond_no) ∧
      mol1.atom_ptrs.drop mol.atom_no = mol.atom_ptrs.drop mol.atom_no ∧
      mol1.bond_ptrs.drop mol.bond_no = mol.bond_ptrs.drop mol.bond_no := by
  have hp0 := hp
  obtain ⟨h1, h2, -, -⟩ := hp
  have la : (List.insertionSort (fun a b => atomDepth h a ≤ atomDepth h b)
      (mol.atom_ptrs.take mol.atom_no)).length = mol.atom_no := by
    rw [List.length_insertionSort, List.length_take]; omega
  have lb : (List.insertionSort (fun a b => bondDepth h a ≤ bondDepth h b)
      (mol.bond_ptrs.take mol.bond_no)).length = mol.bond_no := by
    rw [List.length_insertionSort, List.length_take]; omega
  refine ⟨h, _, molsort_eq h mol hp0, rfl, rfl, rfl, rfl, rfl, rfl, rfl, ?_, ?_, ?_, ?_⟩
  · simp only
    rw [List.take_left' la]
    exact List.perm_insertionSort _ _
  · simp only
    rw [List.take_left' lb]
    exact List.perm_insertionSort _ _
  · simp only
    rw [List.drop_left' la]
  · simp only
    rw [List.drop_left' lb]

end

/-- Instance of C5: `molsort` on `exMolB`, whose two atoms are stored in descending depth. -/
theorem molsort_depths_ascending_witness :
    ptrsOk (exHeapB : Heap ℚ) exMolB ∧
    ∃ mol1, molsort (exHeapB : Heap ℚ) exMolB = some (exHeapB, mol1) ∧
      (∀ i j, i ≤ j → j < mol1.atom_no → ∃ ei ej x y,
        mol1.atom_ptrs[i]? = some ei ∧ mol1.atom_ptrs[j]? = some ej ∧
        atomAt (exHeapB : Heap ℚ) ei = some x ∧ atomAt (exHeapB : Heap ℚ) ej = some y ∧
        x.z ≤ y.z) ∧
      (∀ i j, i ≤ j → j < mol1.bond_no → ∃ ei ej x y,
        mol1.bond_ptrs[i]? = some ei ∧ mol1.bond_ptrs[j]? = some ej ∧
        bondAt (exHeapB : Heap ℚ) ei = some x ∧ bondAt (exHeapB : Heap ℚ) ej = some y ∧
        x.z ≤ y.z) ∧
      ∃ mol2, molsort (exHeapB : Heap ℚ) mol1 = some (exHeapB, mol2) ∧
        (mol2.atom_ptrs.take mol2.atom_no).map (atomDepth (exHeapB : Heap ℚ)) =
          (mol1.atom_ptrs.take mol1.atom_no).map (atomDepth (exHeapB : Heap ℚ)) ∧
        (mol2.bond_ptrs.take mol2.bond_no).map (bondDepth (exHeapB : Heap ℚ)) =
          (mol1.bond_ptrs.take mol1.bond_no).map (bondDepth (exHeapB : Heap ℚ)) :=
  ⟨by decide, molsort_depths_ascending exHeapB exMolB (by decide)⟩

/-- Instance of C6: `molsort` on `exMolB`. -/
theorem molsort_frame_witness :
    ptrsOk (exHeapB : Heap ℚ) exMolB ∧
    ∃ h1 mol1, molsort (exHeapB : Heap ℚ) exMolB = some (h1, mol1) ∧ h1 = exHeapB ∧
      mol1.atoms = exMolB.atoms ∧ mol1.bonds = exMolB.bonds ∧
      mol1.atom_no = exMolB.atom_no ∧ mol1.bond_no = exMolB.bond_no ∧
      mol1.atom_max = exMolB.atom_max ∧ mol1.bond_max = exMolB.bond_max ∧
      (mol1.atom_ptrs.take exMolB.atom_no).Perm (exMolB.atom_ptrs.take exMolB.atom_no) ∧
      (mol1.bond_ptrs.take exMolB.bond_no).Perm (exMolB.bond_ptrs.take exMolB.bond_no) ∧
      mol1.atom_ptrs.drop exMolB.atom_no = exMolB.atom_ptrs.drop exMolB.atom_no ∧
      mol1.bond_ptrs.drop exMolB.bond_no = exMolB.bond_ptrs.drop exMolB.bond_no :=
  ⟨by decide, molsort_frame exHeapB exMolB (by decide)⟩

section
variable {R : Type} [LinearOrderedField R]

theorem Mem.read_some_write {α : Type} {m : Mem α} {p i : Nat} {v : α} (w : α)
    (h : m.read p i = some v) : ∃ m1, m.write p i w = some m1 := by
  obtain ⟨b, hb, hi⟩ := Mem.read_eq_some.mp h
  exact ⟨_, Mem.write_ok w hb (List.getElem?_eq_some.mp hi).1⟩

theorem compute_coords_congr (sqrt : R → R) {h1 h2 : Heap R} (e : h1.atomMem = h2.atomMem)
    (b : bond R) : compute_coords sqrt h1 b = compute_coords sqrt h2 b := by
  simp only [compute_coords, e]

theorem compute_coords_ok (sqrt : R → R) {h : Heap R} {b : bond R} (hr : bondResolves h b) :
    ∃ b1, compute_coords sqrt h b = some b1 := by
  obtain ⟨x, hx⟩ := Option.isSome_iff_exists.mp hr.1
  obtain ⟨y, hy⟩ := Option.isSome_iff_exists.mp hr.2
  simp only [compute_coords, hx, hy]
  exact ⟨_, rfl⟩

theorem xform_atoms_loop (matrix : xform_matrix R) (h : Heap R) (mol : molecule) (n : Nat)
    (hw : ∀ i, i < n → (h.atomMem.read mol.atoms i).isSome = true) :
    ∃ h1, forLoop (mol_xform_atom mol matrix) n h = some h1 ∧
      h1.bondMem = h.bondMem ∧ h1.moves = h.moves ∧
      (∀ q, q ≠ mol.atoms → Mem.block h1.atomMem q = Mem.block h.atomMem q) ∧
      (∀ i, h1.atomMem.read mol.atoms i =
        if i < n then (h.atomMem.read mol.atoms i).map (xform_atom matrix)
        else h.atomMem.read mol.atoms i) := by
  apply forLoop_inv _ (fun k (s : Heap R) => s.bondMem = h.bondMem ∧ s.moves = h.moves ∧
      (∀ q, q ≠ mol.atoms → Mem.block s.atomMem q = Mem.block h.atomMem q) ∧
      (∀ i, s.atomMem.read mol.atoms i =
        if i < k then (h.atomMem.read mol.atoms i).map (xform_atom matrix)
        else h.atomMem.read mol.atoms i))
  · exact ⟨rfl, rfl, fun _ _ => rfl, fun i => by simp⟩
  · intro i t hi ⟨hb, hm, hfr, hrd⟩
    obtain ⟨a, ha⟩ := Option.isSome_iff_exists.mp (hw i hi)
    have hta : t.atomMem.read mol.atoms i = some a := by
      rw [hrd i]; simp [ha]
    obtain ⟨m1, hm1⟩ := Mem.read_some_write (xform_atom matrix a) hta
    refine ⟨{ t with atomMem := m1 }, by simp only [mol_xform_atom, hta, hm1], hb, hm, ?_, ?_⟩
    · intro q hq
      simp only
      rw [Mem.write_block hm1 q, if_neg hq]
      exact hfr q hq
    · intro j
      simp only
      rw [Mem.write_read hm1 mol.atoms j]
      by_cases hji : j = i
      · subst hji
        simp [ha]
      · simp only [hji, and_false, if_false]
        rw [hrd j]
        by_cases hlt : j < i
        · have : j < i + 1 := by omega
          simp [hlt, this]
        · have : ¬ j < i + 1 := by omega
          simp [hlt, this]

theorem xform_bonds_loop (sqrt : R → R) (h1 : Heap R) (mol : molecule) (n : Nat)
    (hr : ∀ j, j < n → slotResolves h1 (h1.bondMem.read mol.bonds j)) :
    ∃ h2, forLoop (mol_xform_bond sqrt mol) n h1 = some h2 ∧
      h2.atomMem = h1.atomMem ∧ h2.moves = h1.moves ∧
      (∀ q, q ≠ mol.bonds → Mem.block h2.bondMem q = Mem.block h1.bondMem q) ∧
      (∀ j, h2.bondMem.read mol.bonds j =
        if j < n then (h1.bondMem.read mol.bonds j).bind (compute_coords sqrt h1)
        else h1.bondMem.read mol.bonds j) := by
  apply forLoop_inv _ (fun k (s : Heap R) => s.atomMem = h1.atomMem ∧ s.moves = h1.moves ∧
      (∀ q, q ≠ mol.bonds → Mem.block s.bondMem q = Mem.block h1.bondMem q) ∧
      (∀ j, s.bondMem.read mol.bonds j =
        if j < k then (h1.bondMem.read mol.bonds j).bind (compute_coords sqrt h1)
        else h1.bondMem.read mol.bonds j))
  · exact ⟨rfl, rfl, fun _ _ => rfl, fun i => by simp⟩
  · intro i t hi ⟨ha, hm, hfr, hrd⟩
    have hres := hr i hi
    cases hbd : h1.bondMem.read mol.bonds i with
    | none => simp [hbd, slotResolves] at hres
    | some bd =>
      rw [hbd] at hres
      obtain ⟨bd1, hbd1⟩ := compute_coords_ok sqrt (h := h1) hres
      have htb : t.bondMem.read mol.bonds i = some bd := by
        rw [hrd i]; simp [hbd]
      have hcc : compute_coords sqrt t bd = some bd1 := by
        rw [compute_coords_congr sqrt ha]; exact hbd1
      obtain ⟨m1, hm1⟩ := Mem.read_some_write bd1 htb
      refine ⟨{ t with bondMem := m1 }, by simp only [mol_xform_bond, htb, hcc, hm1], ha, hm, ?_, ?_⟩
      · intro q hq
        simp only
        rw [Mem.write_block hm1 q, if_neg hq]
        exact hfr q hq
      · intro j
        simp only
        rw [Mem.write_read hm1 mol.bonds j]
        by_cases hji : j = i
        · subst hji
          simp [hbd, hbd1]
        · simp only [hji, and_false, if_false]
          rw [hrd j]
          by_cases hlt : j < i
          · have : j < i + 1 := by omega
            simp [hlt, this]
          · have : ¬ j < i + 1 := by omega
            simp [hlt, this]

/-- The effect of `mol_xform` on a container that can be traversed. -/
theorem mol_xform_spec (sqrt : R → R) (h : Heap R) (mol : molecule) (matrix : xform_matrix R)
    (ht : traversable h mol) :
    ∃ h2, mol_xform sqrt h mol matrix = some (h2, mol) ∧
      (∀ i, h2.atomMem.read mol.atoms i =
        if i < mol.atom_no then (h.atomMem.read mol.atoms i).map (xform_atom matrix)
        else h.atomMem.read mol.atoms i) ∧
      (∀ q, q ≠ mol.atoms → Mem.block h2.atomMem q = Mem.block h.atomMem q) ∧
      (∀ q, q ≠ mol.bonds → Mem.block h2.bondMem q = Mem.block h.bondMem q) ∧
      (∀ j, h2.bondMem.read mol.bonds j =
        if j < mol.bond_no then (h.bondMem.read mol.bonds j).bind (compute_coords sqrt h2)
        else h.bondMem.read mol.bonds j) ∧
      h2.moves = h.moves := by
  obtain ⟨hw, hres⟩ := ht
  obtain ⟨h1, e1, hb1, hm1, hfr1, hrd1⟩ := xform_atoms_loop matrix h mol mol.atom_no hw
  have hres1 : ∀ j, j < mol.bond_no → slotResolves h1 (h1.bondMem.read mol.bonds j) := by
    intro j hj
    have := hres j hj
    rw [hb1]
    cases hbd : h.bondMem.read mol.bonds j with
    | none => simp [hbd, slotResolves] at this
    | some bd =>
      rw [hbd] at this
      have key : ∀ i, (h.atomMem.read bd.atoms i).isSome = true →
          (h1.atomMem.read bd.atoms i).isSome = true := by
        intro i hi
        by_cases hq : bd.atoms = mol.atoms
        · rw [hq] at hi ⊢
          rw [hrd1 i]
          split
          · simpa using hi
          · exact hi
        · rw [Mem.read_congr (hfr1 bd.atoms hq) i]; exact hi
      exact ⟨key _ this.1, key _ this.2⟩
  obtain ⟨h2, e2, ha2, hm2, hfr2, hrd2⟩ := xform_bonds_loop sqrt h1 mol mol.bond_no hres1
  have hrun : mol_xform sqrt h mol matrix = some (h2, mol) := by
    simp only [mol_xform, e1, e2]
  refine ⟨h2, hrun, ?_, ?_, ?_, ?_, ?_⟩
  · intro i; rw [ha2]; exact hrd1 i
  · intro q hq; rw [ha2]; exact hfr1 q hq
  · intro q hq; rw [← hb1]; exact hfr2 q hq
  · intro j
    rw [hrd2 j, hb1]
    have : compute_coords sqrt h2 = compute_coords sqrt h1 :=
      funext fun b => compute_coords_congr sqrt ha2 b
    rw [this]
  · rw [hm2, hm1]

theorem xform_atom_eq (matrix : xform_matrix R) (a : atom R) :
    xform_atom matrix a =
      { element := a.element,
        x := matrix 0 0 * a.x + matrix 0 1 * a.y + matrix 0 2 * a.z,
        y := matrix 1 0 * a.x + matrix 1 1 * a.y + matrix 1 2 * a.z,
        z := matrix 2 0 * a.x + matrix 2 1 * a.y + matrix 2 2 * a.z } := by
  simp [xform_atom]

/-- C7: `mol_xform` returns on every container that can be traversed, and then every atom
below `atom_no` has the product of the matrix with its old position as its position, each
coordinate computed from the old `x`, `y` and `z`, and keeps its element. -/
theorem mol_xform_positions (sqrt : R → R) (h : Heap R) (mol : molecule)
    (matrix : xform_matrix R) (ht : traversable h mol) :
    ∃ h2, mol_xform sqrt h mol matrix = some (h2, mol) ∧
      ∀ i, i < mol.atom_no → ∃ a, h.atomMem.read mol.atoms i = some a ∧
        h2.atomMem.read mol.atoms i = some
          { element := a.element,
            x := matrix 0 0 * a.x + matrix 0 1 * a.y + matrix 0 2 * a.z,
            y := matrix 1 0 * a.x + matrix 1 1 * a.y + matrix 1 2 * a.z,
            z := matrix 2 0 * a.x + matrix 2 1 * a.y + matrix 2 2 * a.z } := by
  obtain ⟨h2, e, hrd, -⟩ := mol_xform_spec sqrt h mol matrix ht
  refine ⟨h2, e, ?_⟩
  intro i hi
  obtain ⟨a, ha⟩ := Option.isSome_iff_exists.mp (ht.1 i hi)
  refine ⟨a, ha, ?_⟩
  rw [hrd i, if_pos hi, ha, Option.map_some', xform_atom_eq]

end

theorem angle_0_360 (deg : Nat) (hd : deg = 0 ∨ deg = 360) :
    Real.cos ((deg : ℝ) * (Real.pi / 180)) = 1 ∧ Real.sin ((deg : ℝ) * (Real.pi / 180)) = 0 := by
  rcases hd with rfl | rfl
  · simp
  · have : ((360 : Nat) : ℝ) * (Real.pi / 180) = 2 * Real.pi := by
      push_cast; ring
    rw [this]
    exact ⟨Real.cos_two_pi, Real.sin_two_pi⟩

theorem xform_atom_id {R : Type} [LinearOrderedField R] (matrix : xform_matrix R) (a : atom R)
    (hm : ∀ i j, matrix i j = if i = j then 1 else 0) : xform_atom matrix a = a := by
  rw [xform_atom_eq]
  simp [hm]

theorem rotations_0_360 (deg : Nat) (hd : deg = 0 ∨ deg = 360) (i j : Fin 3) :
    xrotation Real.cos Real.sin Real.pi deg i j = (if i = j then 1 else 0) ∧
    yrotation Real.cos Real.sin Real.pi deg i j = (if i = j then 1 else 0) ∧
    zrotation Real.cos Real.sin Real.pi deg i j = (if i = j then 1 else 0) := by
  obtain ⟨hc, hs⟩ := angle_0_360 deg hd
  simp only [xrotation, yrotation, zrotation, hc, hs]
  fin_cases i <;> fin_cases j <;> simp [Matrix.vecHead, Matrix.vecTail]

theorem mol_xform_identity {R : Type} [LinearOrderedField R] (sqrt : R → R) (h : Heap R)
    (mol : molecule) (matrix : xform_matrix R) (ht : traversable h mol)
    (hm : ∀ i j, matrix i j = if i = j then 1 else 0) :
    ∃ h2, mol_xform sqrt h mol matrix = some (h2, mol) ∧
      ∀ i, i < mol.atom_no → (h2.atomMem.read mol.atoms i).isSome = true ∧
        h2.atomMem.read mol.atoms i = h.atomMem.read mol.atoms i := by
  obtain ⟨h2, e, hrd, -⟩ := mol_xform_spec sqrt h mol matrix ht
  refine ⟨h2, e, ?_⟩
  intro i hi
  obtain ⟨a, ha⟩ := Option.isSome_iff_exists.mp (ht.1 i hi)
  have : h2.atomMem.read mol.atoms i = h.atomMem.read mol.atoms i := by
    rw [hrd i, if_pos hi, ha, Option.map_some', xform_atom_id matrix a hm]
  exact ⟨by rw [this, ha]; rfl, this⟩

/-- C9: with the exact cosine and sine and `PI` read as π, `mol_xform` with the matrix of
`xrotation`, `yrotation` or `zrotation` for 0 or 360 degrees returns and leaves every atom below
`atom_no` (element and position) as it was. -/
theorem rotation_0_360_fixes_atoms (h : Heap ℝ) (mol : molecule) (deg : Nat)
    (hd : deg = 0 ∨ deg = 360) (ht : traversable h mol) :
    (∃ h2, mol_xform Real.sqrt h mol (xrotation Real.cos Real.sin Real.pi deg) = some (h2, mol) ∧
      ∀ i, i < mol.atom_no → (h2.atomMem.read mol.atoms i).isSome = true ∧
        h2.atomMem.read mol.atoms i = h.atomMem.read mol.atoms i) ∧
    (∃ h2, mol_xform Real.sqrt h mol (yrotation Real.cos Real.sin Real.pi deg) = some (h2, mol) ∧
      ∀ i, i < mol.atom_no → (h2.atomMem.read mol.atoms i).isSome = true ∧
        h2.atomMem.read mol.atoms i = h.atomMem.read mol.atoms i) ∧
    (∃ h2, mol_xform Real.sqrt h mol (zrotation Real.cos Real.sin Real.pi deg) = some (h2, mol) ∧
      ∀ i, i < mol.atom_no → (h2.atomMem.read mol.atoms i).isSome = true ∧
        h2.atomMem.read mol.atoms i = h.atomMem.read mol.atoms i) :=
  ⟨mol_xform_identity _ h mol _ ht (fun i j => (rotations_0_360 deg hd i j).1),
   mol_xform_identity _ h mol _ ht (fun i j => (rotations_0_360 deg hd i j).2.1),
   mol_xform_identity _ h mol _ ht (fun i j => (rotations_0_360 deg hd i j).2.2)⟩

/-- C8 (failing input): when `realloc` moves the atom array on the third append, the bond
still holds the address of the released array, and `mol_xform` reads through it. -/
theorem mol_xform_after_growth :
    ∃ s, growthScenario Real.sqrt ⟨[], [], [true]⟩ = some s ∧
      s.2.atom_no = 3 ∧ s.2.bond_no = 1 ∧
      (∃ b, s.1.bondMem.read s.2.bonds 0 = some b ∧ b.a1 = 0 ∧ b.a2 = 1 ∧
        b.atoms ≠ s.2.atoms ∧ s.1.atomMem.block b.atoms = none) ∧
      mol_xform Real.sqrt s.1 s.2 (zrotation Real.cos Real.sin Real.pi 90) = none := by
  refine ⟨_, rfl, rfl, rfl, ⟨_, rfl, rfl, rfl, by decide, rfl⟩, rfl⟩

/-- The same scenario when `realloc` leaves the atom array where it is: the address kept by
the bond is still the container's, and `mol_xform` returns. -/
theorem mol_xform_after_growth_in_place :
    ∃ s, growthScenario Real.sqrt ⟨[], [], []⟩ = some s ∧
      (∃ b, s.1.bondMem.read s.2.bonds 0 = some b ∧ b.atoms = s.2.atoms) ∧
      (mol_xform Real.sqrt s.1 s.2 (zrotation Real.cos Real.sin Real.pi 90)).isSome = true :=
  ⟨_, rfl, ⟨_, rfl, rfl⟩, rfl⟩

section
variable {R : Type}

theorem atomStoreOk_congr {h h1 : Heap R} {mol mol1 : molecule} (hs : atomStoreOk h mol)
    (e1 : h1.atomMem = h.atomMem) (e2 : mol1.atoms = mol.atoms)
    (e3 : mol1.atom_ptrs = mol.atom_ptrs) (e4 : mol1.atom_max = mol.atom_max) :
    atomStoreOk h1 mol1 := by
  unfold atomStoreOk at hs ⊢
  rw [e1, e2, e3, e4]; exact hs

theorem bondStoreOk_congr {h h1 : Heap R} {mol mol1 : molecule} (hs : bondStoreOk h mol)
    (e1 : h1.bondMem = h.bondMem) (e2 : mol1.bonds = mol.bonds)
    (e3 : mol1.bond_ptrs = mol.bond_ptrs) (e4 : mol1.bond_max = mol.bond_max) :
    bondStoreOk h1 mol1 := by
  unfold bondStoreOk at hs ⊢
  rw [e1, e2, e3, e4]; exact hs

theorem Mem.read_lt {α : Type} {m : Mem α} {p i : Nat} (h : (m.read p i).isSome = true) :
    p < m.length := by
  obtain ⟨v, hv⟩ := Option.isSome_iff_exists.mp h
  obtain ⟨b, hb, -⟩ := Mem.read_eq_some.mp hv
  exact Mem.block_lt hb

/-- The effect of `molcopy` on a source within its capacities whose live atoms and bonds are
written. -/
theorem molcopy_spec (h : Heap R) (src : molecule) (hc : countsOk src)
    (hau : src.atom_max < USHRT) (hbu : src.bond_max < USHRT)
    (haw : atomsWritten h src) (hbw : bondsWritten h src) :
    ∃ h1 dst, molcopy h src = some (h1, dst) ∧
      dst.atom_max = src.atom_max ∧ dst.bond_max = src.bond_max ∧
      dst.atom_no = src.atom_no ∧ dst.bond_no = src.bond_no ∧
      dst.atoms = h.atomMem.length ∧ dst.bonds = h.bondMem.length ∧
      (∀ i, i < src.atom_no → h1.atomMem.read dst.atoms i = h.atomMem.read src.atoms i) ∧
      (∀ j, j < src.bond_no → h1.bondMem.read dst.bonds j = h.bondMem.read src.bonds j) ∧
      (∀ q, q ≠ h.atomMem.length → Mem.block h1.atomMem q = Mem.block h.atomMem q) ∧
      (∀ q, q ≠ h.bondMem.length → Mem.block h1.bondMem q = Mem.block h.bondMem q) ∧
      atomStoreOk h1 dst ∧ bondStoreOk h1 dst := by
  obtain ⟨hca, hcb⟩ := hc
  -- the fresh container
  have hsa0 := molmalloc_atomStoreOk h src.atom_max src.bond_max hau
  have hsb0 := molmalloc_bondStoreOk h src.atom_max src.bond_max hbu
  have hfa0 : ∀ q, q ≠ h.atomMem.length →
      Mem.block (molmalloc h src.atom_max src.bond_max).1.atomMem q = Mem.block h.atomMem q := by
    intro q hq
    simp [molmalloc, Mem.malloc, Mem.block_append_one, hq]
  have hfb0 : ∀ q, q ≠ h.bondMem.length →
      Mem.block (molmalloc h src.atom_max src.bond_max).1.bondMem q = Mem.block h.bondMem q := by
    intro q hq
    simp [molmalloc, Mem.malloc, Mem.block_append_one, hq]
  -- the atoms
  obtain ⟨s1, e1, hsa1, hno1, hmax1, hat1, hfa1, hrd1, hsb1, hbno1, hbmax1, hbonds1, hfb1⟩ :=
    forLoop_inv (molcopy_atom src)
      (fun k (s : Heap R × molecule) =>
        atomStoreOk s.1 s.2 ∧ s.2.atom_no = k ∧ s.2.atom_max = src.atom_max ∧
        s.2.atoms = h.atomMem.length ∧
        (∀ q, q ≠ h.atomMem.length → Mem.block s.1.atomMem q = Mem.block h.atomMem q) ∧
        (∀ i, i < k → s.1.atomMem.read h.atomMem.length i = h.atomMem.read src.atoms i) ∧
        bondStoreOk s.1 s.2 ∧ s.2.bond_no = 0 ∧ s.2.bond_max = src.bond_max ∧
        s.2.bonds = h.bondMem.length ∧
        (∀ q, q ≠ h.bondMem.length → Mem.block s.1.bondMem q = Mem.block h.bondMem q))
      src.atom_no (molmalloc h src.atom_max src.bond_max)
      ⟨hsa0, rfl, rfl, rfl, hfa0, fun i hi => absurd hi (Nat.not_lt_zero i), hsb0, rfl, rfl, rfl,
        hfb0⟩
      (by
        intro i s hi ⟨hsa, hno, hmax, hat, hfa, hrd, hsb, hbno, hbmax, hbonds, hfb⟩
        have hsrc : src.atoms ≠ h.atomMem.length := Nat.ne_of_lt (Mem.read_lt (haw i hi))
        obtain ⟨a, ha⟩ := Option.isSome_iff_exists.mp (haw i hi)
        have hread : s.1.atomMem.read src.atoms i = some a := by
          rw [Mem.read_congr (hfa src.atoms hsrc) i]; exact ha
        obtain ⟨h2, mol2, he, hno2, hmax2, hs2, hrd2, hfr2, -, -, hbm2, hbmax2, hbno2,
            hbonds2, hbptrs2, -, -, hng⟩ :=
          molappend_atom_spec s.1 s.2 a hsa (by omega) (Or.inl (by omega))
        obtain ⟨hat2, -⟩ := hng (by omega)
        have hne : ¬ s.2.atom_max = s.2.atom_no := by omega
        refine ⟨(h2, mol2), by simp only [molcopy_atom, hread, he], hs2,
          (by show mol2.atom_no = i + 1; omega), ?_, ?_, ?_,
          ?_, ?_, ?_, ?_, ?_, ?_⟩
        · rw [hmax2, if_neg hne]; exact hmax
        · simp only; rw [hat2]; exact hat
        · intro q hq
          simp only
          rw [← hfa q hq]
          exact hfr2 q (by rw [hat]; exact hq) (by rw [hat2, hat]; exact hq)
        · intro j hj
          simp only
          have := hrd2 j
          rw [hat2, hat] at this
          rw [this]
          by_cases hji : j = s.2.atom_no
          · rw [if_pos hji, hji, hno]; exact ha.symm
          · rw [if_neg hji]; exact hrd j (by omega)
        · exact bondStoreOk_congr hsb hbm2 hbonds2 hbptrs2 hbmax2
        · simp only; rw [hbno2]; exact hbno
        · simp only; rw [hbmax2]; exact hbmax
        · simp only; rw [hbonds2]; exact hbonds
        · intro q hq
          simp only
          rw [hbm2]; exact hfb q hq)
  -- the bonds
  obtain ⟨s2, e2, hsb2, hno2, hmax2, hbt2, hfb2, hrd2, hsa2, hano2, hamax2, hatoms2, hamem2⟩ :=
    forLoop_inv (molcopy_bond src)
      (fun k (s : Heap R × molecule) =>
        bondStoreOk s.1 s.2 ∧ s.2.bond_no = k ∧ s.2.bond_max = src.bond_max ∧
        s.2.bonds = h.bondMem.length ∧
        (∀ q, q ≠ h.bondMem.length → Mem.block s.1.bondMem q = Mem.block h.bondMem q) ∧
        (∀ j, j < k → s.1.bondMem.read h.bondMem.length j = h.bondMem.read src.bonds j) ∧
        atomStoreOk s.1 s.2 ∧ s.2.atom_no = src.atom_no ∧ s.2.atom_max = src.atom_max ∧
        s.2.atoms = h.atomMem.length ∧ s.1.atomMem = s1.1.atomMem)
      src.bond_no s1
      ⟨hsb1, hbno1, hbmax1, hbonds1, hfb1, fun i hi => absurd hi (Nat.not_lt_zero i), hsa1, hno1,
        hmax1, hat1, rfl⟩
      (by
        intro i s hi ⟨hsb, hno, hmax, hbt, hfb, hrd, hsa, hano, hamax, hatoms, hamem⟩
        have hsrc : src.bonds ≠ h.bondMem.length := Nat.ne_of_lt (Mem.read_lt (hbw i hi))
        obtain ⟨b, hb⟩ := Option.isSome_iff_exists.mp (hbw i hi)
        have hread : s.1.bondMem.read src.bonds i = some b := by
          rw [Mem.read_congr (hfb src.bonds hsrc) i]; exact hb
        obtain ⟨h2, mol2, he, hno2, hmax2, hs2, hrd2, hfr2, -, -, ham2, hamax2, hano2,
            hatoms2, haptrs2, -, -, hng⟩ :=
          molappend_bond_spec s.1 s.2 b hsb (by omega) (Or.inl (by omega))
        obtain ⟨hbt2, -⟩ := hng (by omega)
        have hne : ¬ s.2.bond_max = s.2.bond_no := by omega
        refine ⟨(h2, mol2), by simp only [molcopy_bond, hread, he], hs2,
          (by show mol2.bond_no = i + 1; omega), ?_, ?_, ?_,
          ?_, ?_, ?_, ?_, ?_, ?_⟩
        · rw [hmax2, if_neg hne]; exact hmax
        · simp only; rw [hbt2]; exact hbt
        · intro q hq
          simp only
          rw [← hfb q hq]
          exact hfr2 q (by rw [hbt]; exact hq) (by rw [hbt2, hbt]; exact hq)
        · intro j hj
          simp only
          have := hrd2 j
          rw [hbt2, hbt] at this
          rw [this]
          by_cases hji : j = s.2.bond_no
          · rw [if_pos hji, hji, hno]; exact hb.symm
          · rw [if_neg hji]; exact hrd j (by omega)
        · exact atomStoreOk_congr hsa ham2 hatoms2 haptrs2 hamax2
        · simp only; rw [hano2]; exact hano
        · simp only; rw [hamax2]; exact hamax
        · simp only; rw [hatoms2]; exact hatoms
        · simp only; rw [ham2]; exact hamem)
  refine ⟨s2.1, { s2.2 with atom_no := src.atom_no, bond_no := src.bond_no }, ?_,
    hamax2, hmax2, rfl, rfl, hatoms2, hbt2, ?_, ?_, ?_, hfb2, ?_, ?_⟩
  · simp only [molcopy, e1, e2]
  · intro i hi
    simp only
    rw [hatoms2, hamem2]; exact hrd1 i hi
  · intro j hj
    simp only
    rw [hbt2]; exact hrd2 j hj
  · intro q hq
    rw [hamem2]; exact hfa1 q hq
  · exact atomStoreOk_congr hsa2 rfl rfl rfl rfl
  · exact bondStoreOk_congr hsb2 rfl rfl rfl rfl

end

section
variable {R : Type} [LinearOrderedField R]

/-- C3 (amended): the counts are within the capacities after `molmalloc`; `molsort`,
`mol_xform` and `molcopy` keep them so on the containers they can run on; `molappend_atom` and
`molappend_bond` keep them so when there is room or the capacity to double is below 32768. -/
theorem countsOk_preserved (sqrt : R → R) (h : Heap R) (mol : molecule) (a : atom R)
    (b : bond R) (matrix : xform_matrix R) (n m : Nat) (hc : countsOk mol) :
    countsOk (molmalloc h n m).2 ∧
    (atomStoreOk h mol → (mol.atom_no < mol.atom_max ∨ mol.atom_max < 32768) →
      ∃ s, molappend_atom h mol a = some s ∧ countsOk s.2) ∧
    (bondStoreOk h mol → (mol.bond_no < mol.bond_max ∨ mol.bond_max < 32768) →
      ∃ s, molappend_bond h mol b = some s ∧ countsOk s.2) ∧
    (ptrsOk h mol → ∃ s, molsort h mol = some s ∧ countsOk s.2) ∧
    (traversable h mol → ∃ s, mol_xform sqrt h mol matrix = some s ∧ countsOk s.2) ∧
    (mol.atom_max < USHRT → mol.bond_max < USHRT → atomsWritten h mol → bondsWritten h mol →
      ∃ s, molcopy h mol = some s ∧ countsOk s.2) := by
  refine ⟨⟨Nat.zero_le _, Nat.zero_le _⟩, ?_, ?_, ?_, ?_, ?_⟩
  · intro hs hroom
    obtain ⟨h1, mol1, e, hno, hmax, -, -, -, -, -, -, hbmax, hbno, -⟩ :=
      molappend_atom_spec h mol a hs hc.1 hroom
    refine ⟨(h1, mol1), e, ?_, ?_⟩
    · show mol1.atom_no ≤ mol1.atom_max
      rw [hno, hmax]
      have := hc.1
      split
      · split <;> omega
      · omega
    · show mol1.bond_no ≤ mol1.bond_max
      rw [hbno, hbmax]; exact hc.2
  · intro hs hroom
    obtain ⟨h1, mol1, e, hno, hmax, -, -, -, -, -, -, hamax, hano, -⟩ :=
      molappend_bond_spec h mol b hs hc.2 hroom
    refine ⟨(h1, mol1), e, ?_, ?_⟩
    · show mol1.atom_no ≤ mol1.atom_max
      rw [hano, hamax]; exact hc.1
    · show mol1.bond_no ≤ mol1.bond_max
      rw [hno, hmax]
      have := hc.2
      split
      · split <;> omega
      · omega
  · intro hp
    exact ⟨_, molsort_eq h mol hp, hc⟩
  · intro ht
    obtain ⟨h2, e, -⟩ := mol_xform_spec sqrt h mol matrix ht
    exact ⟨(h2, mol), e, hc⟩
  · intro hau hbu haw hbw
    obtain ⟨h1, dst, e, h1a, h1b, h1c, h1d, -⟩ := molcopy_spec h mol hc hau hbu haw hbw
    refine ⟨(h1, dst), e, ?_, ?_⟩
    · show dst.atom_no ≤ dst.atom_max
      rw [h1a, h1c]; exact hc.1
    · show dst.bond_no ≤ dst.bond_max
      rw [h1b, h1d]; exact hc.2

end

section
variable {R : Type}

/-- C10: on a source within its capacities whose live atoms and bonds are written, `molcopy`
returns a container with the capacities and counts of the source, the same atom at every index
below `atom_no` and the same bond record at every index below `bond_no`, and leaves every array
that existed before the call as it was. -/
theorem molcopy_copies (h : Heap R) (src : molecule) (hc : countsOk src)
    (hau : src.atom_max < USHRT) (hbu : src.bond_max < USHRT)
    (haw : atomsWritten h src) (hbw : bondsWritten h src) :
    ∃ h1 dst, molcopy h src = some (h1, dst) ∧
      dst.atom_max = src.atom_max ∧ dst.bond_max = src.bond_max ∧
      dst.atom_no = src.atom_no ∧ dst.bond_no = src.bond_no ∧
      (∀ i, i < src.atom_no → ∃ a, h.atomMem.read src.atoms i = some a ∧
        h1.atomMem.read dst.atoms i = some a) ∧
      (∀ j, j < src.bond_no → ∃ b, h.bondMem.read src.bonds j = some b ∧
        h1.bondMem.read dst.bonds j = some b) ∧
      (∀ q, q < h.atomMem.length → Mem.block h1.atomMem q = Mem.block h.atomMem q) ∧
      (∀ q, q < h.bondMem.length → Mem.block h1.bondMem q = Mem.block h.bondMem q) := by
  obtain ⟨h1, dst, e, h1a, h1b, h1c, h1d, -, -, hra, hrb, hfa, hfb, -⟩ :=
    molcopy_spec h src hc hau hbu haw hbw
  refine ⟨h1, dst, e, h1a, h1b, h1c, h1d, ?_, ?_, ?_, ?_⟩
  · intro i hi
    obtain ⟨a, ha⟩ := Option.isSome_iff_exists.mp (haw i hi)
    exact ⟨a, ha, by rw [hra i hi]; exact ha⟩
  · intro j hj
    obtain ⟨b, hb⟩ := Option.isSome_iff_exists.mp (hbw j hj)
    exact ⟨b, hb, by rw [hrb j hj]; exact hb⟩
  · intro q hq; exact hfa q (Nat.ne_of_lt hq)
  · intro q hq; exact hfb q (Nat.ne_of_lt hq)

/-- C4 (amended): `molappend_bond` does not look at `a1` or `a2`: with room, or a capacity
below 32768 to double, it stores the bond it is given at index `bond_no` and adds one to
`bond_no`.  The bound of the stored indices by `atom_no` holds after `molmalloc`, is kept by
`molappend_atom`, and is kept by `molappend_bond` when the bond given has both indices below
`atom_no`. -/
theorem molappend_bond_unchecked (h : Heap R) (mol : molecule) (b : bond R) (a : atom R)
    (n m : Nat) (hs : bondStoreOk h mol) (hc : mol.bond_no ≤ mol.bond_max)
    (hroom : mol.bond_no < mol.bond_max ∨ mol.bond_max < 32768) :
    (∃ h1 mol1, molappend_bond h mol b = some (h1, mol1) ∧
      mol1.bond_no = mol.bond_no + 1 ∧ mol1.atom_no = mol.atom_no ∧
      h1.bondMem.read mol1.bonds mol.bond_no = some b ∧
      (bondIndicesOk h mol → b.a1 < mol.atom_no → b.a2 < mol.atom_no →
        bondIndicesOk h1 mol1)) ∧
    bondIndicesOk (molmalloc h n m).1 (molmalloc h n m).2 ∧
    (atomStoreOk h mol → mol.atom_no ≤ mol.atom_max →
      (mol.atom_no < mol.atom_max ∨ mol.atom_max < 32768) → bondIndicesOk h mol →
      ∃ h1 mol1, molappend_atom h mol a = some (h1, mol1) ∧ bondIndicesOk h1 mol1) := by
  refine ⟨?_, ?_, ?_⟩
  · obtain ⟨h1, mol1, e, hno, -, -, hrd, -, -, -, -, -, hano, -⟩ :=
      molappend_bond_spec h mol b hs hc hroom
    refine ⟨h1, mol1, e, hno, hano, by rw [hrd]; simp, ?_⟩
    intro hI h1' h2' j hj
    rw [hrd j, hano]
    by_cases hji : j = mol.bond_no
    · rw [if_pos hji]; exact ⟨h1', h2'⟩
    · rw [if_neg hji]; exact hI j (by omega)
  · intro j hj
    exact absurd hj (Nat.not_lt_zero j)
  · intro hsa hca hra hI
    obtain ⟨h1, mol1, e, hno, -, -, -, -, -, -, hbm, -, hbno, hbonds, -⟩ :=
      molappend_atom_spec h mol a hsa hca hra
    refine ⟨h1, mol1, e, ?_⟩
    intro j hj
    rw [hbm, hbonds, hno]
    have := hI j (by omega)
    cases hr : h.bondMem.read mol.bonds j with
    | none => trivial
    | some b0 =>
      rw [hr] at this
      exact ⟨Nat.lt_succ_of_lt this.1, Nat.lt_succ_of_lt this.2⟩

end

/-- C4 (counterexample): in an empty container, where `atom_no` is 0, `molappend_bond` stores
a bond between the atom indices 7 and 9. -/
theorem molappend_bond_stores_unindexed :
    ∃ s, molappend_bond (molmalloc (⟨[], [], []⟩ : Heap ℚ) 0 0).1
        (molmalloc (⟨[], [], []⟩ : Heap ℚ) 0 0).2 ⟨7, 9, 1, 0, 0, 0, 0, 0, 0, 0, 0, 0⟩ = some s ∧
      s.2.atom_no = 0 ∧ s.2.bond_no = 1 ∧
      s.1.bondMem.read s.2.bonds 0 = some ⟨7, 9, 1, 0, 0, 0, 0, 0, 0, 0, 0, 0⟩ :=
  ⟨_, rfl, rfl, rfl, rfl⟩

/-- C3 (counterexample): a container with 32768 atoms in a capacity of 32768 has its counts
within its capacities, and `molappend_atom` returns no container for it: the capacity doubled
in 16 bits is 0. -/
theorem molappend_atom_full :
    countsOk fullMol ∧ atomStoreOk (fullHeap : Heap ℚ) fullMol ∧
      molappend_atom (fullHeap : Heap ℚ) fullMol ⟨['H'], 0, 0, 0⟩ = none := by
  have hs : atomStoreOk (fullHeap : Heap ℚ) fullMol := by
    refine ⟨?_, ?_, by decide⟩
    · show Option.map List.length (Mem.block fullHeap.atomMem 0) = some 32768
      have : Mem.block (fullHeap : Heap ℚ).atomMem 0 =
          some (List.replicate 32768 (some ⟨['C'], 0, 0, 0⟩)) := rfl
      rw [this, Option.map_some', List.length_replicate]
    · simp only [fullMol, List.length_map, List.length_range]
  exact ⟨⟨le_refl _, le_refl _⟩, hs, molappend_atom_overflow _ _ _ hs rfl (le_refl _)⟩

/-- Instance of C7: `mol_xform` on `exMolB` with the quarter turn `exMatrix`. -/
theorem mol_xform_positions_witness :
    traversable (exHeapB : Heap ℝ) exMolB ∧
    ∃ h2, mol_xform Real.sqrt (exHeapB : Heap ℝ) exMolB exMatrix = some (h2, exMolB) ∧
      ∀ i, i < exMolB.atom_no → ∃ a, (exHeapB : Heap ℝ).atomMem.read exMolB.atoms i = some a ∧
        h2.atomMem.read exMolB.atoms i = some
          { element := a.element,
            x := exMatrix 0 0 * a.x + exMatrix 0 1 * a.y + exMatrix 0 2 * a.z,
            y := exMatrix 1 0 * a.x + exMatrix 1 1 * a.y + exMatrix 1 2 * a.z,
            z := exMatrix 2 0 * a.x + exMatrix 2 1 * a.y + exMatrix 2 2 * a.z } :=
  ⟨by decide, mol_xform_positions Real.sqrt exHeapB exMolB exMatrix (by decide)⟩

/-- Instance of C9: the rotation about z by 360 degrees on `exMolB`. -/
theorem rotation_0_360_fixes_atoms_witness :
    ((360 : Nat) = 0 ∨ (360 : Nat) = 360) ∧ traversable (exHeapB : Heap ℝ) exMolB ∧
    ∃ h2, mol_xform Real.sqrt (exHeapB : Heap ℝ) exMolB
        (zrotation Real.cos Real.sin Real.pi 360) = some (h2, exMolB) ∧
      ∀ i, i < exMolB.atom_no → (h2.atomMem.read exMolB.atoms i).isSome = true ∧
        h2.atomMem.read exMolB.atoms i = (exHeapB : Heap ℝ).atomMem.read exMolB.atoms i :=
  ⟨Or.inr rfl, by decide,
    (rotation_0_360_fixes_atoms exHeapB exMolB 360 (Or.inr rfl) (by decide)).2.2⟩

/-- Instance of C10: `molcopy` of `exMolB`. -/
theorem molcopy_copies_witness :
    countsOk exMolB ∧ exMolB.atom_max < USHRT ∧ exMolB.bond_max < USHRT ∧
    atomsWritten (exHeapB : Heap ℚ) exMolB ∧ bondsWritten (exHeapB : Heap ℚ) exMolB ∧
    ∃ h1 dst, molcopy (exHeapB : Heap ℚ) exMolB = some (h1, dst) ∧
      dst.atom_max = exMolB.atom_max ∧ dst.bond_max = exMolB.bond_max ∧
      dst.atom_no = exMolB.atom_no ∧ dst.bond_no = exMolB.bond_no ∧
      (∀ i, i < exMolB.atom_no → ∃ a, (exHeapB : Heap ℚ).atomMem.read exMolB.atoms i = some a ∧
        h1.atomMem.read dst.atoms i = some a) ∧
      (∀ j, j < exMolB.bond_no → ∃ b, (exHeapB : Heap ℚ).bondMem.read exMolB.bonds j = some b ∧
        h1.bondMem.read dst.bonds j = some b) ∧
      (∀ q, q < (exHeapB : Heap ℚ).atomMem.length →
        Mem.block h1.atomMem q = Mem.block (exHeapB : Heap ℚ).atomMem q) ∧
      (∀ q, q < (exHeapB : Heap ℚ).bondMem.length →
        Mem.block h1.bondMem q = Mem.block (exHeapB : Heap ℚ).bondMem q) :=
  ⟨by decide, by decide, by decide, by decide, by decide,
    molcopy_copies exHeapB exMolB (by decide) (by decide) (by decide) (by decide) (by decide)⟩

/-- Instance of C3 (amended): the five operations on `exMolB`, which is full for atoms and
for bonds with capacities 2 and 1. -/
theorem countsOk_preserved_witness :
    countsOk exMolB ∧ atomStoreOk (exHeapB : Heap ℝ) exMolB ∧
    bondStoreOk (exHeapB : Heap ℝ) exMolB ∧ ptrsOk (exHeapB : Heap ℝ) exMolB ∧
    traversable (exHeapB : Heap ℝ) exMolB ∧
    (∃ s, molappend_atom (exHeapB : Heap ℝ) exMolB ⟨['H'], 1, 1, 1⟩ = some s ∧ countsOk s.2) ∧
    (∃ s, molappend_bond (exHeapB : Heap ℝ) exMolB exBond = some s ∧ countsOk s.2) ∧
    (∃ s, molsort (exHeapB : Heap ℝ) exMolB = some s ∧ countsOk s.2) ∧
    (∃ s, mol_xform Real.sqrt (exHeapB : Heap ℝ) exMolB exMatrix = some s ∧ countsOk s.2) ∧
    (∃ s, molcopy (exHeapB : Heap ℝ) exMolB = some s ∧ countsOk s.2) :=
  have w := countsOk_preserved Real.sqrt (exHeapB : Heap ℝ) exMolB ⟨['H'], 1, 1, 1⟩ exBond
    exMatrix 0 0 (by decide)
  ⟨by decide, by decide, by decide, by decide, by decide,
    w.2.1 (by decide) (by decide), w.2.2.1 (by decide) (by decide), w.2.2.2.1 (by decide),
    w.2.2.2.2.1 (by decide), w.2.2.2.2.2 (by decide) (by decide) (by decide) (by decide)⟩

/-- Instance of C4 (amended): a bond between the atom indices 7 and 9 appended to `exMolB`,
which has two atoms. -/
theorem molappend_bond_unchecked_witness :
    bondStoreOk (exHeapB : Heap ℚ) exMolB ∧ exMolB.bond_no ≤ exMolB.bond_max ∧
    (exMolB.bond_no < exMolB.bond_max ∨ exMolB.bond_max < 32768) ∧
    ∃ h1 mol1, molappend_bond (exHeapB : Heap ℚ) exMolB ⟨7, 9, 1, 0, 0, 0, 0, 0, 0, 0, 0, 0⟩ =
        some (h1, mol1) ∧
      mol1.bond_no = exMolB.bond_no + 1 ∧ mol1.atom_no = exMolB.atom_no ∧
      h1.bondMem.read mol1.bonds exMolB.bond_no = some ⟨7, 9, 1, 0, 0, 0, 0, 0, 0, 0, 0, 0⟩ :=
  have w := molappend_bond_unchecked (exHeapB : Heap ℚ) exMolB
    ⟨7, 9, 1, 0, 0, 0, 0, 0, 0, 0, 0, 0⟩ ⟨['H'], 1, 1, 1⟩ 0 0 (by decide) (by decide) (by decide)
  ⟨by decide, by decide, by decide,
    match w.1 with
    | ⟨h1, mol1, e, e1, e2, e3, _⟩ => ⟨h1, mol1, e, e1, e2, e3⟩⟩

section
variable {R : Type} [LinearOrderedField R]

/-- C20: `atomget` after `atomset` with a label of at most two characters returns the label and
the three coordinates that were set; `bondget` after `bondset` on two readable atoms returns the
two indices, the atom array and the electron pairs that were set. -/
theorem getters_return_what_setters_stored (sqrt : R → R) (h : Heap R) (a : atom R)
    (element : List Char) (x y z : R) (b : bond R) (a1 a2 atoms epairs : Nat)
    (he : element.length ≤ 2)
    (h1 : (h.atomMem.read atoms a1).isSome = true)
    (h2 : (h.atomMem.read atoms a2).isSome = true) :
    (∃ a0, atomset a element x y z = some a0 ∧ atomget a0 = (element, x, y, z)) ∧
    (∃ b0, bondset sqrt h b a1 a2 atoms epairs = some b0 ∧
      bondget b0 = (a1, a2, atoms, epairs)) := by
  constructor
  · simp only [atomset, he, if_true]
    exact ⟨_, rfl, rfl⟩
  obtain ⟨A1, hA1⟩ := Option.isSome_iff_exists.mp h1
  obtain ⟨A2, hA2⟩ := Option.isSome_iff_exists.mp h2
  simp only [bondset, compute_coords, hA1, hA2]
  exact ⟨_, rfl, rfl⟩

end

/-- Instance of C20: the label `O` and a position set on an atom, and the bond between the two
atoms of `exHeap`. -/
theorem getters_return_what_setters_stored_witness :
    ['O'].length ≤ 2 ∧
    ((exHeap : Heap ℝ).atomMem.read 0 0).isSome = true ∧
    ((exHeap : Heap ℝ).atomMem.read 0 1).isSome = true ∧
    (∃ a0, atomset (⟨['C'], 0, 0, 0⟩ : atom ℝ) ['O'] 1 2 3 = some a0 ∧
      atomget a0 = (['O'], 1, 2, 3)) ∧
    (∃ b0, bondset Real.sqrt (exHeap : Heap ℝ) exBond 0 1 0 2 = some b0 ∧
      bondget b0 = (0, 1, 0, 2)) :=
  ⟨by decide, by decide, by decide,
    getters_return_what_setters_stored Real.sqrt exHeap ⟨['C'], 0, 0, 0⟩ ['O'] 1 2 3 exBond
      0 1 0 2 (by decide) (by decide) (by decide)⟩

section
variable {R : Type} [LinearOrderedField R]

/-- The effect of `atomset` on a written slot of an atom array. -/
theorem atomset_at_spec (h : Heap R) (p i : Nat) (element : List Char) (x y z : R)
    (he : element.length ≤ 2) (hw : (h.atomMem.read p i).isSome = true) :
    ∃ h1, atomset_at h p i element x y z = some h1 ∧
      h1.bondMem = h.bondMem ∧ h1.moves = h.moves ∧
      (∀ q j, h1.atomMem.read q j =
        if q = p ∧ j = i then some ⟨element, x, y, z⟩ else h.atomMem.read q j) ∧
      (∀ q, q ≠ p → Mem.block h1.atomMem q = Mem.block h.atomMem q) := by
  obtain ⟨v, hv⟩ := Option.isSome_iff_exists.mp hw
  obtain ⟨m1, hm1⟩ := Mem.read_some_write (⟨element, x, y, z⟩ : atom R) hv
  refine ⟨{ h with atomMem := m1 }, ?_, rfl, rfl, ?_, ?_⟩
  · simp only [atomset_at, atomset, he, if_true, hm1]
  · intro q j
    exact Mem.write_read hm1 q j
  · intro q hq
    simp only
    rw [Mem.write_block hm1 q, if_neg hq]

/-- C17: `atomset` on atom `i` of the container, `i < atom_no`, with a label of at most two
characters, puts the label and the position in that atom, leaves every other atom of every
array and the whole bond storage as they were, so every stored bond keeps the fields it had. -/
theorem atomset_leaves_bonds (h : Heap R) (mol : molecule) (i : Nat) (element : List Char)
    (x y z : R) (hi : i < mol.atom_no) (hw : atomsWritten h mol) (he : element.length ≤ 2) :
    ∃ h1, atomset_at h mol.atoms i element x y z = some h1 ∧
      h1.atomMem.read mol.atoms i = some ⟨element, x, y, z⟩ ∧
      (∀ j, j ≠ i → h1.atomMem.read mol.atoms j = h.atomMem.read mol.atoms j) ∧
      (∀ q j, q ≠ mol.atoms → h1.atomMem.read q j = h.atomMem.read q j) ∧
      h1.bondMem = h.bondMem ∧
      (∀ j, h1.bondMem.read mol.bonds j = h.bondMem.read mol.bonds j) := by
  obtain ⟨h1, e, hb, -, hrd, -⟩ := atomset_at_spec h mol.atoms i element x y z he (hw i hi)
  refine ⟨h1, e, ?_, ?_, ?_, hb, ?_⟩
  · rw [hrd]; simp
  · intro j hj
    rw [hrd]; simp [hj]
  · intro q j hq
    rw [hrd]; simp [hq]
  · intro j; rw [hb]

end

section
variable {R : Type}

theorem fullMol_atomStoreOk {R : Type} [LinearOrderedField R] :
    atomStoreOk (fullHeap : Heap R) fullMol := by
  refine ⟨?_, ?_, by decide⟩
  · show Option.map List.length (Mem.block fullHeap.atomMem 0) = some 32768
    have : Mem.block (fullHeap : Heap R).atomMem 0 =
        some (List.replicate 32768 (some ⟨['C'], 0, 0, 0⟩)) := rfl
    rw [this, Option.map_some', List.length_replicate]
  · simp only [fullMol, List.length_map, List.length_range]

/-- C13 (amended): with room, or a capacity below 32768 to double, `molappend_atom` leaves the
atom at every index below `atom_no` as it was, stores the atom given at index `atom_no`, adds
one to `atom_no`, and leaves `bond_no`, `bond_max`, `bonds` and the whole bond storage as they
were. -/
theorem molappend_atom_frame (h : Heap R) (mol : molecule) (a : atom R)
    (hs : atomStoreOk h mol) (hc : mol.atom_no ≤ mol.atom_max)
    (hroom : mol.atom_no < mol.atom_max ∨ mol.atom_max < 32768) :
    ∃ h1 mol1, molappend_atom h mol a = some (h1, mol1) ∧
      (∀ i, i < mol.atom_no → h1.atomMem.read mol1.atoms i = h.atomMem.read mol.atoms i) ∧
      h1.atomMem.read mol1.atoms mol.atom_no = some a ∧
      mol1.atom_no = mol.atom_no + 1 ∧
      mol1.bond_no = mol.bond_no ∧ mol1.bond_max = mol.bond_max ∧ mol1.bonds = mol.bonds ∧
      h1.bondMem = h.bondMem ∧
      (∀ j, h1.bondMem.read mol1.bonds j = h.bondMem.read mol.bonds j) := by
  obtain ⟨h1, mol1, e, hno, -, -, hrd, -, -, -, hbm, hbmax, hbno, hbonds, -⟩ :=
    molappend_atom_spec h mol a hs hc hroom
  refine ⟨h1, mol1, e, ?_, ?_, hno, hbno, hbmax, hbonds, hbm, ?_⟩
  · intro i hi
    rw [hrd i, if_neg (Nat.ne_of_lt hi)]
  · rw [hrd, if_pos rfl]
  · intro j; rw [hbm, hbonds]

/-- C12: after `molcopy`, `atomset` on atom 0 of the copy leaves atom 0 of the source as it
was, and `atomset` on atom 0 of the source leaves atom 0 of the copy as it was. -/
theorem molcopy_atoms_independent {R : Type} [LinearOrderedField R] (h : Heap R)
    (src : molecule) (element : List Char) (x y z : R)
    (hc : countsOk src) (hau : src.atom_max < USHRT) (hbu : src.bond_max < USHRT)
    (haw : atomsWritten h src) (hbw : bondsWritten h src) (hpos : 0 < src.atom_no)
    (he : element.length ≤ 2) :
    ∃ h1 dst a0, molcopy h src = some (h1, dst) ∧
      h1.atomMem.read src.atoms 0 = some a0 ∧ h1.atomMem.read dst.atoms 0 = some a0 ∧
      (∃ h2, atomset_at h1 dst.atoms 0 element x y z = some h2 ∧
        h2.atomMem.read dst.atoms 0 = some ⟨element, x, y, z⟩ ∧
        h2.atomMem.read src.atoms 0 = some a0) ∧
      (∃ h3, atomset_at h1 src.atoms 0 element x y z = some h3 ∧
        h3.atomMem.read src.atoms 0 = some ⟨element, x, y, z⟩ ∧
        h3.atomMem.read dst.atoms 0 = some a0) := by
  obtain ⟨h1, dst, e, -, -, -, -, hda, -, hra, -, hfa, -⟩ :=
    molcopy_spec h src hc hau hbu haw hbw
  obtain ⟨a0, ha0⟩ := Option.isSome_iff_exists.mp (haw 0 hpos)
  have hne : src.atoms ≠ h.atomMem.length := Nat.ne_of_lt (Mem.read_lt (haw 0 hpos))
  have hsrc : h1.atomMem.read src.atoms 0 = some a0 := by
    rw [Mem.read_congr (hfa src.atoms hne) 0]; exact ha0
  have hdst : h1.atomMem.read dst.atoms 0 = some a0 := by
    rw [hra 0 hpos]; exact ha0
  have hsd : src.atoms ≠ dst.atoms := by rw [hda]; exact hne
  refine ⟨h1, dst, a0, e, hsrc, hdst, ?_, ?_⟩
  · obtain ⟨h2, e2, -, -, hrd, -⟩ :=
      atomset_at_spec h1 dst.atoms 0 element x y z he (by rw [hdst]; rfl)
    refine ⟨h2, e2, ?_, ?_⟩
    · rw [hrd]; simp
    · rw [hrd]; simp [hsd, hsrc]
  · obtain ⟨h3, e3, -, -, hrd, -⟩ :=
      atomset_at_spec h1 src.atoms 0 element x y z he (by rw [hsrc]; rfl)
    refine ⟨h3, e3, ?_, ?_⟩
    · rw [hrd]; simp
    · rw [hrd]; simp [Ne.symm hsd, hdst]

end

/-- C13 (counterexample): `fullMol` has 32768 atoms in a capacity of 32768, and
`molappend_atom` on it returns no container, so none with 32769 atoms. -/
theorem molappend_atom_no_frame_when_full :
    fullMol.atom_no = 32768 ∧ fullMol.atom_max = 32768 ∧
      ¬ ∃ s, molappend_atom (fullHeap : Heap ℚ) fullMol ⟨['H'], 1, 1, 1⟩ = some s ∧
        s.2.atom_no = fullMol.atom_no + 1 := by
  refine ⟨rfl, rfl, ?_⟩
  rintro ⟨s, hs, -⟩
  rw [molappend_atom_overflow _ _ _ fullMol_atomStoreOk rfl (le_refl _)] at hs
  cases hs

/-- Instance of C17: `atomset` on atom 1 of `exMolB`. -/
theorem atomset_leaves_bonds_witness :
    1 < exMolB.atom_no ∧ atomsWritten (exHeapB : Heap ℝ) exMolB ∧ ['N'].length ≤ 2 ∧
    ∃ h1, atomset_at (exHeapB : Heap ℝ) exMolB.atoms 1 ['N'] 9 8 7 = some h1 ∧
      h1.atomMem.read exMolB.atoms 1 = some ⟨['N'], 9, 8, 7⟩ ∧
      (∀ j, j ≠ 1 → h1.atomMem.read exMolB.atoms j = (exHeapB : Heap ℝ).atomMem.read exMolB.atoms j) ∧
      (∀ q j, q ≠ exMolB.atoms → h1.atomMem.read q j = (exHeapB : Heap ℝ).atomMem.read q j) ∧
      h1.bondMem = (exHeapB : Heap ℝ).bondMem ∧
      (∀ j, h1.bondMem.read exMolB.bonds j = (exHeapB : Heap ℝ).bondMem.read exMolB.bonds j) :=
  ⟨by decide, by decide, by decide,
    atomset_leaves_bonds exHeapB exMolB 1 ['N'] 9 8 7 (by decide) (by decide) (by decide)⟩

/-- Instance of C13 (amended): an atom appended to `exMolB`, which is full with capacity 2. -/
theorem molappend_atom_frame_witness :
    atomStoreOk (exHeapB : Heap ℝ) exMolB ∧ exMolB.atom_no ≤ exMolB.atom_max ∧
    (exMolB.atom_no < exMolB.atom_max ∨ exMolB.atom_max < 32768) ∧
    ∃ h1 mol1, molappend_atom (exHeapB : Heap ℝ) exMolB ⟨['H'], 1, 1, 1⟩ = some (h1, mol1) ∧
      (∀ i, i < exMolB.atom_no →
        h1.atomMem.read mol1.atoms i = (exHeapB : Heap ℝ).atomMem.read exMolB.atoms i) ∧
      h1.atomMem.read mol1.atoms exMolB.atom_no = some ⟨['H'], 1, 1, 1⟩ ∧
      mol1.atom_no = exMolB.atom_no + 1 ∧
      mol1.bond_no = exMolB.bond_no ∧ mol1.bond_max = exMolB.bond_max ∧
      mol1.bonds = exMolB.bonds ∧ h1.bondMem = (exHeapB : Heap ℝ).bondMem ∧
      (∀ j, h1.bondMem.read mol1.bonds j = (exHeapB : Heap ℝ).bondMem.read exMolB.bonds j) :=
  ⟨by decide, by decide, by decide,
    molappend_atom_frame exHeapB exMolB ⟨['H'], 1, 1, 1⟩ (by decide) (by decide) (by decide)⟩

/-- Instance of C12: `molcopy` of `exMolB`, then `atomset` on atom 0 of either container. -/
theorem molcopy_atoms_independent_witness :
    countsOk exMolB ∧ exMolB.atom_max < USHRT ∧ exMolB.bond_max < USHRT ∧
    atomsWritten (exHeapB : Heap ℝ) exMolB ∧ bondsWritten (exHeapB : Heap ℝ) exMolB ∧
    0 < exMolB.atom_no ∧ ['N'].length ≤ 2 ∧
    ∃ h1 dst a0, molcopy (exHeapB : Heap ℝ) exMolB = some (h1, dst) ∧
      h1.atomMem.read exMolB.atoms 0 = some a0 ∧ h1.atomMem.read dst.atoms 0 = some a0 ∧
      (∃ h2, atomset_at h1 dst.atoms 0 ['N'] 9 8 7 = some h2 ∧
        h2.atomMem.read dst.atoms 0 = some ⟨['N'], 9, 8, 7⟩ ∧
        h2.atomMem.read exMolB.atoms 0 = some a0) ∧
      (∃ h3, atomset_at h1 exMolB.atoms 0 ['N'] 9 8 7 = some h3 ∧
        h3.atomMem.read exMolB.atoms 0 = some ⟨['N'], 9, 8, 7⟩ ∧
        h3.atomMem.read dst.atoms 0 = some a0) :=
  ⟨by decide, by decide, by decide, by decide, by decide, by decide, by decide,
    molcopy_atoms_independent exHeapB exMolB ['N'] 9 8 7 (by decide) (by decide) (by decide)
      (by decide) (by decide) (by decide) (by decide)⟩

theorem angle_90 :
    Real.cos ((90 : ℝ) * (Real.pi / 180)) = 0 ∧
    Real.sin ((90 : ℝ) * (Real.pi / 180)) = 1 := by
  have : (90 : ℝ) * (Real.pi / 180) = Real.pi / 2 := by
    ring
  rw [this]
  exact ⟨Real.cos_pi_div_two, Real.sin_pi_div_two⟩

theorem rotations_distSq (deg : Nat) (p q : atom ℝ) :
    distSq (xform_atom (xrotation Real.cos Real.sin Real.pi deg) p)
      (xform_atom (xrotation Real.cos Real.sin Real.pi deg) q) = distSq p q ∧
    distSq (xform_atom (yrotation Real.cos Real.sin Real.pi deg) p)
      (xform_atom (yrotation Real.cos Real.sin Real.pi deg) q) = distSq p q ∧
    distSq (xform_atom (zrotation Real.cos Real.sin Real.pi deg) p)
      (xform_atom (zrotation Real.cos Real.sin Real.pi deg) q) = distSq p q := by
  have hcs := Real.cos_sq_add_sin_sq ((deg : ℝ) * (Real.pi / 180))
  refine ⟨?_, ?_, ?_⟩
  · simp only [xform_atom_eq, distSq, xrotation]
    simp only [Matrix.cons_val_zero, Matrix.cons_val_one, Matrix.head_cons, Matrix.cons_val_two,
      Matrix.tail_cons]
    linear_combination ((p.y - q.y) ^ 2 + (p.z - q.z) ^ 2) * hcs
  · simp only [xform_atom_eq, distSq, yrotation]
    simp only [Matrix.cons_val_zero, Matrix.cons_val_one, Matrix.head_cons, Matrix.cons_val_two,
      Matrix.tail_cons]
    linear_combination ((p.x - q.x) ^ 2 + (p.z - q.z) ^ 2) * hcs
  · simp only [xform_atom_eq, distSq, zrotation]
    simp only [Matrix.cons_val_zero, Matrix.cons_val_one, Matrix.head_cons, Matrix.cons_val_two,
      Matrix.tail_cons]
    linear_combination ((p.x - q.x) ^ 2 + (p.y - q.y) ^ 2) * hcs

theorem mol_xform_distance (h : Heap ℝ) (mol : molecule) (matrix : xform_matrix ℝ)
    (i j : Nat) (hi : i < mol.atom_no) (hj : j < mol.atom_no) (ht : traversable h mol)
    (hm : ∀ p q : atom ℝ, distSq (xform_atom matrix p) (xform_atom matrix q) = distSq p q) :
    ∃ h2 p q p1 q1, mol_xform Real.sqrt h mol matrix = some (h2, mol) ∧
      h.atomMem.read mol.atoms i = some p ∧ h.atomMem.read mol.atoms j = some q ∧
      h2.atomMem.read mol.atoms i = some p1 ∧ h2.atomMem.read mol.atoms j = some q1 ∧
      Real.sqrt ((p1.x - q1.x) ^ 2 + (p1.y - q1.y) ^ 2 + (p1.z - q1.z) ^ 2) =
        Real.sqrt ((p.x - q.x) ^ 2 + (p.y - q.y) ^ 2 + (p.z - q.z) ^ 2) := by
  obtain ⟨h2, e, hrd, -⟩ := mol_xform_spec Real.sqrt h mol matrix ht
  obtain ⟨p, hp⟩ := Option.isSome_iff_exists.mp (ht.1 i hi)
  obtain ⟨q, hq⟩ := Option.isSome_iff_exists.mp (ht.1 j hj)
  refine ⟨h2, p, q, xform_atom matrix p, xform_atom matrix q, e, hp, hq, ?_, ?_, ?_⟩
  · rw [hrd i, if_pos hi, hp]; rfl
  · rw [hrd j, if_pos hj, hq]; rfl
  · have := hm p q
    unfold distSq at this
    rw [this]

/-- C18: with the exact cosine and sine, after `mol_xform` with the matrix of `xrotation`,
`yrotation` or `zrotation` for any angle, the distance between any two atoms of the container
is the distance they had before. -/
theorem rotation_is_rigid (h : Heap ℝ) (mol : molecule) (deg i j : Nat)
    (hi : i < mol.atom_no) (hj : j < mol.atom_no) (ht : traversable h mol) :
    (∃ h2 p q p1 q1,
      mol_xform Real.sqrt h mol (xrotation Real.cos Real.sin Real.pi deg) = some (h2, mol) ∧
      h.atomMem.read mol.atoms i = some p ∧ h.atomMem.read mol.atoms j = some q ∧
      h2.atomMem.read mol.atoms i = some p1 ∧ h2.atomMem.read mol.atoms j = some q1 ∧
      Real.sqrt ((p1.x - q1.x) ^ 2 + (p1.y - q1.y) ^ 2 + (p1.z - q1.z) ^ 2) =
        Real.sqrt ((p.x - q.x) ^ 2 + (p.y - q.y) ^ 2 + (p.z - q.z) ^ 2)) ∧
    (∃ h2 p q p1 q1,
      mol_xform Real.sqrt h mol (yrotation Real.cos Real.sin Real.pi deg) = some (h2, mol) ∧
      h.atomMem.read mol.atoms i = some p ∧ h.atomMem.read mol.atoms j = some q ∧
      h2.atomMem.read mol.atoms i = some p1 ∧ h2.atomMem.read mol.atoms j = some q1 ∧
      Real.sqrt ((p1.x - q1.x) ^ 2 + (p1.y - q1.y) ^ 2 + (p1.z - q1.z) ^ 2) =
        Real.sqrt ((p.x - q.x) ^ 2 + (p.y - q.y) ^ 2 + (p.z - q.z) ^ 2)) ∧
    (∃ h2 p q p1 q1,
      mol_xform Real.sqrt h mol (zrotation Real.cos Real.sin Real.pi deg) = some (h2, mol) ∧
      h.atomMem.read mol.atoms i = some p ∧ h.atomMem.read mol.atoms j = some q ∧
      h2.atomMem.read mol.atoms i = some p1 ∧ h2.atomMem.read mol.atoms j = some q1 ∧
      Real.sqrt ((p1.x - q1.x) ^ 2 + (p1.y - q1.y) ^ 2 + (p1.z - q1.z) ^ 2) =
        Real.sqrt ((p.x - q.x) ^ 2 + (p.y - q.y) ^ 2 + (p.z - q.z) ^ 2)) :=
  ⟨mol_xform_distance h mol _ i j hi hj ht (fun p q => (rotations_distSq deg p q).1),
   mol_xform_distance h mol _ i j hi hj ht (fun p q => (rotations_distSq deg p q).2.1),
   mol_xform_distance h mol _ i j hi hj ht (fun p q => (rotations_distSq deg p q).2.2)⟩

/-- C19 (amended): the three matrices have the standard forms in `c = cos (deg * π / 180)` and
`s = sin (deg * π / 180)`; `mol_xform` with the X (resp. Y, Z) matrix leaves the `x` (resp. `y`,
`z`) of every atom below `atom_no` as it was; and `mol_xform` with the Z matrix leaves the depth
`z` of a bond below `bond_no` as it was when that depth was the mean of the `z` of the two
atoms the bond refers to. -/
theorem rotation_forms_and_fixed_coordinates (h : Heap ℝ) (mol : molecule) (deg : Nat)
    (ht : traversable h mol) :
    xrotation Real.cos Real.sin Real.pi deg =
      ![![1, 0, 0],
        ![0, Real.cos ((deg : ℝ) * Real.pi / 180), -Real.sin ((deg : ℝ) * Real.pi / 180)],
        ![0, Real.sin ((deg : ℝ) * Real.pi / 180), Real.cos ((deg : ℝ) * Real.pi / 180)]] ∧
    yrotation Real.cos Real.sin Real.pi deg =
      ![![Real.cos ((deg : ℝ) * Real.pi / 180), 0, Real.sin ((deg : ℝ) * Real.pi / 180)],
        ![0, 1, 0],
        ![-Real.sin ((deg : ℝ) * Real.pi / 180), 0, Real.cos ((deg : ℝ) * Real.pi / 180)]] ∧
    zrotation Real.cos Real.sin Real.pi deg =
      ![![Real.cos ((deg : ℝ) * Real.pi / 180), -Real.sin ((deg : ℝ) * Real.pi / 180), 0],
        ![Real.sin ((deg : ℝ) * Real.pi / 180), Real.cos ((deg : ℝ) * Real.pi / 180), 0],
        ![0, 0, 1]] ∧
    (∃ h2, mol_xform Real.sqrt h mol (xrotation Real.cos Real.sin Real.pi deg) = some (h2, mol) ∧
      ∀ i, i < mol.atom_no → ∃ p p1, h.atomMem.read mol.atoms i = some p ∧
        h2.atomMem.read mol.atoms i = some p1 ∧ p1.x = p.x) ∧
    (∃ h2, mol_xform Real.sqrt h mol (yrotation Real.cos Real.sin Real.pi deg) = some (h2, mol) ∧
      ∀ i, i < mol.atom_no → ∃ p p1, h.atomMem.read mol.atoms i = some p ∧
        h2.atomMem.read mol.atoms i = some p1 ∧ p1.y = p.y) ∧
    (∃ h2, mol_xform Real.sqrt h mol (zrotation Real.cos Real.sin Real.pi deg) = some (h2, mol) ∧
      (∀ i, i < mol.atom_no → ∃ p p1, h.atomMem.read mol.atoms i = some p ∧
        h2.atomMem.read mol.atoms i = some p1 ∧ p1.z = p.z) ∧
      (∀ j, j < mol.bond_no → ∃ b b1, h.bondMem.read mol.bonds j = some b ∧
        h2.bondMem.read mol.bonds j = some b1 ∧
        ∀ A1 A2, h.atomMem.read b.atoms b.a1 = some A1 → h.atomMem.read b.atoms b.a2 = some A2 →
          b.z = (A1.z + A2.z) / 2 → b1.z = b.z)) := by
  have hrad : (deg : ℝ) * (Real.pi / 180) = (deg : ℝ) * Real.pi / 180 := by ring
  refine ⟨?_, ?_, ?_, ?_, ?_, ?_⟩
  · simp only [xrotation, hrad]
  · simp only [yrotation, hrad]
  · simp only [zrotation, hrad]
  · obtain ⟨h2, e, hrd, -⟩ := mol_xform_spec Real.sqrt h mol
      (xrotation Real.cos Real.sin Real.pi deg) ht
    refine ⟨h2, e, ?_⟩
    intro i hi
    obtain ⟨p, hp⟩ := Option.isSome_iff_exists.mp (ht.1 i hi)
    refine ⟨p, _, hp, by rw [hrd i, if_pos hi, hp]; rfl, ?_⟩
    rw [xform_atom_eq]
    simp [xrotation]
  · obtain ⟨h2, e, hrd, -⟩ := mol_xform_spec Real.sqrt h mol
      (yrotation Real.cos Real.sin Real.pi deg) ht
    refine ⟨h2, e, ?_⟩
    intro i hi
    obtain ⟨p, hp⟩ := Option.isSome_iff_exists.mp (ht.1 i hi)
    refine ⟨p, _, hp, by rw [hrd i, if_pos hi, hp]; rfl, ?_⟩
    rw [xform_atom_eq]
    simp [yrotation]
  · obtain ⟨h2, e, hrd, hfr, -, hrb, -⟩ := mol_xform_spec Real.sqrt h mol
      (zrotation Real.cos Real.sin Real.pi deg) ht
    have hz : ∀ p : atom ℝ,
        (xform_atom (zrotation Real.cos Real.sin Real.pi deg) p).z = p.z := by
      intro p
      rw [xform_atom_eq]
      simp [zrotation]
    -- the depth of every readable atom of every array is kept
    have hkeep : ∀ q k A, h.atomMem.read q k = some A →
        ∃ A1, h2.atomMem.read q k = some A1 ∧ A1.z = A.z := by
      intro q k A hA
      by_cases hq : q = mol.atoms
      · subst hq
        rw [hrd k]
        by_cases hk : k < mol.atom_no
        · rw [if_pos hk, hA]
          exact ⟨_, rfl, hz A⟩
        · rw [if_neg hk, hA]
          exact ⟨A, rfl, rfl⟩
      · rw [Mem.read_congr (hfr q hq) k, hA]
        exact ⟨A, rfl, rfl⟩
    refine ⟨h2, e, ?_, ?_⟩
    · intro i hi
      obtain ⟨p, hp⟩ := Option.isSome_iff_exists.mp (ht.1 i hi)
      exact ⟨p, _, hp, by rw [hrd i, if_pos hi, hp]; rfl, hz p⟩
    · intro j hj
      have hres := ht.2 j hj
      cases hb : h.bondMem.read mol.bonds j with
      | none => rw [hb] at hres; exact absurd hres (by simp [slotResolves])
      | some b =>
        rw [hb] at hres
        obtain ⟨B1, hB1⟩ := Option.isSome_iff_exists.mp hres.1
        obtain ⟨B2, hB2⟩ := Option.isSome_iff_exists.mp hres.2
        obtain ⟨C1, hC1, hz1⟩ := hkeep _ _ _ hB1
        obtain ⟨C2, hC2, hz2⟩ := hkeep _ _ _ hB2
        have hnew : h2.bondMem.read mol.bonds j = compute_coords Real.sqrt h2 b := by
          rw [hrb j, if_pos hj, hb]; rfl
        simp only [compute_coords, hC1, hC2] at hnew
        refine ⟨b, _, rfl, hnew, ?_⟩
        intro A1 A2 hA1 hA2 hzb
        rw [hB1] at hA1
        rw [hB2] at hA2
        cases hA1
        cases hA2
        show (C1.z + C2.z) / 2 = b.z
        rw [hz1, hz2, hzb]

/-- C19 (counterexample): after `atomset` has put the second atom of the bonded pair at depth
4, the bond still stores the depth 0; `mol_xform` with the matrix of `zrotation` for 0 degrees
then sets the depth of the bond to 2. -/
theorem zrotation_changes_stale_depth :
    ∃ s b h2 b1, movedAtom Real.sqrt ⟨[], [], []⟩ = some s ∧
      s.1.bondMem.read s.2.bonds 0 = some b ∧
      mol_xform Real.sqrt s.1 s.2 (zrotation Real.cos Real.sin Real.pi 0) = some (h2, s.2) ∧
      h2.bondMem.read s.2.bonds 0 = some b1 ∧ b.z = 0 ∧ b1.z = 2 ∧ b1.z ≠ b.z := by
  refine ⟨_, _, _, _, rfl, rfl, rfl, rfl, ?_, ?_, ?_⟩
  · norm_num
  · simp [xform_atom, zrotation]
    norm_num
  · simp [xform_atom, zrotation]

section
variable {α : Type}

theorem take_eq_map_range (l : List α) (f : Nat → α) (n : Nat)
    (hl : ∀ i, i < n → l[i]? = some (f i)) : l.take n = (List.range n).map f := by
  apply List.ext_getElem?
  intro i
  by_cases hi : i < n
  · rw [List.getElem?_take, if_pos hi, hl i hi, List.getElem?_map, List.getElem?_range hi]
    rfl
  · rw [List.getElem?_take, if_neg hi]
    symm
    apply List.getElem?_eq_none
    simp; omega

theorem take_congr (l1 l2 : List α) (n : Nat) (hl : ∀ i, i < n → l1[i]? = l2[i]?) :
    l1.take n = l2.take n := by
  apply List.ext_getElem?
  intro i
  by_cases hi : i < n
  · rw [List.getElem?_take, List.getElem?_take, if_pos hi, if_pos hi, hl i hi]
  · rw [List.getElem?_take, List.getElem?_take, if_neg hi, if_neg hi]

theorem take_succ_of_getElem? (l : List α) (n : Nat) (x : α) (hx : l[n]? = some x) :
    l.take (n + 1) = l.take n ++ [x] := by
  rw [List.take_succ, hx]; rfl

theorem identityPtrs_succ (p n : Nat) :
    identityPtrs p (n + 1) = identityPtrs p n ++ [some ⟨p, n⟩] := by
  simp [identityPtrs, List.range_succ]

theorem qsortInsert_perm (compar : α → α → Option Int) (x : α) (l r : List α)
    (h : qsortInsert compar x l = some r) : r.Perm (x :: l) := by
  induction l generalizing r with
  | nil =>
    simp only [qsortInsert, Option.some.injEq] at h
    rw [← h]
  | cons y ys ih =>
    simp only [qsortInsert] at h
    cases hc : compar x y with
    | none => rw [hc] at h; cases h
    | some c =>
      rw [hc] at h
      simp only at h
      by_cases hle : c ≤ 0
      · rw [if_pos hle] at h
        cases h
        exact List.Perm.refl _
      · rw [if_neg hle] at h
        cases hr : qsortInsert compar x ys with
        | none => rw [hr] at h; cases h
        | some r1 =>
          rw [hr] at h
          cases h
          exact ((ih r1 hr).cons y).trans (List.Perm.swap x y ys)

theorem qsort_perm (compar : α → α → Option Int) (l s : List α)
    (h : qsort compar l = some s) : s.Perm l := by
  induction l generalizing s with
  | nil =>
    simp only [qsort, Option.some.injEq] at h
    rw [← h]
  | cons x xs ih =>
    simp only [qsort] at h
    cases hr : qsort compar xs with
    | none => rw [hr] at h; cases h
    | some s1 =>
      rw [hr] at h
      exact (qsortInsert_perm compar x s1 s h).trans ((ih s1 hr).cons x)

theorem forLoop_preserve {σ : Type} (body : Nat → σ → Option σ) (P : σ → Prop)
    (hstep : ∀ i s t, body i s = some t → P s → P t) (n : Nat) (s t : σ)
    (h : forLoop body n s = some t) (hP : P s) : P t := by
  induction n generalizing t with
  | zero =>
    simp only [forLoop, Option.some.injEq] at h
    rw [← h]; exact hP
  | succ k ih =>
    simp only [forLoop] at h
    cases hk : forLoop body k s with
    | none => rw [hk] at h; cases h
    | some s1 =>
      rw [hk] at h
      exact hstep k s1 t h (ih s1 hk)

theorem Mem.write_block_length {m m1 : Mem α} {p i : Nat} {v : α}
    (h : m.write p i v = some m1) (q : Nat) :
    (Mem.block m1 q).map List.length = (Mem.block m q).map List.length := by
  rw [Mem.write_block h q]
  by_cases hq : q = p
  · subst hq
    rw [if_pos rfl]
    cases Mem.block m q with
    | none => rfl
    | some b => simp
  · rw [if_neg hq]

end

section
variable {R : Type} [LinearOrderedField R]

/-- A call of `mol_xform` that returns leaves the record as it was and keeps the size of every
array of the heap. -/
theorem mol_xform_shape (sqrt : R → R) (h : Heap R) (mol : molecule) (matrix : xform_matrix R)
    (t : Heap R × molecule) (he : mol_xform sqrt h mol matrix = some t) :
    t.2 = mol ∧
    (∀ q, (Mem.block t.1.atomMem q).map List.length = (Mem.block h.atomMem q).map List.length) ∧
    (∀ q, (Mem.block t.1.bondMem q).map List.length = (Mem.block h.bondMem q).map List.length) := by
  simp only [mol_xform] at he
  cases h1e : forLoop (mol_xform_atom mol matrix) mol.atom_no h with
  | none => rw [h1e] at he; cases he
  | some h1 =>
    rw [h1e] at he
    simp only at he
    cases h2e : forLoop (mol_xform_bond sqrt mol) mol.bond_no h1 with
    | none => rw [h2e] at he; cases he
    | some h2 =>
      rw [h2e] at he
      cases he
      have P1 := forLoop_preserve (mol_xform_atom mol matrix)
        (fun s : Heap R =>
          (∀ q, (Mem.block s.atomMem q).map List.length =
            (Mem.block h.atomMem q).map List.length) ∧
          (∀ q, (Mem.block s.bondMem q).map List.length =
            (Mem.block h.bondMem q).map List.length))
        (by
          intro i s t hb ⟨ha, hbd⟩
          simp only [mol_xform_atom] at hb
          cases hr : s.atomMem.read mol.atoms i with
          | none => rw [hr] at hb; cases hb
          | some atm =>
            rw [hr] at hb
            simp only at hb
            cases hw : s.atomMem.write mol.atoms i (xform_atom matrix atm) with
            | none => rw [hw] at hb; cases hb
            | some m =>
              rw [hw] at hb
              cases hb
              exact ⟨fun q => by rw [Mem.write_block_length hw q]; exact ha q, hbd⟩)
        mol.atom_no h h1 h1e ⟨fun _ => rfl, fun _ => rfl⟩
      have P2 := forLoop_preserve (mol_xform_bond sqrt mol)
        (fun s : Heap R =>
          (∀ q, (Mem.block s.atomMem q).map List.length =
            (Mem.block h.atomMem q).map List.length) ∧
          (∀ q, (Mem.block s.bondMem q).map List.length =
            (Mem.block h.bondMem q).map List.length))
        (by
          intro i s t hb ⟨ha, hbd⟩
          simp only [mol_xform_bond] at hb
          cases hr : s.bondMem.read mol.bonds i with
          | none => rw [hr] at hb; cases hb
          | some bd =>
            rw [hr] at hb
            simp only at hb
            cases hcc : compute_coords sqrt s bd with
            | none => rw [hcc] at hb; cases hb
            | some bd1 =>
              rw [hcc] at hb
              simp only at hb
              cases hw : s.bondMem.write mol.bonds i bd1 with
              | none => rw [hw] at hb; cases hb
              | some m =>
                rw [hw] at hb
                cases hb
                exact ⟨ha, fun q => by rw [Mem.write_block_length hw q]; exact hbd q⟩)
        mol.bond_no h1 h2 h2e P1
      exact ⟨rfl, P2.1, P2.2⟩

/-- A call of `molsort` that returns leaves the heap and all of the record but the two pointer
arrays, whose live ranges it permutes. -/
theorem molsort_shape (h : Heap R) (mol : molecule) (t : Heap R × molecule)
    (he : molsort h mol = some t) :
    t.1 = h ∧ t.2.atoms = mol.atoms ∧ t.2.bonds = mol.bonds ∧
    t.2.atom_no = mol.atom_no ∧ t.2.bond_no = mol.bond_no ∧
    t.2.atom_max = mol.atom_max ∧ t.2.bond_max = mol.bond_max ∧
    t.2.atom_ptrs.length = mol.atom_ptrs.length ∧ t.2.bond_ptrs.length = mol.bond_ptrs.length ∧
    (t.2.atom_ptrs.take mol.atom_no).Perm (mol.atom_ptrs.take mol.atom_no) ∧
    (t.2.bond_ptrs.take mol.bond_no).Perm (mol.bond_ptrs.take mol.bond_no) := by
  simp only [molsort] at he
  by_cases hg : mol.atom_no ≤ mol.atom_ptrs.length ∧ mol.bond_no ≤ mol.bond_ptrs.length
  · rw [if_pos hg] at he
    cases ha : qsort (atom_compare h) (mol.atom_ptrs.take mol.atom_no) with
    | none => rw [ha] at he; cases he
    | some sa =>
      cases hb : qsort (bond_compare h) (mol.bond_ptrs.take mol.bond_no) with
      | none => rw [ha, hb] at he; cases he
      | some sb =>
        rw [ha, hb] at he
        cases he
        have pa := qsort_perm _ _ _ ha
        have pb := qsort_perm _ _ _ hb
        have la : sa.length = mol.atom_no := by
          rw [pa.length_eq, List.length_take]; omega
        have lb : sb.length = mol.bond_no := by
          rw [pb.length_eq, List.length_take]; omega
        refine ⟨rfl, rfl, rfl, rfl, rfl, rfl, rfl, ?_, ?_, ?_, ?_⟩
        · simp only [List.length_append, la, List.length_drop]; omega
        · simp only [List.length_append, lb, List.length_drop]; omega
        · simp only
          rw [List.take_left' la]; exact pa
        · simp only
          rw [List.take_left' lb]; exact pb
  · rw [if_neg hg] at he; cases he

end

section
variable {R : Type}

theorem molappend_bond_overflow (h : Heap R) (mol : molecule) (a : bond R)
    (hs : bondStoreOk h mol) (he : mol.bond_no = mol.bond_max) (hbig : 32768 ≤ mol.bond_max) :
    molappend_bond h mol a = none := by
  obtain ⟨b, hb, hbl⟩ := bondStoreOk_block hs
  obtain ⟨-, hpl, hmax⟩ := hs
  have hU : USHRT = 65536 := rfl
  rw [hU] at hmax
  obtain ⟨nm, hnm⟩ : ∃ nm, nm = mol.bond_max * 2 - 65536 := ⟨_, rfl⟩
  have hnm1 : (if mol.bond_max = 0 then 1 else (mol.bond_max * 2) % USHRT) = nm := by
    rw [hnm, hU]
    split
    · omega
    · omega
  have hlt : nm < mol.bond_no := by omega
  obtain ⟨m1, p1, hre⟩ :
      ∃ m1 p1, h.bondMem.realloc mol.bonds nm (nextMove h.moves).1 = some (m1, p1) := by
    unfold Mem.realloc
    rw [hb]
    cases (nextMove h.moves).1 with
    | true => exact ⟨_, _, rfl⟩
    | false => exact ⟨_, _, rfl⟩
  obtain ⟨ps, hps, hpsl, -, -⟩ :=
    forLoop_setPtr p1 nm (resize nm mol.bond_ptrs) (by rw [length_resize])
  rw [length_resize] at hpsl
  have hfail : forLoop (setPtr p1) (nm + 1) (resize nm mol.bond_ptrs) = none := by
    simp [forLoop, hps, setPtr, hpsl]
  have hfail2 := forLoop_none (setPtr p1) (resize nm mol.bond_ptrs) (nm + 1) mol.bond_no
    (by omega) hfail
  unfold molappend_bond
  simp only [he, if_true]
  rw [hnm1, hre]
  simp only
  rw [← he, hfail2]

end

section
variable {R : Type}

/-- What a call of `molappend_atom` that returns does to the atom side of the container. -/
theorem molappend_atom_ptrs (h : Heap R) (mol : molecule) (a : atom R) (t : Heap R × molecule)
    (hs : atomStoreOk h mol) (hc : mol.atom_no ≤ mol.atom_max)
    (he : molappend_atom h mol a = some t) :
    atomStoreOk t.1 t.2 ∧ t.2.atom_no ≤ t.2.atom_max ∧
    ((mol.atom_ptrs.take mol.atom_no).Perm (identityPtrs mol.atoms mol.atom_no) →
      (t.2.atom_ptrs.take t.2.atom_no).Perm (identityPtrs t.2.atoms t.2.atom_no)) ∧
    (mol.atom_ptrs.take mol.atom_no = identityPtrs mol.atoms mol.atom_no →
      t.2.atom_ptrs.take t.2.atom_no = identityPtrs t.2.atoms t.2.atom_no) ∧
    t.1.bondMem = h.bondMem ∧ t.2.bonds = mol.bonds ∧ t.2.bond_ptrs = mol.bond_ptrs ∧
    t.2.bond_max = mol.bond_max ∧ t.2.bond_no = mol.bond_no := by
  have hroom : mol.atom_no < mol.atom_max ∨ mol.atom_max < 32768 := by
    by_contra hn
    have h1 : mol.atom_no = mol.atom_max := by omega
    have h2 : 32768 ≤ mol.atom_max := by omega
    rw [molappend_atom_overflow h mol a hs h1 h2] at he
    cases he
  obtain ⟨h1, mol1, e, hno, hmax, hs1, -, -, -, -, hbm, hbmax, hbno, hbonds, hbptrs, hlo, hat,
    hng⟩ := molappend_atom_spec h mol a hs hc hroom
  rw [e] at he
  cases he
  have hsucc : mol1.atom_ptrs.take mol1.atom_no =
      mol1.atom_ptrs.take mol.atom_no ++ [some ⟨mol1.atoms, mol.atom_no⟩] := by
    rw [hno]; exact take_succ_of_getElem? _ _ _ hat
  have hid : identityPtrs mol1.atoms mol1.atom_no =
      identityPtrs mol1.atoms mol.atom_no ++ [some ⟨mol1.atoms, mol.atom_no⟩] := by
    rw [hno]; exact identityPtrs_succ _ _
  have hcount : mol1.atom_no ≤ mol1.atom_max := by
    rw [hno, hmax]
    split
    · split <;> omega
    · omega
  refine ⟨hs1, hcount, ?_, ?_, hbm, hbonds, hbptrs, hbmax, hbno⟩
  · intro hp
    show (mol1.atom_ptrs.take mol1.atom_no).Perm (identityPtrs mol1.atoms mol1.atom_no)
    rw [hsucc, hid]
    apply List.Perm.append_right
    by_cases hg : mol.atom_max = mol.atom_no
    · have : mol1.atom_ptrs.take mol.atom_no = identityPtrs mol1.atoms mol.atom_no := by
        apply take_eq_map_range
        intro i hi
        rw [hlo i hi, if_pos hg]
      rw [this]
    · have hsame : mol1.atoms = mol.atoms := (hng (by omega)).1
      have : mol1.atom_ptrs.take mol.atom_no = mol.atom_ptrs.take mol.atom_no := by
        apply take_congr
        intro i hi
        rw [hlo i hi, if_neg hg]
      rw [this, hsame]; exact hp
  · intro hp
    show mol1.atom_ptrs.take mol1.atom_no = identityPtrs mol1.atoms mol1.atom_no
    rw [hsucc, hid]
    congr 1
    by_cases hg : mol.atom_max = mol.atom_no
    · apply take_eq_map_range
      intro i hi
      rw [hlo i hi, if_pos hg]
    · have hsame : mol1.atoms = mol.atoms := (hng (by omega)).1
      have : mol1.atom_ptrs.take mol.atom_no = mol.atom_ptrs.take mol.atom_no := by
        apply take_congr
        intro i hi
        rw [hlo i hi, if_neg hg]
      rw [this, hsame]; exact hp

end

section
variable {R : Type}

/-- What a call of `molappend_bond` that returns does to the bond side of the container. -/
theorem molappend_bond_ptrs (h : Heap R) (mol : molecule) (a : bond R) (t : Heap R × molecule)
    (hs : bondStoreOk h mol) (hc : mol.bond_no ≤ mol.bond_max)
    (he : molappend_bond h mol a = some t) :
    bondStoreOk t.1 t.2 ∧ t.2.bond_no ≤ t.2.bond_max ∧
    ((mol.bond_ptrs.take mol.bond_no).Perm (identityPtrs mol.bonds mol.bond_no) →
      (t.2.bond_ptrs.take t.2.bond_no).Perm (identityPtrs t.2.bonds t.2.bond_no)) ∧
    (mol.bond_ptrs.take mol.bond_no = identityPtrs mol.bonds mol.bond_no →
      t.2.bond_ptrs.take t.2.bond_no = identityPtrs t.2.bonds t.2.bond_no) ∧
    t.1.atomMem = h.atomMem ∧ t.2.atoms = mol.atoms ∧ t.2.atom_ptrs = mol.atom_ptrs ∧
    t.2.atom_max = mol.atom_max ∧ t.2.atom_no = mol.atom_no := by
  have hroom : mol.bond_no < mol.bond_max ∨ mol.bond_max < 32768 := by
    by_contra hn
    have h1 : mol.bond_no = mol.bond_max := by omega
    have h2 : 32768 ≤ mol.bond_max := by omega
    rw [molappend_bond_overflow h mol a hs h1 h2] at he
    cases he
  obtain ⟨h1, mol1, e, hno, hmax, hs1, -, -, -, -, hbm, hbmax, hbno, hatoms, hbptrs, hlo, hat,
    hng⟩ := molappend_bond_spec h mol a hs hc hroom
  rw [e] at he
  cases he
  have hsucc : mol1.bond_ptrs.take mol1.bond_no =
      mol1.bond_ptrs.take mol.bond_no ++ [some ⟨mol1.bonds, mol.bond_no⟩] := by
    rw [hno]; exact take_succ_of_getElem? _ _ _ hat
  have hid : identityPtrs mol1.bonds mol1.bond_no =
      identityPtrs mol1.bonds mol.bond_no ++ [some ⟨mol1.bonds, mol.bond_no⟩] := by
    rw [hno]; exact identityPtrs_succ _ _
  have hcount : mol1.bond_no ≤ mol1.bond_max := by
    rw [hno, hmax]
    split
    · split <;> omega
    · omega
  refine ⟨hs1, hcount, ?_, ?_, hbm, hatoms, hbptrs, hbmax, hbno⟩
  · intro hp
    show (mol1.bond_ptrs.take mol1.bond_no).Perm (identityPtrs mol1.bonds mol1.bond_no)
    rw [hsucc, hid]
    apply List.Perm.append_right
    by_cases hg : mol.bond_max = mol.bond_no
    · have : mol1.bond_ptrs.take mol.bond_no = identityPtrs mol1.bonds mol.bond_no := by
        apply take_eq_map_range
        intro i hi
        rw [hlo i hi, if_pos hg]
      rw [this]
    · have hsame : mol1.bonds = mol.bonds := (hng (by omega)).1
      have : mol1.bond_ptrs.take mol.bond_no = mol.bond_ptrs.take mol.bond_no := by
        apply take_congr
        intro i hi
        rw [hlo i hi, if_neg hg]
      rw [this, hsame]; exact hp
  · intro hp
    show mol1.bond_ptrs.take mol1.bond_no = identityPtrs mol1.bonds mol1.bond_no
    rw [hsucc, hid]
    congr 1
    by_cases hg : mol.bond_max = mol.bond_no
    · apply take_eq_map_range
      intro i hi
      rw [hlo i hi, if_pos hg]
    · have hsame : mol1.bonds = mol.bonds := (hng (by omega)).1
      have : mol1.bond_ptrs.take mol.bond_no = mol.bond_ptrs.take mol.bond_no := by
        apply take_congr
        intro i hi
        rw [hlo i hi, if_neg hg]
      rw [this, hsame]; exact hp

end

theorem ptrInv_molmalloc {R : Type} (h : Heap R) (a b : Nat) (ha : a < USHRT) (hb : b < USHRT) :
    ptrInv false (molmalloc h a b) :=
  ⟨molmalloc_atomStoreOk h a b ha, molmalloc_bondStoreOk h a b hb,
    ⟨Nat.zero_le _, Nat.zero_le _⟩, by simp [molmalloc, identityPtrs],
    by simp [molmalloc, identityPtrs], fun _ => by simp [molmalloc, identityPtrs]⟩

section
variable {R : Type} [LinearOrderedField R]

theorem ptrInv_step (sqrt : R → R) (f : Bool) (s t : Heap R × molecule) (o : Op R)
    (hI : ptrInv f s) (he : stepOp sqrt s o = some t) : ptrInv (f || o.isSort) t := by
  obtain ⟨hsa, hsb, hc, hpa, hpb, hid⟩ := hI
  cases o with
  | appendAtom a =>
    obtain ⟨hsa1, hc1, hp1, hi1, e1, e2, e3, e4, e5⟩ :=
      molappend_atom_ptrs s.1 s.2 a t hsa hc.1 he
    refine ⟨hsa1, bondStoreOk_congr hsb e1 e2 e3 e4, ⟨hc1, by rw [e5, e4]; exact hc.2⟩,
      hp1 hpa, by rw [e3, e5, e2]; exact hpb, ?_⟩
    intro hf
    have hf0 : f = false := by simpa [Op.isSort] using hf
    exact ⟨hi1 (hid hf0).1, by rw [e3, e5, e2]; exact (hid hf0).2⟩
  | appendBond b =>
    obtain ⟨hsb1, hc1, hp1, hi1, e1, e2, e3, e4, e5⟩ :=
      molappend_bond_ptrs s.1 s.2 b t hsb hc.2 he
    refine ⟨atomStoreOk_congr hsa e1 e2 e3 e4, hsb1, ⟨by rw [e5, e4]; exact hc.1, hc1⟩,
      by rw [e3, e5, e2]; exact hpa, hp1 hpb, ?_⟩
    intro hf
    have hf0 : f = false := by simpa [Op.isSort] using hf
    exact ⟨by rw [e3, e5, e2]; exact (hid hf0).1, hi1 (hid hf0).2⟩
  | sort =>
    obtain ⟨e1, e2, e3, e4, e5, e6, e7, l1, l2, p1, p2⟩ := molsort_shape s.1 s.2 t he
    refine ⟨?_, ?_, ⟨by rw [e4, e6]; exact hc.1, by rw [e5, e7]; exact hc.2⟩, ?_, ?_, ?_⟩
    · unfold atomStoreOk at hsa ⊢
      rw [e1, e2, e6, l1]; exact hsa
    · unfold bondStoreOk at hsb ⊢
      rw [e1, e3, e7, l2]; exact hsb
    · rw [e4, e2]; exact p1.trans hpa
    · rw [e5, e3]; exact p2.trans hpb
    · intro hf
      simp [Op.isSort] at hf
  | xform matrix =>
    obtain ⟨e1, la, lb⟩ := mol_xform_shape sqrt s.1 s.2 matrix t he
    refine ⟨?_, ?_, by rw [e1]; exact hc, by rw [e1]; exact hpa, by rw [e1]; exact hpb, ?_⟩
    · unfold atomStoreOk at hsa ⊢
      rw [e1, la]; exact hsa
    · unfold bondStoreOk at hsb ⊢
      rw [e1, lb]; exact hsb
    · intro hf
      have hf0 : f = false := by simpa [Op.isSort] using hf
      rw [e1]; exact hid hf0

theorem ptrInv_run (sqrt : R → R) (ops : List (Op R)) :
    ∀ (f : Bool) (s t : Heap R × molecule), ptrInv f s → runOps sqrt s ops = some t →
      ptrInv (f || ops.any Op.isSort) t := by
  induction ops with
  | nil =>
    intro f s t hI he
    simp only [runOps, Option.some.injEq] at he
    rw [← he]
    simpa using hI
  | cons o rest ih =>
    intro f s t hI he
    simp only [runOps] at he
    cases hs : stepOp sqrt s o with
    | none => rw [hs] at he; cases he
    | some s1 =>
      rw [hs] at he
      have := ih (f || o.isSort) s1 t (ptrInv_step sqrt f s s1 o hI hs) he
      simpa [List.any_cons, Bool.or_assoc] using this

/-- C16: in a container reached from `molmalloc` by appends of atoms and bonds, sorts and
transforms that all returned, `atoms` and `bonds` are live arrays of the size of the capacities,
the first `atom_no` entries of `atom_ptrs` are a permutation of the addresses of the elements
`0 .. atom_no - 1` of the current atom array, the first `bond_no` entries of `bond_ptrs` a
permutation of the addresses of the elements `0 .. bond_no - 1` of the current bond array, and
both are in identity order when `molsort` was not among the calls. -/
theorem reachable_ptrs_permutation (sqrt : R → R) (h : Heap R) (a b : Nat)
    (ops : List (Op R)) (s : Heap R × molecule) (ha : a < USHRT) (hb : b < USHRT)
    (hrun : runOps sqrt (molmalloc h a b) ops = some s) :
    atomStoreOk s.1 s.2 ∧ bondStoreOk s.1 s.2 ∧ countsOk s.2 ∧
    (s.2.atom_ptrs.take s.2.atom_no).Perm (identityPtrs s.2.atoms s.2.atom_no) ∧
    (s.2.bond_ptrs.take s.2.bond_no).Perm (identityPtrs s.2.bonds s.2.bond_no) ∧
    (ops.any Op.isSort = false →
      s.2.atom_ptrs.take s.2.atom_no = identityPtrs s.2.atoms s.2.atom_no ∧
      s.2.bond_ptrs.take s.2.bond_no = identityPtrs s.2.bonds s.2.bond_no) := by
  have := ptrInv_run sqrt ops false _ s (ptrInv_molmalloc h a b ha hb) hrun
  simpa [ptrInv] using this

end

/-- Instance of C16: the operations of `exOps` on an empty container, with an allocator that
moves the first three arrays it resizes. -/
theorem reachable_ptrs_permutation_witness :
    0 < USHRT ∧
    ∃ s, runOps (fun x => x) (molmalloc (⟨[], [], [true, true, true]⟩ : Heap ℚ) 0 0) exOps =
        some s ∧
      atomStoreOk s.1 s.2 ∧ bondStoreOk s.1 s.2 ∧ countsOk s.2 ∧
      (s.2.atom_ptrs.take s.2.atom_no).Perm (identityPtrs s.2.atoms s.2.atom_no) ∧
      (s.2.bond_ptrs.take s.2.bond_no).Perm (identityPtrs s.2.bonds s.2.bond_no) ∧
      (exOps.any Op.isSort = false →
        s.2.atom_ptrs.take s.2.atom_no = identityPtrs s.2.atoms s.2.atom_no ∧
        s.2.bond_ptrs.take s.2.bond_no = identityPtrs s.2.bonds s.2.bond_no) :=
  ⟨by decide, _, rfl,
    reachable_ptrs_permutation (fun x => x) ⟨[], [], [true, true, true]⟩ 0 0 exOps _
      (by decide) (by decide) rfl⟩

/-- Instance of C18: the two atoms of `exMolB` under the rotation about x by 30 degrees. -/
theorem rotation_is_rigid_witness :
    0 < exMolB.atom_no ∧ 1 < exMolB.atom_no ∧ traversable (exHeapB : Heap ℝ) exMolB ∧
    ∃ h2 p q p1 q1,
      mol_xform Real.sqrt (exHeapB : Heap ℝ) exMolB (xrotation Real.cos Real.sin Real.pi 30) =
        some (h2, exMolB) ∧
      (exHeapB : Heap ℝ).atomMem.read exMolB.atoms 0 = some p ∧
      (exHeapB : Heap ℝ).atomMem.read exMolB.atoms 1 = some q ∧
      h2.atomMem.read exMolB.atoms 0 = some p1 ∧ h2.atomMem.read exMolB.atoms 1 = some q1 ∧
      Real.sqrt ((p1.x - q1.x) ^ 2 + (p1.y - q1.y) ^ 2 + (p1.z - q1.z) ^ 2) =
        Real.sqrt ((p.x - q.x) ^ 2 + (p.y - q.y) ^ 2 + (p.z - q.z) ^ 2) :=
  ⟨by decide, by decide, by decide,
    (rotation_is_rigid exHeapB exMolB 30 0 1 (by decide) (by decide) (by decide)).1⟩

/-- Instance of C19 (amended): the rotation about z by 30 degrees on `exMolB`, whose bond
stores the mean depth 7 / 2 of its two atoms. -/
theorem rotation_forms_and_fixed_coordinates_witness :
    traversable (exHeapB : Heap ℝ) exMolB ∧
    ∃ h2, mol_xform Real.sqrt (exHeapB : Heap ℝ) exMolB
        (zrotation Real.cos Real.sin Real.pi 30) = some (h2, exMolB) ∧
      (∀ i, i < exMolB.atom_no → ∃ p p1,
        (exHeapB : Heap ℝ).atomMem.read exMolB.atoms i = some p ∧
        h2.atomMem.read exMolB.atoms i = some p1 ∧ p1.z = p.z) ∧
      (∀ j, j < exMolB.bond_no → ∃ b b1,
        (exHeapB : Heap ℝ).bondMem.read exMolB.bonds j = some b ∧
        h2.bondMem.read exMolB.bonds j = some b1 ∧
        ∀ A1 A2, (exHeapB : Heap ℝ).atomMem.read b.atoms b.a1 = some A1 →
          (exHeapB : Heap ℝ).atomMem.read b.atoms b.a2 = some A2 →
          b.z = (A1.z + A2.z) / 2 → b1.z = b.z) :=
  ⟨by decide,
    (rotation_forms_and_fixed_coordinates exHeapB exMolB 30 (by decide)).2.2.2.2.2⟩

/-- C11 (failing input): the copy of the bonded pair has its own atom array, but its bond
keeps the address of the atom array of the source; after `mol_xform` on the copy with the
matrix of `zrotation` for 90 degrees, the second atom of the copy is at (0, 1), and the
second endpoint of its bond still at (1, 0), where the second atom of the source is. -/
theorem molcopy_bond_refers_to_source :
    ∃ src dst h2 a b, bondedPair Real.sqrt ⟨[], [], []⟩ = some src ∧
      molcopy src.1 src.2 = some dst ∧
      mol_xform Real.sqrt dst.1 dst.2 (zrotation Real.cos Real.sin Real.pi 90) =
        some (h2, dst.2) ∧
      h2.atomMem.read dst.2.atoms 1 = some a ∧ a.x = 0 ∧ a.y = 1 ∧
      h2.bondMem.read dst.2.bonds 0 = some b ∧ b.a2 = 1 ∧
      b.atoms = src.2.atoms ∧ b.atoms ≠ dst.2.atoms ∧ b.x2 = 1 ∧ b.y2 = 0 := by
  obtain ⟨hc90, hs90⟩ := angle_90
  refine ⟨_, _, _, _, _, rfl, rfl, rfl, rfl, ?_, ?_, rfl, rfl, rfl, by decide, rfl, rfl⟩
  · simp [xform_atom, zrotation, hc90, hs90]
  · simp [xform_atom, zrotation, hc90, hs90]

section
variable {R : Type} [LinearOrderedField R]

theorem compute_coords_keeps_reference (sqrt : R → R) (h : Heap R) (b b1 : bond R)
    (he : compute_coords sqrt h b = some b1) :
    b1.atoms = b.atoms ∧ b1.a1 = b.a1 ∧ b1.a2 = b.a2 := by
  simp only [compute_coords] at he
  cases h1 : h.atomMem.read b.atoms b.a1 with
  | none => rw [h1] at he; cases he
  | some A1 =>
    cases h2 : h.atomMem.read b.atoms b.a2 with
    | none => rw [h1, h2] at he; cases he
    | some A2 =>
      rw [h1, h2] at he
      cases he
      exact ⟨rfl, rfl, rfl⟩

/-- A container that can be traversed can still be traversed after `mol_xform`. -/
theorem mol_xform_traversable (sqrt : R → R) (h h2 : Heap R) (mol : molecule)
    (matrix : xform_matrix R) (ht : traversable h mol)
    (he : mol_xform sqrt h mol matrix = some (h2, mol)) : traversable h2 mol := by
  obtain ⟨h3, e3, hrd, hfr, -, hrb, -⟩ := mol_xform_spec sqrt h mol matrix ht
  rw [e3] at he
  cases he
  have hkeep : ∀ q k, (h.atomMem.read q k).isSome = true →
      (h2.atomMem.read q k).isSome = true := by
    intro q k hk
    by_cases hq : q = mol.atoms
    · subst hq
      rw [hrd k]
      split
      · simpa using hk
      · exact hk
    · rw [Mem.read_congr (hfr q hq) k]; exact hk
  refine ⟨fun i hi => hkeep _ _ (ht.1 i hi), ?_⟩
  intro j hj
  have hres := ht.2 j hj
  cases hb : h.bondMem.read mol.bonds j with
  | none => rw [hb] at hres; exact absurd hres (by simp [slotResolves])
  | some bd =>
    rw [hb] at hres
    have hr2 : bondResolves h2 bd := ⟨hkeep _ _ hres.1, hkeep _ _ hres.2⟩
    obtain ⟨bd1, hbd1⟩ := compute_coords_ok sqrt hr2
    obtain ⟨k1, k2, k3⟩ := compute_coords_keeps_reference sqrt h2 bd bd1 hbd1
    have hnew : h2.bondMem.read mol.bonds j = some bd1 := by
      rw [hrb j, if_pos hj, hb]; exact hbd1
    rw [hnew]
    show bondResolves h2 bd1
    unfold bondResolves
    rw [k1, k2, k3]
    exact hr2

/-- Two calls of `mol_xform` in a row, against one call, when the matrices act on atoms as
the composition does. -/
theorem mol_xform_twice (sqrt : R → R) (h : Heap R) (mol : molecule)
    (m1 m2 m12 : xform_matrix R) (ht : traversable h mol)
    (hm : ∀ p : atom R, xform_atom m2 (xform_atom m1 p) = xform_atom m12 p) :
    ∃ h1 h2 h3, mol_xform sqrt h mol m1 = some (h1, mol) ∧
      mol_xform sqrt h1 mol m2 = some (h2, mol) ∧
      mol_xform sqrt h mol m12 = some (h3, mol) ∧
      ∀ i, i < mol.atom_no → (h2.atomMem.read mol.atoms i).isSome = true ∧
        h2.atomMem.read mol.atoms i = h3.atomMem.read mol.atoms i := by
  obtain ⟨h1, e1, hrd1, -⟩ := mol_xform_spec sqrt h mol m1 ht
  have ht1 := mol_xform_traversable sqrt h h1 mol m1 ht e1
  obtain ⟨h2, e2, hrd2, -⟩ := mol_xform_spec sqrt h1 mol m2 ht1
  obtain ⟨h3, e3, hrd3, -⟩ := mol_xform_spec sqrt h mol m12 ht
  refine ⟨h1, h2, h3, e1, e2, e3, ?_⟩
  intro i hi
  obtain ⟨p, hp⟩ := Option.isSome_iff_exists.mp (ht.1 i hi)
  have r2 : h2.atomMem.read mol.atoms i = some (xform_atom m12 p) := by
    rw [hrd2 i, if_pos hi, hrd1 i, if_pos hi, hp]
    simp only [Option.map_some']
    rw [hm p]
  have r3 : h3.atomMem.read mol.atoms i = some (xform_atom m12 p) := by
    rw [hrd3 i, if_pos hi, hp]; rfl
  exact ⟨by rw [r2]; rfl, by rw [r2, r3]⟩

end

theorem rotations_compose (a b : Nat) (p : atom ℝ) :
    xform_atom (xrotation Real.cos Real.sin Real.pi b)
      (xform_atom (xrotation Real.cos Real.sin Real.pi a) p) =
      xform_atom (xrotation Real.cos Real.sin Real.pi (a + b)) p ∧
    xform_atom (yrotation Real.cos Real.sin Real.pi b)
      (xform_atom (yrotation Real.cos Real.sin Real.pi a) p) =
      xform_atom (yrotation Real.cos Real.sin Real.pi (a + b)) p ∧
    xform_atom (zrotation Real.cos Real.sin Real.pi b)
      (xform_atom (zrotation Real.cos Real.sin Real.pi a) p) =
      xform_atom (zrotation Real.cos Real.sin Real.pi (a + b)) p := by
  have hang : ((a + b : Nat) : ℝ) * (Real.pi / 180) =
      (a : ℝ) * (Real.pi / 180) + (b : ℝ) * (Real.pi / 180) := by
    push_cast; ring
  have hc := Real.cos_add ((a : ℝ) * (Real.pi / 180)) ((b : ℝ) * (Real.pi / 180))
  have hs := Real.sin_add ((a : ℝ) * (Real.pi / 180)) ((b : ℝ) * (Real.pi / 180))
  refine ⟨?_, ?_, ?_⟩
  · simp only [xform_atom_eq, xrotation, hang, hc, hs, Matrix.cons_val_zero,
      Matrix.cons_val_one, Matrix.head_cons, Matrix.cons_val_two, Matrix.tail_cons]
    congr 1 <;> ring
  · simp only [xform_atom_eq, yrotation, hang, hc, hs, Matrix.cons_val_zero,
      Matrix.cons_val_one, Matrix.head_cons, Matrix.cons_val_two, Matrix.tail_cons]
    congr 1 <;> ring
  · simp only [xform_atom_eq, zrotation, hang, hc, hs, Matrix.cons_val_zero,
      Matrix.cons_val_one, Matrix.head_cons, Matrix.cons_val_two, Matrix.tail_cons]
    congr 1 <;> ring

/-- C21: with the exact cosine and sine and `PI` read as π, for degrees `a` and `b` whose sum
is an `unsigned short`, `mol_xform` with the matrix of `xrotation` (resp. `yrotation`,
`zrotation`) for `a` and then with the one for `b` leaves every atom below `atom_no` as one
`mol_xform` with the matrix for `a + b` does. -/
theorem rotations_compose_additively (h : Heap ℝ) (mol : molecule) (a b : Nat)
    (hab : a + b ≤ 65535) (ht : traversable h mol) :
    a + b < USHRT ∧
    (∃ h1 h2 h3,
      mol_xform Real.sqrt h mol (xrotation Real.cos Real.sin Real.pi a) = some (h1, mol) ∧
      mol_xform Real.sqrt h1 mol (xrotation Real.cos Real.sin Real.pi b) = some (h2, mol) ∧
      mol_xform Real.sqrt h mol (xrotation Real.cos Real.sin Real.pi (a + b)) = some (h3, mol) ∧
      ∀ i, i < mol.atom_no → (h2.atomMem.read mol.atoms i).isSome = true ∧
        h2.atomMem.read mol.atoms i = h3.atomMem.read mol.atoms i) ∧
    (∃ h1 h2 h3,
      mol_xform Real.sqrt h mol (yrotation Real.cos Real.sin Real.pi a) = some (h1, mol) ∧
      mol_xform Real.sqrt h1 mol (yrotation Real.cos Real.sin Real.pi b) = some (h2, mol) ∧
      mol_xform Real.sqrt h mol (yrotation Real.cos Real.sin Real.pi (a + b)) = some (h3, mol) ∧
      ∀ i, i < mol.atom_no → (h2.atomMem.read mol.atoms i).isSome = true ∧
        h2.atomMem.read mol.atoms i = h3.atomMem.read mol.atoms i) ∧
    (∃ h1 h2 h3,
      mol_xform Real.sqrt h mol (zrotation Real.cos Real.sin Real.pi a) = some (h1, mol) ∧
      mol_xform Real.sqrt h1 mol (zrotation Real.cos Real.sin Real.pi b) = some (h2, mol) ∧
      mol_xform Real.sqrt h mol (zrotation Real.cos Real.sin Real.pi (a + b)) = some (h3, mol) ∧
      ∀ i, i < mol.atom_no → (h2.atomMem.read mol.atoms i).isSome = true ∧
        h2.atomMem.read mol.atoms i = h3.atomMem.read mol.atoms i) :=
  ⟨Nat.lt_succ_of_le hab,
   mol_xform_twice _ h mol _ _ _ ht (fun p => (rotations_compose a b p).1),
   mol_xform_twice _ h mol _ _ _ ht (fun p => (rotations_compose a b p).2.1),
   mol_xform_twice _ h mol _ _ _ ht (fun p => (rotations_compose a b p).2.2)⟩

/-- Instance of C21: the rotations by 30 and by 60 degrees on `exMolB`. -/
theorem rotations_compose_additively_witness :
    30 + 60 ≤ 65535 ∧ traversable (exHeapB : Heap ℝ) exMolB ∧
    ∃ h1 h2 h3,
      mol_xform Real.sqrt (exHeapB : Heap ℝ) exMolB (zrotation Real.cos Real.sin Real.pi 30) =
        some (h1, exMolB) ∧
      mol_xform Real.sqrt h1 exMolB (zrotation Real.cos Real.sin Real.pi 60) =
        some (h2, exMolB) ∧
      mol_xform Real.sqrt (exHeapB : Heap ℝ) exMolB
        (zrotation Real.cos Real.sin Real.pi (30 + 60)) = some (h3, exMolB) ∧
      ∀ i, i < exMolB.atom_no → (h2.atomMem.read exMolB.atoms i).isSome = true ∧
        h2.atomMem.read exMolB.atoms i = h3.atomMem.read exMolB.atoms i :=
  ⟨by decide, by decide,
    (rotations_compose_additively exHeapB exMolB 30 60 (by decide) (by decide)).2.2.2⟩

/-! ### Values computed from binary64 constants -/

/-- Whatever rational value `PI` has, the matrix of `zrotation` for 90 degrees has a first
entry other than zero, also with the exact cosine: π is irrational. -/
theorem zrotation_90_rational_PI (q : ℚ) :
    zrotation Real.cos Real.sin ((q : ℚ) : ℝ) 90 0 0 ≠ 0 := by
  show Real.cos (((90 : ℕ) : ℝ) * ((q : ℝ) / 180)) ≠ 0
  intro h0
  obtain ⟨k, hk⟩ := Real.cos_eq_zero_iff.mp h0
  have h2k : ((2 * k + 1 : ℤ) : ℝ) ≠ 0 := by
    have : (2 * k + 1 : ℤ) ≠ 0 := by omega
    exact_mod_cast this
  have hpi : Real.pi = ((q / (2 * k + 1 : ℤ) : ℚ) : ℝ) := by
    push_cast
    push_cast at h2k hk
    field_simp
    field_simp at hk
    linarith
  exact irrational_pi.ne_rat _ hpi

end Molecule
